import Mathlib

/-!
Shallow embedding (in Lean 4) of the spacemeshos/merkle-tree streaming Merkle
tree library, translated from the Go sources.  Node values are kept abstract
(a type `α`), because the hash function is an injected parameter of the
library; the hash and the padding value are explicit parameters of every
definition.  Machine integers (`uint64`, `uint`) are modelled as `Nat`; the
indices and heights involved never approach 2^64 in any reachable state of the
theorems below, and no arithmetic here wraps.

Source files referenced throughout (paths relative to the repository):
 * merkle.go / tree state machine  (`Tree`, `layer`, `AddLeaf`, `RootAndProof`,
   `GetParkedNodes`, `SetParkedNodes`, `calcParent`, `calcEphemeralParent`,
   `sparseBoolStack`)
 * treebuilder.go (`TreeBuilder`, `NewTree`, `NewProvingTree`, `NewCachingTree`)
 * cache/cache.go (`Writer`, `GetLayerWriter`, `SetLayer`, `GetReader`,
   `validateStructure`), cache/readwriters (`SliceReadWriter`)
 * position.go (`Position`, `sibling`, `parent`, `leftChild`, `isAncestorOf`,
   `isRightSibling`, `String`)
 * proving.go (`GenerateProof`, `calcSubtreeProof`, `traverseSubtree`,
   `GetNode`, `calcNode`, `subtreeDefinition`, iterators)
 * validation.go (`ValidatePartialTree`, `newValidator`, `CalcRoot`)
-/

namespace Merkle

/-- Go errors observed through the layer reader/writer interface: the
distinguished `io.EOF` and ordinary message-carrying errors. -/
inductive GoErr where
  | eof
  | msg (s : String)
deriving DecidableEq, Repr

/-- `node` from merkle.go: a value plus the `OnProvenPath` flag.  A Go `nil`
byte slice is modelled as `none`; `IsEmpty` is `value == nil`. -/
structure PNode (α : Type) where
  value : Option α
  onPath : Bool
deriving DecidableEq, Repr

def PNode.isEmpty {α : Type} (n : PNode α) : Bool := n.value.isNone

/-- The zero `node` (`EmptyNode` in merkle.go). -/
def emptyNode {α : Type} : PNode α := ⟨none, false⟩

/-- `PaddingValue`: the padding node (all-zero bytes in Go, `pad` here). -/
def paddingNode {α : Type} (pad : α) : PNode α := ⟨some pad, false⟩

/-- A layer read-writer.  `slice` is `SliceReadWriter` from
cache/readwriters/slice.go (an in-memory list of nodes plus a read cursor),
generalized with an `errPlan` so that failing `Append` implementations of the
`LayerWriter` interface (used by the AddLeaf caching-error tests) are also
instances of this type: each `Append` consumes one entry of the plan, and an
entry `some m` makes that append fail with message `m` without storing.
`seekErrReader` is the `seekErrorReader` test double from proving_test.go:
`Seek` always fails with the given message, `Width` returns `w`. -/
inductive Rdr (α : Type) where
  | slice (data : List α) (pos : Nat) (errPlan : List (Option String))
  | seekErrReader (e : String) (w : Nat)
deriving DecidableEq, Repr

namespace Rdr

variable {α : Type}

/-- `Width()` (never fails for these implementations). -/
def width : Rdr α → Nat
  | .slice data _ _ => data.length
  | .seekErrReader _ w => w

/-- `Seek(index)`: for a slice, `io.EOF` when `index >= len(slice)`, otherwise
reposition the cursor. -/
def seek : Rdr α → Nat → Rdr α × Option GoErr
  | .slice data pos plan, i =>
      if data.length ≤ i then (.slice data pos plan, some .eof)
      else (.slice data i plan, none)
  | .seekErrReader e w, _ => (.seekErrReader e w, some (.msg e))

/-- `ReadNext()`: the node under the cursor (advancing it), or `io.EOF`. -/
def readNext : Rdr α → Rdr α × Except GoErr α
  | .slice data pos plan =>
      if h : pos < data.length then (.slice data (pos + 1) plan, .ok (data.get ⟨pos, h⟩))
      else (.slice data pos plan, .error .eof)
  | .seekErrReader e w => (.seekErrReader e w, .error (.msg "implement me"))

/-- `Append(p)`: store the node (consuming the error plan; a planned `some m`
fails with `m` and stores nothing, like a failing `LayerWriter`). -/
def append : Rdr α → α → Rdr α × Option String
  | .slice data pos [], v => (.slice (data ++ [v]) pos [], none)
  | .slice data pos (none :: rest), v => (.slice (data ++ [v]) pos rest, none)
  | .slice data pos (some m :: rest), _ => (.slice data pos rest, some m)
  | .seekErrReader e w, _ => (.seekErrReader e w, none)

/-- Strip the append-error plan (the "no caching failures" counterpart). -/
def stripPlan : Rdr α → Rdr α
  | .slice data pos _ => .slice data pos []
  | .seekErrReader e w => .seekErrReader e w

end Rdr

/-- The cache (cache/cache.go `cache` behind `Writer`/`Reader`): a map from
height to layer (`store`, indexed by position, `none` = absent), the caching
policy and the layer factory.  The factory is total: all factories exercised by
the library's in-scope flows (`MakeSliceReadWriterFactory`) never fail. -/
structure CacheSt (α : Type) where
  store : List (Option (Rdr α))
  policy : Nat → Bool
  factory : Nat → Rdr α

namespace CacheSt

variable {α : Type}

/-- Look up the layer at a height (Go map read). -/
def getAt (c : CacheSt α) (h : Nat) : Option (Rdr α) :=
  (c.store.getD h none)

/-- Install a layer at a height (Go map write), padding the list as needed. -/
def setAt (c : CacheSt α) (h : Nat) (rw : Rdr α) : CacheSt α :=
  { c with store := (c.store ++ List.replicate (h + 1 - c.store.length) none).set h (some rw) }

/-- `Writer.GetLayerWriter`: return the existing layer if present; otherwise
create one through the factory when the policy admits the height; otherwise no
writer (`nil` in Go, modelled as the returned flag being `false`). -/
def getLayerWriter (c : CacheSt α) (h : Nat) : CacheSt α × Bool :=
  match c.getAt h with
  | some _ => (c, true)
  | none => if c.policy h then (c.setAt h (c.factory h), true) else (c, false)

/-- Append a node to the layer cached at height `h` (no-op when absent; the
tree only calls this for heights it holds a writer for). -/
def appendAt (c : CacheSt α) (h : Nat) (v : α) : CacheSt α × Option String :=
  match c.getAt h with
  | some rw =>
      let (rw', e) := rw.append v
      (c.setAt h rw', e)
  | none => (c, none)

/-- `Writer.SetLayer`: install an external layer unconditionally. -/
def setLayer (c : CacheSt α) (h : Nat) (rw : Rdr α) : CacheSt α := c.setAt h rw

/-- Strip every layer's append-error plan. -/
def stripPlans (c : CacheSt α) : CacheSt α :=
  { c with store := c.store.map (fun o => o.map Rdr.stripPlan) }

end CacheSt

/-- The cache writer used when no caching was requested
(`disabledCacheWriter` in treebuilder.go): empty store, rejecting policy. -/
def disabledCache {α : Type} : CacheSt α :=
  ⟨[], fun _ => false, fun _ => .slice [] 0 []⟩

/-- `layer` from merkle.go: the parked node and whether this layer holds a
cache writer.  The writer itself lives in the cache, keyed by the layer's
height (which is the layer's position in the tree's layer list). -/
structure GoLayer (α : Type) where
  parking : PNode α
  hasCache : Bool
deriving DecidableEq, Repr

/-- The streaming `Tree` (merkle.go): layer list (base layer first), the
accumulated proof, the `sparseBoolStack` cursor over the sorted
leaves-to-prove (`toProve` = remaining sorted true indices, `curIdx` =
`currentIndex`), the minimum height, and the shared cache writer state. -/
structure GoTree (α : Type) where
  layers : List (GoLayer α)
  proof : List α
  toProve : List Nat
  curIdx : Nat
  minHeight : Nat
  cache : CacheSt α

/-- `sparseBoolStack.Pop`: returns whether the current index is the next true
index, advancing the cursor (the empty stack returns `false` without
advancing, per the early return in the Go code). -/
def sbsPop (toProve : List Nat) (cur : Nat) : Bool × List Nat × Nat :=
  match toProve with
  | [] => (false, [], cur)
  | x :: rest => if cur = x then (true, rest, cur + 1) else (false, x :: rest, cur + 1)

variable {α : Type}

/-- `calcParent`: hash the two children's values, or-ing the proven-path
flags.  Both children always carry a value on every reachable call; `dfl`
stands in for Go's `nil` argument and is never hashed in reachable states. -/
def calcParent (hash : α → α → α) (dfl : α) (l r : PNode α) : PNode α :=
  ⟨some (hash (l.value.getD dfl) (r.value.getD dfl)), l.onPath || r.onPath⟩

/-- The proof-emission rule of `AddLeaf`/`RootAndProof`: when the parent is on
the proven path, each child that is not on the path joins the proof (left
child first). -/
def emitChildren (dfl : α) (parent lC rC : PNode α) : List α :=
  if parent.onPath then
    (if lC.onPath then [] else [lC.value.getD dfl])
      ++ (if rC.onPath then [] else [rC.value.getD dfl])
  else []

/-- The layer loop of `Tree.AddLeaf` (merkle.go), starting at height `h` over
the given layer-list suffix: append the node to the layer's cache writer (when
present, recording a wrapped caching error), then either park it (empty
parking) or reduce with the parked left sibling, emit proof nodes, clear the
parking (the Go code nils only the value, keeping the stale flag) and carry
the parent to the next layer, creating that layer — and obtaining its cache
writer — when it does not exist yet.  Returns the updated layer suffix and
cache, the emitted proof nodes in order, and the last caching error. -/
def wrapCaching (e : Option String) (lastErr : Option String) : Option String :=
  match e with
  | some m => some ("error while caching: " ++ m)
  | none => lastErr

def propagate (hash : α → α → α) (dfl : α) :
    PNode α → Nat → List (GoLayer α) → CacheSt α → Option String →
    List (GoLayer α) × CacheSt α × List α × Option String
  | _, _, [], cache, lastErr => ([], cache, [], lastErr)
  | n, h, l :: rest, cache, lastErr =>
    let ca := if l.hasCache then cache.appendAt h (n.value.getD dfl) else (cache, none)
    let lastErr1 := wrapCaching ca.2 lastErr
    if l.parking.isEmpty then
      ({ l with parking := n } :: rest, ca.1, [], lastErr1)
    else
      let lC := l.parking
      let parent := calcParent hash dfl lC n
      let em := emitChildren dfl parent lC n
      let cleared : GoLayer α := { l with parking := { value := none, onPath := l.parking.onPath } }
      match rest with
      | [] =>
        -- ensureNextLayerExists creates the next layer; the fresh layer's
        -- parking is empty, so the carried parent is cached there and parked.
        let cw := ca.1.getLayerWriter (h + 1)
        let cb := if cw.2 then cw.1.appendAt (h + 1) (parent.value.getD dfl) else (cw.1, none)
        ([cleared, { parking := parent, hasCache := cw.2 }], cb.1, em, wrapCaching cb.2 lastErr1)
      | r :: rs =>
        let res := propagate hash dfl parent (h + 1) (r :: rs) ca.1 lastErr1
        (cleared :: res.1, res.2.1, em ++ res.2.2.1, res.2.2.2)

/-- `Tree.AddLeaf`: pop the proven-path flag for the incoming leaf and run the
layer loop from the base layer.  Returns the new tree and the last caching
error (nil when no cache append failed). -/
def addLeaf (hash : α → α → α) (dfl : α) (t : GoTree α) (v : α) : GoTree α × Option String :=
  let p := sbsPop t.toProve t.curIdx
  let n : PNode α := ⟨some v, p.1⟩
  let res := propagate hash dfl n 0 t.layers t.cache none
  ({ t with
      layers := res.1
      cache := res.2.1
      proof := t.proof ++ res.2.2.1
      toProve := p.2.1
      curIdx := p.2.2 }, res.2.2.2)

/-- Add a whole leaf sequence in order, discarding the per-leaf errors. -/
def addAll (hash : α → α → α) (dfl : α) (t : GoTree α) (ls : List α) : GoTree α :=
  ls.foldl (fun t v => (addLeaf hash dfl t v).1) t

/-- `calcEphemeralParent`: combine the layer parking and the ephemeral node,
padding the right side when one of them is missing; both missing yields the
empty node triple. -/
def calcEphemeralParent (hash : α → α → α) (dfl pad : α) (parking eph : PNode α) :
    PNode α × PNode α × PNode α :=
  if ¬parking.isEmpty ∧ ¬eph.isEmpty then
    (calcParent hash dfl parking eph, parking, eph)
  else if ¬parking.isEmpty ∧ eph.isEmpty then
    (calcParent hash dfl parking (paddingNode pad), parking, paddingNode pad)
  else if parking.isEmpty ∧ ¬eph.isEmpty then
    (calcParent hash dfl eph (paddingNode pad), eph, paddingNode pad)
  else (emptyNode, emptyNode, emptyNode)

/-- The finalization loop of `Tree.RootAndProof`: walk the layers bottom-up
carrying the ephemeral node (and extending the proof), until both the
materialized layers are exhausted and the minimum height is reached.  On the
last materialized layer, once past the minimum height, an empty ephemeral node
means the tree is balanced and the parked node is the root. -/
def finalizeLoop (hash : α → α → α) (dfl pad : α) (minHeight : Nat) :
    Nat → List (GoLayer α) → PNode α → List α → Option α × List α
  | height, [], eph, proof =>
    if minHeight ≤ height then (eph.value, proof)
    else
      let r := calcEphemeralParent hash dfl pad emptyNode eph
      finalizeLoop hash dfl pad minHeight (height + 1) [] r.1
        (proof ++ emitChildren dfl r.1 r.2.1 r.2.2)
  | height, l :: rest, eph, proof =>
    if minHeight ≤ height ∧ rest.isEmpty ∧ eph.isEmpty then
      (l.parking.value, proof)
    else
      let r := calcEphemeralParent hash dfl pad l.parking eph
      finalizeLoop hash dfl pad minHeight (height + 1) rest r.1
        (proof ++ emitChildren dfl r.1 r.2.1 r.2.2)
  termination_by height layers => layers.length + (minHeight - height)
  decreasing_by
    · simp only [List.length_nil]
      omega
    · simp only [List.length_cons]
      omega

/-- `Tree.RootAndProof` (a nil root is `none`). -/
def rootAndProof (hash : α → α → α) (dfl pad : α) (t : GoTree α) : Option α × List α :=
  finalizeLoop hash dfl pad t.minHeight 0 t.layers emptyNode t.proof

/-- `Tree.Root`. -/
def treeRootOf (hash : α → α → α) (dfl pad : α) (t : GoTree α) : Option α :=
  (rootAndProof hash dfl pad t).1

/-- `Tree.Proof`. -/
def treeProofOf (hash : α → α → α) (dfl pad : α) (t : GoTree α) : List α :=
  (rootAndProof hash dfl pad t).2

/-- `TreeBuilder.Build` (treebuilder.go): obtain the base-layer writer from
the cache writer and start with the single base layer.  `toProve` is the
sorted list of distinct leaves-to-prove (`Set.AsSortedSlice`). -/
def buildTree (toProve : List Nat) (cache : CacheSt α) (minHeight : Nat) : GoTree α :=
  let cw := cache.getLayerWriter 0
  { layers := [{ parking := emptyNode, hasCache := cw.2 }]
    proof := []
    toProve := toProve
    curIdx := 0
    minHeight := minHeight
    cache := cw.1 }

/-- `NewTree()`. -/
def newTree : GoTree α := buildTree [] disabledCache 0

/-- `NewProvingTree(leavesToProve)`. -/
def newProvingTree (toProve : List Nat) : GoTree α := buildTree toProve disabledCache 0

/-- `NewCachingTree(cacheWriter)`. -/
def newCachingTree (cache : CacheSt α) : GoTree α := buildTree [] cache 0

/-- `Tree.GetParkedNodes`: the parked value of every layer, bottom-up. -/
def getParkedNodes (t : GoTree α) : List (Option α) :=
  t.layers.map (fun l => l.parking.value)

/-- The walk of `Tree.SetParkedNodes`: set each non-nil value into the
corresponding layer's parking (keeping the stale flag), creating the next
layer (and its cache writer) for every entry but the last. -/
def setParkedLoop (cache : CacheSt α) :
    Nat → List (Option α) → List (GoLayer α) → List (GoLayer α) × CacheSt α
  | _, [], ls => (ls, cache)
  | _, _ :: _, [] => ([], cache)
  | h, nd :: nrest, l :: lrest =>
    let l' : GoLayer α := match nd with
      | some v => { l with parking := { l.parking with value := some v } }
      | none => l
    if nrest.isEmpty then (l' :: lrest, cache)
    else
      match lrest with
      | [] =>
        let cw := cache.getLayerWriter (h + 1)
        let res := setParkedLoop cw.1 (h + 1) nrest [{ parking := emptyNode, hasCache := cw.2 }]
        (l' :: res.1, res.2)
      | r :: rs =>
        let res := setParkedLoop cache (h + 1) nrest (r :: rs)
        (l' :: res.1, res.2)
  termination_by _ nodes => nodes.length

/-- `Tree.SetParkedNodes`. -/
def setParkedNodes (t : GoTree α) (nodes : List (Option α)) : GoTree α :=
  let res := setParkedLoop t.cache 0 nodes t.layers
  { t with layers := res.1, cache := res.2 }

/-! ## Position algebra (position.go) -/

/-- `Position`: (index, height), height 0 = leaf layer. -/
structure Pos where
  index : Nat
  height : Nat
deriving DecidableEq, Repr

def Pos.sibling (p : Pos) : Pos := ⟨p.index ^^^ 1, p.height⟩

def Pos.parent (p : Pos) : Pos := ⟨p.index >>> 1, p.height + 1⟩

def Pos.leftChild (p : Pos) : Pos := ⟨p.index <<< 1, p.height - 1⟩

def Pos.isAncestorOf (p q : Pos) : Bool :=
  if p.height < q.height then false else p.index = q.index >>> (p.height - q.height)

def Pos.isRightSibling (p : Pos) : Bool := p.index % 2 = 1

/-- Go's `%b` formatting of an index (binary digits, `0` for zero). -/
def binStr (n : Nat) : String := String.mk (Nat.toDigits 2 n)

/-- `Position.String()`: the form `<h: H i: I>` with `I` binary-formatted. -/
def Pos.toStr (p : Pos) : String :=
  "<h: " ++ toString p.height ++ " i: " ++ binStr p.index ++ ">"

/-- `RootHeightFromWidth` (shared/utils.go): `ceil(log2(width))`.  The Go code
computes this through `float64`; `Nat.clog 2` is its exact value for every
width below 2^53, far beyond any cache used by the library's flows. -/
def rootHeightFromWidth (width : Nat) : Nat := Nat.clog 2 width

/-! ## Proof validation (validation.go)

The validator is translated with its `storeSnapshots = false` specialization
(the snapshot bookkeeping of `CalcRoot` writes only to the snapshot lists and
never influences the root value or the error).  The later revisions'
`HashFunc` carries a scratch-buffer first argument (passed as `nil`); that
buffer is a pure allocation optimization, so the hash is `α → α → α` here. -/

/-- Validator-side errors: `noMoreItems` (utils.go) plus a fuel sentinel for
the embedding's explicitly bounded recursion (proved unreachable for the fuel
`validatePartialTree` supplies). -/
inductive VErr where
  | noMoreItems
  | fuel
deriving DecidableEq, Repr

/-- One activation of `Validator.CalcRoot` after its initial leaf pop: climb
from `pos` carrying `active`, consuming proven leaves and proof nodes, until
the stop layer is reached (`stop = some h`; the top-level call's
`stopAtLayer = MaxUint` is `none`, a height never attained) or the proof
stream runs out.  A sibling that is an ancestor of the next proven leaf is
computed by a recursive activation (pop that leaf, climb to the current
height) instead of being read from the proof.  Children are ordered by
`isRightSibling`.  Fuel bounds the total number of steps. -/
def climb (hash : α → α → α) :
    Nat → Option Nat → Pos → α → List (Nat × α) → List α →
    Except VErr (α × List (Nat × α) × List α)
  | 0, _, _, _, _, _ => .error .fuel
  | fuel + 1, stop, pos, active, leaves, proof =>
    if stop = some pos.height then .ok (active, leaves, proof)
    else
      match leaves with
      | (nidx, nval) :: lrest =>
        if pos.sibling.isAncestorOf ⟨nidx, 0⟩ then
          match climb hash fuel (some pos.height) ⟨nidx, 0⟩ nval lrest proof with
          | .error e => .error e
          | .ok (sib, leaves', proof') =>
            let next := if pos.isRightSibling then hash sib active else hash active sib
            climb hash fuel stop pos.parent next leaves' proof'
        else
          match proof with
          | [] => .ok (active, leaves, proof)
          | sib :: proof' =>
            let next := if pos.isRightSibling then hash sib active else hash active sib
            climb hash fuel stop pos.parent next leaves proof'
      | [] =>
        match proof with
        | [] => .ok (active, leaves, proof)
        | sib :: proof' =>
          let next := if pos.isRightSibling then hash sib active else hash active sib
          climb hash fuel stop pos.parent next leaves proof'

/-- `Validator.CalcRoot`: pop the first proven leaf and climb. -/
def calcRoot (hash : α → α → α) (fuel : Nat) (stop : Option Nat)
    (leaves : List (Nat × α)) (proof : List α) :
    Except VErr (α × List (Nat × α) × List α) :=
  match leaves with
  | [] => .error .noMoreItems
  | (idx, v) :: rest => climb hash fuel stop ⟨idx, 0⟩ v rest proof

/-- `sort.SliceIsSorted` with a strict `<` comparator: adjacent elements are
non-decreasing. -/
def isSortedLe : List Nat → Bool
  | [] => true
  | [_] => true
  | a :: b :: rest => a ≤ b && isSortedLe (b :: rest)

/-- The fuel `validatePartialTree` supplies; `climb_fuel_sufficient` below
shows it can never run out. -/
def validatorFuel (leaves : List (Nat × α)) (proof : List α) : Nat :=
  2 * leaves.length + proof.length + 1

/-- `ValidatePartialTree` (validation.go): the four `newValidator` pre-checks
in source order, then `CalcRoot(MaxUint)` and comparison with the expected
root.  Returns Go's `(bool, error)` pair. -/
def validatePartialTree [DecidableEq α] (hash : α → α → α)
    (leafIndices : List Nat) (leaves proof : List α) (expectedRoot : α) :
    Bool × Option String :=
  if leafIndices.length ≠ leaves.length then
    (false, some ("number of leaves (" ++ toString leaves.length
      ++ ") must equal number of indices (" ++ toString leafIndices.length ++ ")"))
  else if leaves.length = 0 then
    (false, some "at least one leaf is required for validation")
  else if ¬isSortedLe leafIndices then
    (false, some "leafIndices are not sorted")
  else if leafIndices.dedup.length ≠ leafIndices.length then
    (false, some "leafIndices contain duplicates")
  else
    let lfs := leafIndices.zip leaves
    match calcRoot hash (validatorFuel lfs proof) none lfs proof with
    | .ok (root, _, _) => (root = expectedRoot, none)
    | .error .noMoreItems => (false, some "no more items")
    | .error .fuel => (false, some "fuel")

/-! ## Cache reader construction (cache/cache.go) -/

/-- The check loop of `validateStructure`: for every present layer `i` below
the root height, its width must be the base width shifted right `i` times;
the first mismatch is reported. -/
def validateLoop (c : CacheSt α) (width0 : Nat) : Nat → Nat → Option String
  | _, 0 => none
  | i, remaining + 1 =>
    match c.getAt i with
    | some layer =>
      if layer.width ≠ width0 >>> i then
        some ("reader at layer " ++ toString i ++ " has width "
          ++ toString layer.width ++ " instead of " ++ toString (width0 >>> i))
      else validateLoop c width0 (i + 1) remaining
    | none => validateLoop c width0 (i + 1) remaining

/-- `cache.validateStructure`: base layer present and non-empty, and every
present layer below the root height has the expected (progressively
right-shifted) width. -/
def validateStructure (c : CacheSt α) : Option String :=
  match c.getAt 0 with
  | none => some "reader for base layer must be included"
  | some base =>
    if base.width = 0 then some "base layer cannot be empty"
    else validateLoop c base.width 0 (rootHeightFromWidth base.width)

/-- `Writer.GetReader`: flush every layer (a no-op for the layer
implementations modelled here) and validate the structure; on success the
same map is served read-only. -/
def getReader (c : CacheSt α) : Except String (CacheSt α) :=
  match validateStructure c with
  | some e => .error e
  | none => .ok c

/-! ## Proof generation (proving.go) -/

/-- Errors of the generation path: an ordinary Go error carrying its message,
the `ErrMissingValueAtBaseLayer` sentinel (whose Go message is
"reader for base layer must be included" in this revision), a runtime panic
from calling a method on a nil interface (the Go process would crash), and a
fuel sentinel for the outer loop of `generateProof` (the Go loop's progress is
arithmetic, not structural; the sentinel is proved unreachable). -/
inductive PErr where
  | goerr (s : String)
  | missingBase
  | nilPanic
  | fuel
deriving DecidableEq, Repr

/-- `error.Error()` for the errors a layer reader can produce. -/
def goErrMsg : GoErr → String
  | .eof => "EOF"
  | .msg s => s

/-- `traverseSubtree`: build a local proving tree with
`minHeight = RootHeightFromWidth(width)`, feed it up to `width` leaves from
the reader — substituting the external padding value exactly once on an early
`EOF`, or stopping there if none was supplied — collecting the leaves whose
relative index is in `leavesToProve`; return the local root (Go: possibly
nil), proof and collected leaves. -/
def traverseLoop (hash : α → α → α) (dfl : α) (leavesToProve : List Nat) :
    Nat → Nat → Rdr α → GoTree α → Bool → Option α → List α →
    Except String (GoTree α × List α)
  | 0, _, _, t, _, _, pl => .ok (t, pl)
  | remaining + 1, i, reader, t, useExt, ext, pl =>
    let rr := reader.readNext
    match rr.2 with
    | .error .eof =>
      if useExt then
        let leaf := ext.getD dfl
        match addLeaf hash dfl t leaf with
        | (_, some m) => .error ("while adding a leaf: " ++ m)
        | (t', none) =>
          let pl' := if leavesToProve.contains i then pl ++ [leaf] else pl
          traverseLoop hash dfl leavesToProve remaining (i + 1) rr.1 t' false ext pl'
      else .ok (t, pl)
    | .error (.msg m) => .error ("while reading a leaf: " ++ m)
    | .ok leaf =>
      match addLeaf hash dfl t leaf with
      | (_, some m) => .error ("while adding a leaf: " ++ m)
      | (t', none) =>
        let pl' := if leavesToProve.contains i then pl ++ [leaf] else pl
        traverseLoop hash dfl leavesToProve remaining (i + 1) rr.1 t' useExt ext pl'

def traverseSubtree (hash : α → α → α) (dfl pad : α) (reader : Rdr α)
    (width : Nat) (leavesToProve : List Nat) (externalPadding : Option α) :
    Except String (Option α × List α × List α) :=
  let t0 : GoTree α := buildTree leavesToProve disabledCache (rootHeightFromWidth width)
  match traverseLoop hash dfl leavesToProve width 0 reader t0
      externalPadding.isSome externalPadding [] with
  | .error m => .error m
  | .ok (t, pl) =>
    let rp := rootAndProof hash dfl pad t
    .ok (rp.1, rp.2, pl)

/-- The descent loop of `calcNode`: from the left child downwards, look the
layer up (a missing layer makes the Go code call `Seek` on a nil interface —
a panic) and seek; success stops the descent, a seek `EOF` at the base layer
short-circuits to the padding value, any other seek error is wrapped.  The
found position is strictly below the starting one (recorded in the result
type, for the termination of `calcNode`). -/
def calcNodeDescend (pad : α) (c : CacheSt α) :
    (cur : Pos) → 0 < cur.height →
    Except PErr (Sum α { pr : Pos × Rdr α // pr.1.height < cur.height })
  | cur, hc =>
    let st := cur.leftChild
    have hst : st.height < cur.height := by
      simp only [st, Pos.leftChild]
      omega
    match c.getAt st.height with
    | none => .error .nilPanic
    | some reader =>
      let sr := reader.seek st.index
      match sr.2 with
      | none => .ok (.inr ⟨(st, sr.1), hst⟩)
      | some (.msg m) =>
        .error (.goerr ("while seeking to Position " ++ st.toStr ++ " in cache: " ++ m))
      | some .eof =>
        if h0 : st.height = 0 then .ok (.inl pad)
        else
          match calcNodeDescend pad c st (Nat.pos_of_ne_zero h0) with
          | .error e => .error e
          | .ok (.inl v) => .ok (.inl v)
          | .ok (.inr ⟨pr, hpr⟩) => .ok (.inr ⟨pr, hpr.trans hst⟩)
  termination_by cur => cur.height

/-- `calcNode` (proving.go): at the base layer the value is missing; otherwise
descend to a seekable cached layer, compute the ephemeral padding value
recursively when the subtree sticks out past the layer's width (a missing
base-layer value becomes the padding value), and traverse the subtree.  (The
debug print of this revision is omitted.) -/
def calcNode (hash : α → α → α) (dfl pad : α) (c : CacheSt α) : Pos → Except PErr α
  | pos =>
    if hp : pos.height = 0 then .error .missingBase
    else
      match calcNodeDescend pad c pos (Nat.pos_of_ne_zero hp) with
      | .error e => .error e
      | .ok (.inl v) => .ok v
      | .ok (.inr ⟨(st, reader), _hlt⟩) =>
        let width := 1 <<< (pos.height - st.height)
        let readerWidth := reader.width
        let padRes : Except PErr (Option α) :=
          if st.index + width ≤ readerWidth then .ok none
          else
            match calcNode hash dfl pad c ⟨readerWidth, st.height⟩ with
            | .error .missingBase => .ok (some pad)
            | .error (.goerr m) =>
              .error (.goerr ("while calculating ephemeral node at Position "
                ++ Pos.toStr ⟨readerWidth, st.height⟩ ++ ": " ++ m))
            | .error .nilPanic => .error .nilPanic
            | .error .fuel => .error .fuel
            | .ok v => .ok (some v)
        match padRes with
        | .error e => .error e
        | .ok paddingValue =>
          match traverseSubtree hash dfl pad reader width [] paddingValue with
          | .error m => .error (.goerr ("while traversing subtree for root: " ++ m))
          | .ok (root?, _, _) => .ok (root?.getD dfl)
  termination_by pos => pos.height

/-- `GetNode` (proving.go): read the node from its layer's cache, falling back
to `calcNode` when the layer is missing or the seek hits `EOF`; a genuine seek
error is wrapped with the position-annotated prefix. -/
def getNode (hash : α → α → α) (dfl pad : α) (c : CacheSt α) (pos : Pos) : Except PErr α :=
  match c.getAt pos.height with
  | none => calcNode hash dfl pad c pos
  | some reader =>
    let sr := reader.seek pos.index
    match sr.2 with
    | some .eof => calcNode hash dfl pad c pos
    | some (.msg m) =>
      .error (.goerr ("while seeking to Position " ++ pos.toStr ++ " in cache: " ++ m))
    | none =>
      match (sr.1.readNext).2 with
      | .error ge => .error (.goerr ("while reading from cache: " ++ goErrMsg ge))
      | .ok v => .ok v

/-- The root of the height-`k` padded subtree whose first `|ls|` leaves are
`ls` (meaningful for `1 ≤ |ls| ≤ 2^k`): a missing right half contributes the
padding value directly (the library pads with `PaddingValue` at every height,
not with a recursively padded subtree). -/
def padRoot (hash : α → α → α) (pad : α) : Nat → List α → α
  | 0, ls => ls.headD pad
  | k + 1, ls =>
    if ls.length ≤ 2 ^ k then hash (padRoot hash pad k ls) pad
    else hash (padRoot hash pad k (ls.take (2 ^ k))) (padRoot hash pad k (ls.drop (2 ^ k)))

/-- The ordered multi-leaf proof of the height-`k` padded subtree over leaf
segment `ls` for the (relative, sorted) proven indices `is`: depth-first, a
half without proven leaves contributes its root after (left half) or before
(right half) the recursion into the other half, and both halves recurse in
leaf order when both hold proven leaves. -/
def proofSpec (hash : α → α → α) (pad : α) : Nat → List α → List Nat → List α
  | _, _, [] => []
  | 0, _, _ :: _ => []
  | k + 1, ls, i :: irest =>
    let is := i :: irest
    let isl := is.filter (fun j => j < 2 ^ k)
    let isr := (is.filter (fun j => ¬j < 2 ^ k)).map (fun j => j - 2 ^ k)
    let left := ls.take (2 ^ k)
    let right := ls.drop (2 ^ k)
    if isr.isEmpty then
      proofSpec hash pad k left isl
        ++ [if right.isEmpty then pad else padRoot hash pad k right]
    else if isl.isEmpty then
      proofSpec hash pad k right isr ++ [padRoot hash pad k left]
    else
      proofSpec hash pad k left isl ++ proofSpec hash pad k right isr

/-- The part of `proofSpec` already emitted by `AddLeaf` while the tree is
still under construction (before finalization), for `|ls| ≤ 2^k`: emissions
happen inside every completed block. -/
def partialEmit (hash : α → α → α) (pad : α) : Nat → List α → List Nat → List α
  | 0, _, _ => []
  | k + 1, ls, is =>
    if ls.length = 2 ^ (k + 1) then proofSpec hash pad (k + 1) ls is
    else if ls.length ≤ 2 ^ k then partialEmit hash pad k ls is
    else
      proofSpec hash pad k (ls.take (2 ^ k)) (is.filter (fun j => j < 2 ^ k))
        ++ partialEmit hash pad k (ls.drop (2 ^ k))
            ((is.filter (fun j => ¬j < 2 ^ k)).map (fun j => j - 2 ^ k))

/-- The part of `proofSpec` emitted during finalization (`RootAndProof`), for
`|ls| ≤ 2^k`: bottom-up along the ragged right edge. -/
def finalEmit (hash : α → α → α) (pad : α) : Nat → List α → List Nat → List α
  | 0, _, _ => []
  | k + 1, ls, is =>
    if ls.length = 2 ^ (k + 1) then []
    else if ls.length ≤ 2 ^ k then
      finalEmit hash pad k ls is ++ if is.isEmpty then [] else [pad]
    else
      let isl := is.filter (fun j => j < 2 ^ k)
      let isr := (is.filter (fun j => ¬j < 2 ^ k)).map (fun j => j - 2 ^ k)
      finalEmit hash pad k (ls.drop (2 ^ k)) isr
        ++ if is.isEmpty then []
           else
             (if isl.isEmpty then [padRoot hash pad k (ls.take (2 ^ k))] else [])
               ++ (if isr.isEmpty then [padRoot hash pad k (ls.drop (2 ^ k))] else [])

/-- The values a fully-cached layer at height `j` holds after the leaves `ls`
were streamed in: one root per completed block of `2^j` leaves. -/
def levelVals (hash : α → α → α) (pad : α) (j : Nat) (ls : List α) : List α :=
  (List.range (ls.length / 2 ^ j)).map
    (fun q => padRoot hash pad j ((ls.drop (q * 2 ^ j)).take (2 ^ j)))

/-- Normalize a parked node: a slot without a value is the empty node. -/
def normP (p : PNode α) : PNode α := if p.value.isSome then p else emptyNode

/-- Point update of a height-indexed log. -/
def updF (f : Nat → List α) (h : Nat) (v : List α) : Nat → List α :=
  fun j => if j = h then v else f j

/-- The model of one delivery: walk up the parked columns pairing with each
occupied slot, logging every visited height, parking at the first empty slot
(or extending the column list at the top). -/
def mDeliver (hash : α → α → α) (dfl : α) :
    PNode α → Nat → List (PNode α) → (Nat → List α) →
    List (PNode α) × (Nat → List α) × List α
  | n, h, [], lg => ([n], updF lg h (lg h ++ [n.value.getD dfl]), [])
  | n, h, p :: prest, lg =>
    let lg1 := updF lg h (lg h ++ [n.value.getD dfl])
    if p.value.isNone then (n :: prest, lg1, [])
    else
      let parent := calcParent hash dfl p n
      let r := mDeliver hash dfl parent (h + 1) prest lg1
      (emptyNode :: r.1, r.2.1, emitChildren dfl parent p n ++ r.2.2)

/-- The model construction state. -/
structure MState (α : Type) where
  parks : List (PNode α)
  log : Nat → List α
  toProve : List Nat
  curIdx : Nat
  proof : List α

def mAddLeaf (hash : α → α → α) (dfl : α) (M : MState α) (v : α) : MState α :=
  let p := sbsPop M.toProve M.curIdx
  let r := mDeliver hash dfl ⟨some v, p.1⟩ 0 M.parks M.log
  ⟨r.1, r.2.1, p.2.1, p.2.2, M.proof ++ r.2.2⟩

def mAddAll (hash : α → α → α) (dfl : α) (M : MState α) (ls : List α) : MState α :=
  ls.foldl (mAddLeaf hash dfl) M

/-- The model of the finalization walk, over bare parked nodes. -/
def mFinalize (hash : α → α → α) (dfl pad : α) (minHeight : Nat) :
    Nat → List (PNode α) → PNode α → List α → Option α × List α
  | height, [], eph, proof =>
    if minHeight ≤ height then (eph.value, proof)
    else
      let r := calcEphemeralParent hash dfl pad emptyNode eph
      mFinalize hash dfl pad minHeight (height + 1) [] r.1
        (proof ++ emitChildren dfl r.1 r.2.1 r.2.2)
  | height, p :: rest, eph, proof =>
    if minHeight ≤ height ∧ rest.isEmpty ∧ eph.isEmpty then
      (p.value, proof)
    else
      let r := calcEphemeralParent hash dfl pad p eph
      mFinalize hash dfl pad minHeight (height + 1) rest r.1
        (proof ++ emitChildren dfl r.1 r.2.1 r.2.2)
  termination_by height parks => parks.length + (minHeight - height)
  decreasing_by
    · simp only [List.length_nil]
      omega
    · simp only [List.length_cons]
      omega

/-- Feed a list of values through a reader's `Append`. -/
def appendAll (r : Rdr α) (vs : List α) : Rdr α :=
  vs.foldl (fun r v => (r.append v).1) r

/-- The simulation relation between an embedded tree and the model, for a
cache that started from an empty store with policy `p` and factory `f`. -/
def Sim (p : Nat → Bool) (f : Nat → Rdr α) (t : GoTree α) (M : MState α) : Prop :=
  M.parks = t.layers.map (fun l => normP l.parking)
  ∧ M.proof = t.proof
  ∧ M.toProve = t.toProve
  ∧ M.curIdx = t.curIdx
  ∧ (∀ j, j < t.layers.length → (t.layers.getD j ⟨emptyNode, false⟩).hasCache = p j)
  ∧ (∀ j, t.layers.length ≤ j → M.log j = [])
  ∧ (∀ j, t.cache.getAt j =
      if p j ∧ (j = 0 ∨ j < t.layers.length) then some (appendAll (f j) (M.log j)) else none)
  ∧ t.cache.policy = p
  ∧ t.cache.factory = f

section SimLemmas

variable (hash : α → α → α) (dfl pad : α)

theorem normP_of_isSome {p : PNode α} (h : p.value.isSome) : normP p = p := by
  simp [normP, h]

theorem calcParent_value_isSome (a b : PNode α) :
    (calcParent hash dfl a b).value.isSome := rfl

theorem normP_idem (p : PNode α) : normP (normP p) = normP p := by
  unfold normP
  cases hv : p.value.isSome <;> simp [hv, emptyNode]

theorem getD_append_replicate_none (l : List (Option (Rdr α))) (k j : Nat) :
    (l ++ List.replicate k none).getD j none = l.getD j none := by
  rcases lt_or_ge j l.length with hj | hj
  · rw [List.getD_eq_getElem?_getD, List.getD_eq_getElem?_getD,
      List.getElem?_append]
    rw [if_pos hj]
  · rw [List.getD_eq_getElem?_getD, List.getD_eq_getElem?_getD,
      List.getElem?_append_right hj, List.getElem?_eq_none (show l.length ≤ j from hj)]
    rcases lt_or_ge (j - l.length) k with hk | hk
    · rw [List.getElem?_replicate, if_pos hk]
      rfl
    · rw [List.getElem?_eq_none (by simpa using hk)]

theorem CacheSt.getAt_setAt (c : CacheSt α) (h h' : Nat) (rw : Rdr α) :
    (c.setAt h rw).getAt h' = if h' = h then some rw else c.getAt h' := by
  have hlen : h < (c.store ++ List.replicate (h + 1 - c.store.length) none).length := by
    simp only [List.length_append, List.length_replicate]
    omega
  unfold CacheSt.setAt CacheSt.getAt
  simp only
  rw [List.getD_eq_getElem?_getD, List.getElem?_set]
  by_cases heq : h = h'
  · subst heq
    rw [if_pos rfl, if_pos hlen, if_pos rfl]
    rfl
  · rw [if_neg heq, if_neg (fun hh => heq hh.symm), ← List.getD_eq_getElem?_getD,
      getD_append_replicate_none]

theorem CacheSt.policy_setAt (c : CacheSt α) (h : Nat) (rw : Rdr α) :
    (c.setAt h rw).policy = c.policy := rfl

theorem CacheSt.factory_setAt (c : CacheSt α) (h : Nat) (rw : Rdr α) :
    (c.setAt h rw).factory = c.factory := rfl

theorem appendAll_snoc (r : Rdr α) (vs : List α) (v : α) :
    appendAll r (vs ++ [v]) = ((appendAll r vs).append v).1 := by
  simp [appendAll, List.foldl_append]

theorem CacheSt.appendAt_of_getAt {c : CacheSt α} {h : Nat} {R : Rdr α}
    (hg : c.getAt h = some R) (v : α) :
    c.appendAt h v = (c.setAt h (R.append v).1, (R.append v).2) := by
  unfold CacheSt.appendAt
  rw [hg]

/-- The cache-side invariant used through the propagation walk: the layers
present in the store are exactly the policy-admitted heights among the
existing tree layers (and height 0), and each holds the factory's layer fed
with everything logged for that height. -/
def CacheInv (p : Nat → Bool) (f : Nat → Rdr α) (bound : Nat)
    (cache : CacheSt α) (lg : Nat → List α) : Prop :=
  (∀ j, cache.getAt j =
    if p j ∧ (j = 0 ∨ j < bound) then some (appendAll (f j) (lg j)) else none)
  ∧ cache.policy = p ∧ cache.factory = f

/-- One cache append step preserves the invariant, moving to the updated
log, provided the height is inside the bound. -/
theorem CacheInv.append {p : Nat → Bool} {f : Nat → Rdr α} {bound : Nat}
    {cache : CacheSt α} {lg : Nat → List α}
    (hi : CacheInv p f bound cache lg) {h : Nat} (hh : h < bound) (hp : p h = true) (v : α) :
    CacheInv p f bound (cache.appendAt h v).1 (updF lg h (lg h ++ [v])) := by
  obtain ⟨hget, hpol, hfac⟩ := hi
  have hg : cache.getAt h = some (appendAll (f h) (lg h)) := by
    rw [hget h, if_pos ⟨hp, Or.inr hh⟩]
  rw [CacheSt.appendAt_of_getAt hg v]
  refine ⟨fun j => ?_, hpol, hfac⟩
  simp only [CacheSt.getAt_setAt]
  by_cases hj : j = h
  · subst hj
    rw [if_pos rfl, if_pos ⟨hp, Or.inr hh⟩, updF, if_pos rfl, appendAll_snoc]
  · rw [if_neg hj, hget j, updF, if_neg hj]

/-- The conditional cache append of `propagate`, in terms of the invariant:
the tree appends exactly when the layer holds a writer (= the policy admits
its height), and the model logs unconditionally. -/
theorem CacheInv.condAppend {p : Nat → Bool} {f : Nat → Rdr α} {bound : Nat}
    {cache : CacheSt α} {lg : Nat → List α}
    (hi : CacheInv p f bound cache lg) {h : Nat} (hh : h < bound) (v : α) :
    CacheInv p f bound
      (if p h then (cache.appendAt h v).1 else cache)
      (updF lg h (lg h ++ [v])) := by
  cases hp : p h with
  | true =>
    rw [if_pos rfl]
    exact hi.append hh hp v
  | false =>
    rw [if_neg (by simp)]
    obtain ⟨hget, hpol, hfac⟩ := hi
    refine ⟨fun j => ?_, hpol, hfac⟩
    by_cases hj : j = h
    · subst hj
      rw [hget j, if_neg (by simp [hp]), if_neg (by simp [hp])]
    · rw [hget j, updF, if_neg hj]

end SimLemmas


section PropagateSim
variable {α : Type} (hash : α → α → α) (dfl pad : α)

theorem updF_self (f : Nat → List α) (h : Nat) (v : List α) : updF f h v h = v := by
  simp [updF]

theorem updF_ne (f : Nat → List α) (h : Nat) (v : List α) {j : Nat} (hne : j ≠ h) :
    updF f h v j = f j := by
  simp [updF, hne]

theorem propagate_sim (p : Nat → Bool) (f : Nat → Rdr α) :
    ∀ (L : List (GoLayer α)) (h : Nat) (cache : CacheSt α) (le : Option String)
      (n : PNode α) (lg : Nat → List α),
    L ≠ [] → n.value.isSome = true →
    (∀ j, j < L.length → (L.getD j ⟨emptyNode, false⟩).hasCache = p (h + j)) →
    (∀ j, h + L.length ≤ j → lg j = []) →
    CacheInv p f (h + L.length) cache lg →
    (propagate hash dfl n h L cache le).1.map (fun l => normP l.parking)
        = (mDeliver hash dfl n h (L.map (fun l => normP l.parking)) lg).1
    ∧ (propagate hash dfl n h L cache le).2.2.1
        = (mDeliver hash dfl n h (L.map (fun l => normP l.parking)) lg).2.2
    ∧ (∀ j, j < (propagate hash dfl n h L cache le).1.length →
        ((propagate hash dfl n h L cache le).1.getD j ⟨emptyNode, false⟩).hasCache = p (h + j))
    ∧ (∀ j, h + (propagate hash dfl n h L cache le).1.length ≤ j →
        (mDeliver hash dfl n h (L.map (fun l => normP l.parking)) lg).2.1 j = [])
    ∧ CacheInv p f (h + (propagate hash dfl n h L cache le).1.length)
        (propagate hash dfl n h L cache le).2.1
        (mDeliver hash dfl n h (L.map (fun l => normP l.parking)) lg).2.1 := by
  intro L
  induction L with
  | nil => intro h cache le n lg hne; exact absurd rfl hne
  | cons l L2 IH =>
    intro h cache le n lg _ hsome hflags hlgtop hinv
    have hc0 : l.hasCache = p h := by simpa using hflags 0 (by simp)
    have hca1 : (if l.hasCache then cache.appendAt h (n.value.getD dfl) else (cache, none)).1
        = if p h then (cache.appendAt h (n.value.getD dfl)).1 else cache := by
      rw [hc0]; split <;> rfl
    have hupd : CacheInv p f (h + (l :: L2).length)
        (if l.hasCache then cache.appendAt h (n.value.getD dfl) else (cache, none)).1
        (updF lg h (lg h ++ [n.value.getD dfl])) := by
      rw [hca1]
      exact hinv.condAppend (by simp) (n.value.getD dfl)
    by_cases hpark : l.parking.value.isNone
    · -- park on this layer
      have hm : normP l.parking = emptyNode := by
        simp [normP, Option.isNone_iff_eq_none.mp hpark]
      simp only [List.map_cons, hm]
      rw [propagate, mDeliver]
      simp only [PNode.isEmpty, hpark, if_true]
      simp only [show (emptyNode : PNode α).value.isNone = true from rfl, if_true]
      refine ⟨?_, ?_, ?_, ?_, ?_⟩
      · simp [normP_of_isSome hsome]
      · trivial
      · intro j hj
        cases j with
        | zero => simpa using hc0
        | succ jj => simpa using hflags (jj + 1) (by simpa using hj)
      · intro j hj
        simp only [List.length_cons] at hj
        simp only [updF]
        rw [if_neg (by omega), hlgtop j (by simpa using hj)]
      · simpa using hupd
    · -- pair with the parked left sibling
      have hmsome : l.parking.value.isSome = true := by
        cases hv : l.parking.value with
        | none => rw [hv] at hpark; simp at hpark
        | some v => rfl
      have hm : normP l.parking = l.parking := normP_of_isSome hmsome
      have hnone : l.parking.value.isNone = false := by
        cases hv : l.parking.value with
        | none => rw [hv] at hpark; simp at hpark
        | some v => rfl
      cases L2 with
      | nil =>
        -- last layer: create the next one and park there
        simp only [List.length_cons, List.length_nil, Nat.zero_add] at hupd hlgtop
        simp only [List.map_cons, List.map_nil, hm]
        rw [propagate, mDeliver]
        simp only [PNode.isEmpty, hnone, Bool.false_eq_true, if_false]
        rw [mDeliver]
        obtain ⟨hget, hpol, hfac⟩ := hupd
        have hacnone :
            (if l.hasCache then cache.appendAt h (n.value.getD dfl) else (cache, none)).1.getAt (h + 1)
              = none := by
          rw [hget (h + 1), if_neg]
          rintro ⟨-, hc⟩
          rcases hc with hc | hc <;> omega
        have hglw :
            (if l.hasCache then cache.appendAt h (n.value.getD dfl) else (cache, none)).1.getLayerWriter (h + 1)
              = if p (h + 1)
                then ((if l.hasCache then cache.appendAt h (n.value.getD dfl) else (cache, none)).1.setAt
                        (h + 1) (f (h + 1)), true)
                else ((if l.hasCache then cache.appendAt h (n.value.getD dfl) else (cache, none)).1, false) := by
          unfold CacheSt.getLayerWriter
          rw [hacnone, hpol, hfac]
        rw [hglw]
        cases hp1 : p (h + 1) with
        | true =>
          rw [if_pos rfl]
          have happ :
              ((if l.hasCache then cache.appendAt h (n.value.getD dfl) else (cache, none)).1.setAt
                (h + 1) (f (h + 1))).appendAt (h + 1)
                ((calcParent hash dfl l.parking n).value.getD dfl)
              = (((if l.hasCache then cache.appendAt h (n.value.getD dfl) else (cache, none)).1.setAt
                  (h + 1) (f (h + 1))).setAt (h + 1)
                  ((f (h + 1)).append ((calcParent hash dfl l.parking n).value.getD dfl)).1,
                 ((f (h + 1)).append ((calcParent hash dfl l.parking n).value.getD dfl)).2) := by
            refine CacheSt.appendAt_of_getAt ?_ _
            rw [CacheSt.getAt_setAt, if_pos rfl]
          rw [if_pos rfl, happ]
          dsimp only
          refine ⟨by simp [emptyNode, normP, calcParent], by simp, ?_, ?_, ?_, ?_, ?_⟩
          · intro j hj
            simp only [List.length_cons, List.length_nil] at hj
            interval_cases j
            · simpa using hc0
            · simpa using hp1
          · intro j hj
            simp only [List.length_cons, List.length_nil] at hj
            rw [updF_ne _ _ _ (by omega), updF_ne _ _ _ (by omega), hlgtop j (by omega)]
          · intro j
            simp only [CacheSt.getAt_setAt, List.length_cons, List.length_nil]
            by_cases hj : j = h + 1
            · subst hj
              rw [if_pos rfl, if_pos ⟨hp1, Or.inr (by omega)⟩, updF_self,
                updF_ne _ _ _ (by omega), hlgtop (h + 1) (by omega)]
              simp [appendAll]
            · rw [if_neg hj, if_neg hj, hget j, updF_ne _ _ _ hj]
              by_cases hcnd : p j = true ∧ (j = 0 ∨ j < h + 1)
              · rw [if_pos hcnd, if_pos ⟨hcnd.1, by
                  rcases hcnd.2 with h2 | h2
                  · exact Or.inl h2
                  · exact Or.inr (by omega)⟩]
              · rw [if_neg hcnd, if_neg (fun hc => hcnd ⟨hc.1, by
                  rcases hc.2 with h2 | h2
                  · exact Or.inl h2
                  · exact Or.inr (by omega)⟩)]
          · rw [CacheSt.policy_setAt, CacheSt.policy_setAt]
            exact hpol
          · rw [CacheSt.factory_setAt, CacheSt.factory_setAt]
            exact hfac
        | false =>
          rw [if_neg (show ¬(false = true) by simp)]
          dsimp only
          rw [if_neg (show ¬(false = true) by simp)]
          dsimp only
          refine ⟨by simp [emptyNode, normP, calcParent], by simp, ?_, ?_, ?_, ?_, ?_⟩
          · intro j hj
            simp only [List.length_cons, List.length_nil] at hj
            interval_cases j
            · simpa using hc0
            · simpa using hp1
          · intro j hj
            simp only [List.length_cons, List.length_nil] at hj
            rw [updF_ne _ _ _ (by omega), updF_ne _ _ _ (by omega), hlgtop j (by omega)]
          · intro j
            simp only [List.length_cons, List.length_nil]
            by_cases hj : j = h + 1
            · subst hj
              rw [hget (h + 1), if_neg (by simp [hp1]), if_neg (by simp [hp1])]
            · rw [hget j, updF_ne _ _ _ hj]
              by_cases hcnd : p j = true ∧ (j = 0 ∨ j < h + 1)
              · rw [if_pos hcnd, if_pos ⟨hcnd.1, by
                  rcases hcnd.2 with h2 | h2
                  · exact Or.inl h2
                  · exact Or.inr (by omega)⟩]
              · rw [if_neg hcnd, if_neg (fun hc => hcnd ⟨hc.1, by
                  rcases hc.2 with h2 | h2
                  · exact Or.inl h2
                  · exact Or.inr (by omega)⟩)]
          · exact hpol
          · exact hfac
      | cons r rs =>
        have hIH := IH (h + 1)
          (if l.hasCache then cache.appendAt h (n.value.getD dfl) else (cache, none)).1
          (wrapCaching (if l.hasCache then cache.appendAt h (n.value.getD dfl) else (cache, none)).2 le)
          (calcParent hash dfl l.parking n)
          (updF lg h (lg h ++ [n.value.getD dfl]))
          (by simp) rfl
          (by
            intro j hj
            have := hflags (j + 1) (by simpa using Nat.succ_lt_succ hj)
            simpa [Nat.add_assoc, Nat.add_comm 1 j] using this)
          (by
            intro j hj
            rw [updF_ne _ _ _ (by simp at hj ⊢; omega)]
            exact hlgtop j (by simp at hj ⊢; omega))
          (by
            have : h + 1 + (r :: rs).length = h + (l :: r :: rs).length := by
              simp
              omega
            rw [this]
            exact hupd)
        obtain ⟨hm1, hm2, hm3, hm4, hm5⟩ := hIH
        simp only [List.map_cons, hm]
        rw [propagate, mDeliver]
        simp only [PNode.isEmpty, hnone, Bool.false_eq_true, if_false]
        refine ⟨?_, ?_, ?_, ?_, ?_⟩
        · simp only [List.map_cons]
          rw [hm1]
          simp [emptyNode, normP]
        · rw [hm2]
          simp only [List.map_cons]
        · intro j hj
          cases j with
          | zero => simpa using hc0
          | succ jj =>
            simp only [List.length_cons] at hj
            have := hm3 jj (by omega)
            simpa [Nat.add_assoc, Nat.add_comm 1 jj] using this
        · intro j hj
          simp only [List.length_cons] at hj
          refine hm4 j ?_
          omega
        · simp only [List.length_cons]
          rw [Nat.add_assoc] at hm5
          rw [Nat.add_comm 1 _] at hm5
          exact hm5

end PropagateSim


section TreeSim
variable {α : Type} (hash : α → α → α) (dfl pad : α)

theorem addLeaf_sim {p : Nat → Bool} {f : Nat → Rdr α} {t : GoTree α} {M : MState α}
    (hs : Sim p f t M) (hne : t.layers ≠ []) (v : α) :
    Sim p f (addLeaf hash dfl t v).1 (mAddLeaf hash dfl M v)
    ∧ (addLeaf hash dfl t v).1.layers ≠ [] := by
  obtain ⟨hparks, hproof, htp, hci, hflags, hlog, hget, hpol, hfac⟩ := hs
  have hps := propagate_sim hash dfl p f t.layers 0 t.cache none
      ⟨some v, (sbsPop t.toProve t.curIdx).1⟩ M.log hne rfl
      (by
        intro j hj
        rw [Nat.zero_add]
        exact hflags j hj)
      (by
        intro j hj
        exact hlog j (by omega))
      (by
        rw [Nat.zero_add]
        exact ⟨hget, hpol, hfac⟩)
  obtain ⟨h1, h2, h3, h4, h5⟩ := hps
  simp only [Nat.zero_add] at h3 h4 h5
  have hmap : M.parks = t.layers.map (fun l => normP l.parking) := hparks
  constructor
  · refine ⟨?_, ?_, ?_, ?_, ?_, ?_, ?_, ?_, ?_⟩
    · simp only [addLeaf, mAddLeaf, htp, hci, hmap]
      exact h1.symm
    · simp only [addLeaf, mAddLeaf, htp, hci, hmap, hproof]
      rw [h2]
    · simp only [addLeaf, mAddLeaf, htp, hci]
    · simp only [addLeaf, mAddLeaf, htp, hci]
    · simp only [addLeaf]
      exact h3
    · intro j hj
      simp only [addLeaf] at hj
      simp only [mAddLeaf, htp, hci, hmap]
      exact h4 j hj
    · intro j
      simp only [addLeaf, mAddLeaf, htp, hci, hmap]
      exact h5.1 j
    · simp only [addLeaf]
      exact h5.2.1
    · simp only [addLeaf]
      exact h5.2.2
  · simp only [addLeaf]
    intro hcon
    have : (List.map (fun l => normP l.parking)
        (propagate hash dfl ⟨some v, (sbsPop t.toProve t.curIdx).1⟩ 0 t.layers t.cache none).1) = [] := by
      rw [hcon]
      rfl
    rw [h1] at this
    cases hM : t.layers.map (fun l => normP l.parking) with
    | nil => exact hne (by simpa using hM)
    | cons a as =>
      rw [hM] at this
      cases as with
      | nil =>
        rw [mDeliver] at this
        by_cases hav : a.value.isNone = true
        · rw [if_pos hav] at this
          simp at this
        · rw [if_neg hav] at this
          simp at this
      | cons b bs =>
        rw [mDeliver] at this
        by_cases hav : a.value.isNone
        · simp only [hav, if_pos rfl] at this
          simp at this
        · simp only [hav] at this
          simp at this

theorem addAll_sim {p : Nat → Bool} {f : Nat → Rdr α} {t : GoTree α} {M : MState α}
    (hs : Sim p f t M) (hne : t.layers ≠ []) (ls : List α) :
    Sim p f (addAll hash dfl t ls) (mAddAll hash dfl M ls)
    ∧ (addAll hash dfl t ls).layers ≠ [] := by
  induction ls generalizing t M with
  | nil => exact ⟨hs, hne⟩
  | cons a as IH =>
    have h1 := addLeaf_sim hash dfl hs hne a
    have h2 := IH h1.1 h1.2
    simpa only [addAll, mAddAll, List.foldl_cons] using h2

theorem buildTree_sim (p : Nat → Bool) (f : Nat → Rdr α) (toProve : List Nat) (minHeight : Nat) :
    Sim p f (buildTree toProve (⟨[], p, f⟩ : CacheSt α) minHeight)
      ⟨[emptyNode], fun _ => [], toProve, 0, []⟩
    ∧ (buildTree toProve (⟨[], p, f⟩ : CacheSt α) minHeight).layers ≠ [] := by
  constructor
  · refine ⟨?_, rfl, rfl, rfl, ?_, ?_, ?_, ?_, ?_⟩
    · simp [buildTree, normP, emptyNode]
    · intro j hj
      simp only [buildTree, List.length_cons, List.length_nil] at hj
      interval_cases j
      simp only [buildTree, List.getD_cons_zero, CacheSt.getLayerWriter, CacheSt.getAt,
        List.getD_nil]
      cases hp0 : p 0 <;> simp [hp0]
    · intro j hj
      rfl
    · intro j
      simp only [buildTree, CacheSt.getLayerWriter, CacheSt.getAt, List.getD_nil]
      cases hp0 : p 0 with
      | true =>
        simp only [if_pos rfl]
        cases j with
        | zero =>
          simp [CacheSt.setAt, CacheSt.getAt, hp0, appendAll]
        | succ jj =>
          simp only [CacheSt.setAt, CacheSt.getAt, List.length_nil]
          simp [List.getD]
      | false =>
        simp only [Bool.false_eq_true, if_false]
        cases j with
        | zero =>
          simp [CacheSt.getAt, hp0]
        | succ jj =>
          simp [CacheSt.getAt, List.getD]
    · simp only [buildTree, CacheSt.getLayerWriter, CacheSt.getAt, List.getD_nil]
      cases hp0 : p 0 <;> simp [CacheSt.setAt]
    · simp only [buildTree, CacheSt.getLayerWriter, CacheSt.getAt, List.getD_nil]
      cases hp0 : p 0 <;> simp [CacheSt.setAt]
  · simp [buildTree]


end TreeSim


section EmptyTree
variable {α : Type} (hash : α → α → α) (dfl pad : α)

theorem finalizeLoop_nil_empty (minHeight : Nat) :
    ∀ (h : Nat) (pr : List α),
    finalizeLoop hash dfl pad minHeight h [] emptyNode pr = (none, pr) := by
  suffices H : ∀ (k h : Nat) (pr : List α), minHeight - h ≤ k →
      finalizeLoop hash dfl pad minHeight h [] emptyNode pr = (none, pr) by
    intro h pr
    exact H (minHeight - h) h pr (Nat.le_refl _)
  intro k
  induction k with
  | zero =>
    intro h pr hk
    rw [finalizeLoop, if_pos (by omega)]
    rfl
  | succ k IH =>
    intro h pr hk
    by_cases hmh : minHeight ≤ h
    · rw [finalizeLoop, if_pos hmh]
      rfl
    · rw [finalizeLoop, if_neg hmh]
      have hce : calcEphemeralParent hash dfl pad emptyNode emptyNode
          = ((emptyNode : PNode α), emptyNode, emptyNode) := by
        simp [calcEphemeralParent, emptyNode, PNode.isEmpty]
      simp only [hce]
      have hem : emitChildren dfl (emptyNode : PNode α) emptyNode emptyNode = [] := by
        simp [emitChildren, emptyNode]
      simp only [hem, List.append_nil]
      exact IH (h + 1) pr (by omega)

theorem emptyTree_rootAndProof (toProve : List Nat) (cache : CacheSt α) (minHeight : Nat) :
    rootAndProof hash dfl pad (buildTree toProve cache minHeight) = (none, []) := by
  rw [rootAndProof, buildTree]
  rw [finalizeLoop]
  by_cases hm : minHeight = 0
  · subst hm
    rw [if_pos (by exact ⟨Nat.le_refl 0, rfl, rfl⟩)]
    rfl
  · rw [if_neg (by
      intro hcon
      exact hm (Nat.le_zero.mp hcon.1))]
    have hce : calcEphemeralParent hash dfl pad emptyNode emptyNode
        = ((emptyNode : PNode α), emptyNode, emptyNode) := by
      simp [calcEphemeralParent, emptyNode, PNode.isEmpty]
    simp only [hce]
    have hem : emitChildren dfl (emptyNode : PNode α) emptyNode emptyNode = [] := by
      simp [emitChildren, emptyNode]
    simp only [hem, List.append_nil]
    exact finalizeLoop_nil_empty hash dfl pad minHeight 1 []

/-- C10: on a tree built with any configuration and minimum height to which no
leaf was ever added, `RootAndProof` (and hence `Root` and `Proof`) terminates
without panicking, returns a nil root and an empty proof, and — the embedded
functions being pure — leaves the tree state unchanged. -/
theorem C10_empty_tree_finalization (toProve : List Nat) (cache : CacheSt α) (minHeight : Nat) :
    rootAndProof hash dfl pad (buildTree toProve cache minHeight) = (none, [])
    ∧ treeRootOf hash dfl pad (buildTree toProve cache minHeight) = none
    ∧ treeProofOf hash dfl pad (buildTree toProve cache minHeight) = [] := by
  have h := emptyTree_rootAndProof hash dfl pad toProve cache minHeight
  refine ⟨h, ?_, ?_⟩
  · rw [treeRootOf, h]
  · rw [treeProofOf, h]


end EmptyTree


section ValidatorFuel
variable {α : Type} (hash : α → α → α) (dfl pad : α)


theorem climb_succ (fuel : Nat) (stop : Option Nat) (pos : Pos) (active : α)
    (leaves : List (Nat × α)) (proof : List α) :
    climb hash (fuel + 1) stop pos active leaves proof =
      if stop = some pos.height then .ok (active, leaves, proof)
      else
        match leaves with
        | (nidx, nval) :: lrest =>
          if pos.sibling.isAncestorOf ⟨nidx, 0⟩ then
            match climb hash fuel (some pos.height) ⟨nidx, 0⟩ nval lrest proof with
            | .error e => .error e
            | .ok (sib, leaves1, proof1) =>
              let next := if pos.isRightSibling then hash sib active else hash active sib
              climb hash fuel stop pos.parent next leaves1 proof1
          else
            match proof with
            | [] => .ok (active, leaves, proof)
            | sib :: proof1 =>
              let next := if pos.isRightSibling then hash sib active else hash active sib
              climb hash fuel stop pos.parent next leaves proof1
        | [] =>
          match proof with
          | [] => .ok (active, leaves, proof)
          | sib :: proof1 =>
            let next := if pos.isRightSibling then hash sib active else hash active sib
            climb hash fuel stop pos.parent next leaves proof1 := rfl

theorem climb_fuel_sufficient :
    ∀ (fuel : Nat) (stop : Option Nat) (pos : Pos) (active : α)
      (leaves : List (Nat × α)) (proof : List α),
    2 * leaves.length + proof.length < fuel →
    ∃ r lv pf, climb hash fuel stop pos active leaves proof = .ok (r, lv, pf)
      ∧ 2 * lv.length + pf.length ≤ 2 * leaves.length + proof.length := by
  intro fuel
  induction fuel with
  | zero =>
    intro stop pos active leaves proof hf
    omega
  | succ fuel IH =>
    intro stop pos active leaves proof hf
    rw [climb_succ]
    by_cases hstop : stop = some pos.height
    · rw [if_pos hstop]
      exact ⟨active, leaves, proof, rfl, Nat.le_refl _⟩
    · rw [if_neg hstop]
      match leaves with
      | (nidx, nval) :: lrest =>
        dsimp only
        simp only [List.length_cons] at hf
        by_cases hanc : (Pos.sibling pos).isAncestorOf ⟨nidx, 0⟩ = true
        · rw [if_pos hanc]
          obtain ⟨r1, lv1, pf1, he1, hm1⟩ :=
            IH (some pos.height) ⟨nidx, 0⟩ nval lrest proof (by omega)
          rw [he1]
          dsimp only
          obtain ⟨r2, lv2, pf2, he2, hm2⟩ :=
            IH stop pos.parent
              (if pos.isRightSibling then hash r1 active else hash active r1)
              lv1 pf1 (by omega)
          rw [he2]
          exact ⟨r2, lv2, pf2, rfl, by simp only [List.length_cons]; omega⟩
        · rw [if_neg hanc]
          match proof with
          | [] =>
            exact ⟨active, (nidx, nval) :: lrest, [], rfl, Nat.le_refl _⟩
          | sib :: pf =>
            dsimp only
            simp only [List.length_cons] at hf ⊢
            obtain ⟨r2, lv2, pf2, he2, hm2⟩ :=
              IH stop pos.parent
                (if pos.isRightSibling then hash sib active else hash active sib)
                ((nidx, nval) :: lrest) pf (by simp only [List.length_cons]; omega)
            rw [he2]
            refine ⟨r2, lv2, pf2, rfl, ?_⟩
            simp only [List.length_cons] at hm2
            omega
      | [] =>
        dsimp only
        match proof with
        | [] => exact ⟨active, [], [], rfl, Nat.le_refl _⟩
        | sib :: pf =>
          dsimp only
          simp only [List.length_nil, List.length_cons] at hf ⊢
          obtain ⟨r2, lv2, pf2, he2, hm2⟩ :=
            IH stop pos.parent
              (if pos.isRightSibling then hash sib active else hash active sib)
              [] pf (by simp only [List.length_nil]; omega)
          rw [he2]
          refine ⟨r2, lv2, pf2, rfl, ?_⟩
          simp only [List.length_nil] at hm2
          omega

theorem calcRoot_with_validatorFuel (stop : Option Nat)
    (leaves : List (Nat × α)) (proof : List α) (hne : leaves ≠ []) :
    ∃ r lv pf, calcRoot hash (validatorFuel leaves proof) stop leaves proof = .ok (r, lv, pf) := by
  match leaves with
  | (idx, v) :: rest =>
    rw [calcRoot]
    obtain ⟨r, lv, pf, he, _⟩ := climb_fuel_sufficient hash (validatorFuel ((idx, v) :: rest) proof)
      stop ⟨idx, 0⟩ v rest proof
      (by simp only [validatorFuel, List.length_cons]; omega)
    exact ⟨r, lv, pf, he⟩

/-- C5: `ValidatePartialTree` returns `valid = false` with a non-nil error
exactly on the four input violations, in source order and with the exact
messages: length mismatch, empty leaves, unsorted indices, duplicate indices;
when all pre-checks pass, the returned error is nil (`CalcRoot` never runs out
of items or fuel). -/
theorem C5_validator_prechecks [DecidableEq α] (leafIndices : List Nat)
    (leaves proof : List α) (expectedRoot : α) :
    if leafIndices.length ≠ leaves.length then
      validatePartialTree hash leafIndices leaves proof expectedRoot
        = (false, some ("number of leaves (" ++ toString leaves.length
            ++ ") must equal number of indices (" ++ toString leafIndices.length ++ ")"))
    else if leaves.length = 0 then
      validatePartialTree hash leafIndices leaves proof expectedRoot
        = (false, some "at least one leaf is required for validation")
    else if ¬isSortedLe leafIndices then
      validatePartialTree hash leafIndices leaves proof expectedRoot
        = (false, some "leafIndices are not sorted")
    else if leafIndices.dedup.length ≠ leafIndices.length then
      validatePartialTree hash leafIndices leaves proof expectedRoot
        = (false, some "leafIndices contain duplicates")
    else (validatePartialTree hash leafIndices leaves proof expectedRoot).2 = none := by
  by_cases h1 : leafIndices.length ≠ leaves.length
  · rw [if_pos h1, validatePartialTree, if_pos h1]
  rw [if_neg h1]
  by_cases h2 : leaves.length = 0
  · rw [if_pos h2, validatePartialTree, if_neg h1, if_pos h2]
  rw [if_neg h2]
  by_cases h3 : ¬isSortedLe leafIndices
  · rw [if_pos h3, validatePartialTree, if_neg h1, if_neg h2, if_pos h3]
  rw [if_neg h3]
  by_cases h4 : leafIndices.dedup.length ≠ leafIndices.length
  · rw [if_pos h4, validatePartialTree, if_neg h1, if_neg h2, if_neg h3, if_pos h4]
  rw [if_neg h4]
  rw [validatePartialTree, if_neg h1, if_neg h2, if_neg h3, if_neg h4]
  have hzl : (leafIndices.zip leaves).length = leaves.length := by
    rw [List.length_zip]
    omega
  have hne : leafIndices.zip leaves ≠ [] := by
    intro hcon
    rw [hcon] at hzl
    simp only [List.length_nil] at hzl
    omega
  obtain ⟨r, lv, pf, he⟩ := calcRoot_with_validatorFuel hash none
    (leafIndices.zip leaves) proof hne
  dsimp only
  rw [he]


end ValidatorFuel


section ConcreteCases

def nodeU64 (i : Nat) : List Nat :=
  (List.range 8).map (fun j => i / 256 ^ j % 256) ++ List.replicate 24 0

def concatLeaves (l r : List Nat) : List Nat :=
  (if l.length = 32 then l.take 1 else l) ++ (if r.length = 32 then r.take 1 else r)

def zeroNode : List Nat := List.replicate 32 0

theorem C7_min_height_root :
    treeRootOf concatLeaves [] zeroNode
      (addAll concatLeaves [] (buildTree [] disabledCache 5) ((List.range 8).map nodeU64))
    = some [0, 1, 2, 3, 4, 5, 6, 7, 0, 0] := by
  have h1 : addAll concatLeaves [] (buildTree [] disabledCache 5) ((List.range 8).map nodeU64)
      = { layers := [⟨emptyNode, false⟩, ⟨emptyNode, false⟩, ⟨emptyNode, false⟩,
            ⟨⟨some [0, 1, 2, 3, 4, 5, 6, 7], false⟩, false⟩],
          proof := [], toProve := [], curIdx := 0, minHeight := 5,
          cache := disabledCache } := by
    rfl
  rw [treeRootOf, rootAndProof, h1]
  rw [finalizeLoop]
  norm_num [calcEphemeralParent, emptyNode, paddingNode, PNode.isEmpty, emitChildren, calcParent]
  rw [finalizeLoop]
  norm_num [calcEphemeralParent, emptyNode, paddingNode, PNode.isEmpty, emitChildren, calcParent]
  rw [finalizeLoop]
  norm_num [calcEphemeralParent, emptyNode, paddingNode, PNode.isEmpty, emitChildren, calcParent]
  rw [finalizeLoop]
  norm_num [calcEphemeralParent, emptyNode, paddingNode, PNode.isEmpty, emitChildren, calcParent,
    concatLeaves, zeroNode]
  rw [finalizeLoop]
  norm_num [calcEphemeralParent, emptyNode, paddingNode, PNode.isEmpty, emitChildren, calcParent,
    concatLeaves, zeroNode]
  rw [finalizeLoop]
  norm_num [calcEphemeralParent, emptyNode, paddingNode, PNode.isEmpty, emitChildren, calcParent,
    concatLeaves, zeroNode]

/-- C8: `GetNode` at position `{h: 0, i: 0}` on a cache whose base layer is
the test double whose `Seek` always fails with "some error" returns exactly
the error "while seeking to Position <h: 0 i: 0> in cache: some error". -/
theorem C8_get_node_seek_error :
    getNode (fun a _ => a) 0 0
      ⟨[some (Rdr.seekErrReader "some error" 8)], fun _ => false, fun _ => Rdr.slice [] 0 []⟩
      ⟨0, 0⟩
    = .error (.goerr "while seeking to Position <h: 0 i: 0> in cache: some error") := by
  rfl


end ConcreteCases


section ValueProjection
variable {α : Type} (hash : α → α → α) (dfl pad : α)

theorem calcParent_value (a b a' b' : PNode α) (ha : a.value = a'.value)
    (hb : b.value = b'.value) :
    (calcParent hash dfl a b).value = (calcParent hash dfl a' b').value := by
  simp [calcParent, ha, hb]

theorem propagate_values :
    ∀ (L L' : List (GoLayer α)) (n n' : PNode α) (h : Nat) (c c' : CacheSt α)
      (le le' : Option String),
    n.value = n'.value →
    L.map (fun l => l.parking.value) = L'.map (fun l => l.parking.value) →
    (propagate hash dfl n h L c le).1.map (fun l => l.parking.value)
      = (propagate hash dfl n' h L' c' le').1.map (fun l => l.parking.value) := by
  intro L
  induction L with
  | nil =>
    intro L' n n' h c c' le le' hn hL
    cases L' with
    | nil => rfl
    | cons x xs => simp at hL
  | cons l rest IH =>
    intro L' n n' h c c' le le' hn hL
    cases L' with
    | nil => simp at hL
    | cons l' rest' =>
      simp only [List.map_cons, List.cons.injEq] at hL
      obtain ⟨hlv, hrest⟩ := hL
      rw [propagate, propagate]
      have hie : l.parking.isEmpty = l'.parking.isEmpty := by
        simp [PNode.isEmpty, Option.isNone_iff_eq_none]
        rw [hlv]
      by_cases hemp : l.parking.isEmpty = true
      · rw [if_pos hemp, if_pos (show l'.parking.isEmpty = true by rw [← hie]; exact hemp)]
        simp only [List.map_cons]
        rw [hn, hrest]
      · rw [if_neg hemp, if_neg (show ¬l'.parking.isEmpty = true by rw [← hie]; exact hemp)]
        have hpv : (calcParent hash dfl l.parking n).value
            = (calcParent hash dfl l'.parking n').value :=
          calcParent_value hash dfl _ _ _ _ hlv hn
        cases rest with
        | nil =>
          cases rest' with
          | nil =>
            simp only [List.map_cons, List.map_nil, List.cons.injEq]
            refine ⟨by trivial, hpv, by trivial⟩
          | cons y ys => simp at hrest
        | cons r rs =>
          cases rest' with
          | nil => simp at hrest
          | cons r' rs' =>
            simp only [List.map_cons, List.cons.injEq]
            refine ⟨by trivial, by
              have := IH (r' :: rs') (calcParent hash dfl l.parking n)
                (calcParent hash dfl l'.parking n') (h + 1)
                (if l.hasCache then c.appendAt h (n.value.getD dfl) else (c, none)).1
                (if l'.hasCache then c'.appendAt h (n'.value.getD dfl) else (c', none)).1
                (wrapCaching (if l.hasCache then c.appendAt h (n.value.getD dfl) else (c, none)).2 le)
                (wrapCaching (if l'.hasCache then c'.appendAt h (n'.value.getD dfl) else (c', none)).2 le')
                hpv hrest
              simpa using this⟩

theorem addLeaf_values (t t' : GoTree α) (v : α)
    (hL : t.layers.map (fun l => l.parking.value) = t'.layers.map (fun l => l.parking.value)) :
    (addLeaf hash dfl t v).1.layers.map (fun l => l.parking.value)
      = (addLeaf hash dfl t' v).1.layers.map (fun l => l.parking.value) := by
  simp only [addLeaf]
  exact propagate_values hash dfl _ _ _ _ 0 _ _ _ _ rfl hL

theorem addAll_values (ls : List α) :
    ∀ (t t' : GoTree α),
    t.layers.map (fun l => l.parking.value) = t'.layers.map (fun l => l.parking.value) →
    (addAll hash dfl t ls).layers.map (fun l => l.parking.value)
      = (addAll hash dfl t' ls).layers.map (fun l => l.parking.value) := by
  induction ls with
  | nil =>
    intro t t' hL
    exact hL
  | cons a as IH =>
    intro t t' hL
    simp only [addAll, List.foldl_cons]
    have h1 := addLeaf_values hash dfl t t' a hL
    simpa only [addAll] using IH _ _ h1

theorem calcEph_value (a b a' b' : PNode α) (ha : a.value = a'.value)
    (hb : b.value = b'.value) :
    (calcEphemeralParent hash dfl pad a b).1.value
      = (calcEphemeralParent hash dfl pad a' b').1.value := by
  have hae : a'.isEmpty = a.isEmpty := by
    simp [PNode.isEmpty, Option.isNone_iff_eq_none]
    rw [ha]
  have hbe : b'.isEmpty = b.isEmpty := by
    simp [PNode.isEmpty, Option.isNone_iff_eq_none]
    rw [hb]
  rw [calcEphemeralParent, calcEphemeralParent, hae, hbe]
  by_cases h1 : ¬a.isEmpty = true ∧ ¬b.isEmpty = true
  · rw [if_pos h1, if_pos h1]
    exact calcParent_value hash dfl _ _ _ _ ha hb
  · rw [if_neg h1, if_neg h1]
    by_cases h2 : ¬a.isEmpty = true ∧ b.isEmpty = true
    · rw [if_pos h2, if_pos h2]
      exact calcParent_value hash dfl _ _ _ _ ha rfl
    · rw [if_neg h2, if_neg h2]
      by_cases h3 : a.isEmpty = true ∧ ¬b.isEmpty = true
      · rw [if_pos h3, if_pos h3]
        exact calcParent_value hash dfl _ _ _ _ hb rfl
      · rw [if_neg h3, if_neg h3]

theorem finalizeLoop_nil_done (minHeight height : Nat) (eph : PNode α) (pr : List α)
    (hmh : minHeight ≤ height) :
    finalizeLoop hash dfl pad minHeight height [] eph pr = (eph.value, pr) := by
  rw [finalizeLoop, if_pos hmh]

theorem finalizeLoop_nil_step (minHeight height : Nat) (eph : PNode α) (pr : List α)
    (hmh : ¬minHeight ≤ height) :
    finalizeLoop hash dfl pad minHeight height [] eph pr
      = finalizeLoop hash dfl pad minHeight (height + 1) []
          (calcEphemeralParent hash dfl pad emptyNode eph).1
          (pr ++ emitChildren dfl (calcEphemeralParent hash dfl pad emptyNode eph).1
            (calcEphemeralParent hash dfl pad emptyNode eph).2.1
            (calcEphemeralParent hash dfl pad emptyNode eph).2.2) := by
  rw [finalizeLoop, if_neg hmh]

theorem finalizeLoop_cons_done (minHeight height : Nat) (l : GoLayer α)
    (rest : List (GoLayer α)) (eph : PNode α) (pr : List α)
    (hc : minHeight ≤ height ∧ rest.isEmpty = true ∧ eph.isEmpty = true) :
    finalizeLoop hash dfl pad minHeight height (l :: rest) eph pr
      = (l.parking.value, pr) := by
  rw [finalizeLoop, if_pos hc]

theorem finalizeLoop_cons_step (minHeight height : Nat) (l : GoLayer α)
    (rest : List (GoLayer α)) (eph : PNode α) (pr : List α)
    (hc : ¬(minHeight ≤ height ∧ rest.isEmpty = true ∧ eph.isEmpty = true)) :
    finalizeLoop hash dfl pad minHeight height (l :: rest) eph pr
      = finalizeLoop hash dfl pad minHeight (height + 1) rest
          (calcEphemeralParent hash dfl pad l.parking eph).1
          (pr ++ emitChildren dfl (calcEphemeralParent hash dfl pad l.parking eph).1
            (calcEphemeralParent hash dfl pad l.parking eph).2.1
            (calcEphemeralParent hash dfl pad l.parking eph).2.2) := by
  rw [finalizeLoop, if_neg hc]

theorem fin_root_values :
    ∀ (k minHeight height : Nat) (L1 L2 : List (GoLayer α)) (eph1 eph2 : PNode α)
      (pr1 pr2 : List α),
    L1.length + (minHeight - height) ≤ k →
    L1.map (fun l => l.parking.value) = L2.map (fun l => l.parking.value) →
    eph1.value = eph2.value →
    (finalizeLoop hash dfl pad minHeight height L1 eph1 pr1).1
      = (finalizeLoop hash dfl pad minHeight height L2 eph2 pr2).1 := by
  intro k
  induction k with
  | zero =>
    intro minHeight height L1 L2 eph1 eph2 pr1 pr2 hk hL he
    cases L1 with
    | cons x xs => simp at hk
    | nil =>
      cases L2 with
      | cons y ys => simp at hL
      | nil =>
        rw [finalizeLoop_nil_done hash dfl pad minHeight height eph1 pr1 (by omega),
          finalizeLoop_nil_done hash dfl pad minHeight height eph2 pr2 (by omega)]
        simpa using he
  | succ k IH =>
    intro minHeight height L1 L2 eph1 eph2 pr1 pr2 hk hL he
    cases L1 with
    | nil =>
      cases L2 with
      | cons y ys => simp at hL
      | nil =>
        by_cases hmh : minHeight ≤ height
        · rw [finalizeLoop_nil_done hash dfl pad minHeight height eph1 pr1 hmh,
            finalizeLoop_nil_done hash dfl pad minHeight height eph2 pr2 hmh]
          simpa using he
        · rw [finalizeLoop_nil_step hash dfl pad minHeight height eph1 pr1 hmh,
            finalizeLoop_nil_step hash dfl pad minHeight height eph2 pr2 hmh]
          refine IH minHeight (height + 1) [] [] _ _ _ _ ?_ rfl ?_
          · simp only [List.length_nil, Nat.zero_add] at hk ⊢
            omega
          · exact calcEph_value hash dfl pad _ _ _ _ rfl he
    | cons l1 L1h =>
      cases L2 with
      | nil => simp at hL
      | cons l2 L2h =>
        simp only [List.map_cons, List.cons.injEq] at hL
        obtain ⟨hlv, hrest⟩ := hL
        have hlen : L1h.length = L2h.length := by
          have := congrArg List.length hrest
          simpa using this
        have hee : eph2.isEmpty = eph1.isEmpty := by
          simp [PNode.isEmpty, Option.isNone_iff_eq_none]
          rw [he]
        have hre : L2h.isEmpty = L1h.isEmpty := by
          cases L1h with
          | nil =>
            cases L2h with
            | nil => rfl
            | cons z zs => simp at hlen
          | cons z zs =>
            cases L2h with
            | nil => simp at hlen
            | cons w ws => rfl
        by_cases hc : minHeight ≤ height ∧ L1h.isEmpty = true ∧ eph1.isEmpty = true
        · rw [finalizeLoop_cons_done hash dfl pad minHeight height l1 L1h eph1 pr1 hc,
            finalizeLoop_cons_done hash dfl pad minHeight height l2 L2h eph2 pr2
              (by rw [hre, hee]; exact hc)]
          simpa using hlv
        · rw [finalizeLoop_cons_step hash dfl pad minHeight height l1 L1h eph1 pr1 hc,
            finalizeLoop_cons_step hash dfl pad minHeight height l2 L2h eph2 pr2
              (by rw [hre, hee]; exact hc)]
          refine IH minHeight (height + 1) L1h L2h _ _ _ _ ?_ hrest ?_
          · simp only [List.length_cons] at hk
            omega
          · exact calcEph_value hash dfl pad _ _ _ _ hlv he

theorem addLeaf_minHeight (t : GoTree α) (v : α) :
    (addLeaf hash dfl t v).1.minHeight = t.minHeight := rfl

theorem addAll_minHeight (ls : List α) :
    ∀ t : GoTree α, (addAll hash dfl t ls).minHeight = t.minHeight := by
  induction ls with
  | nil => intro t; rfl
  | cons a as IH =>
    intro t
    simp only [addAll, List.foldl_cons]
    have := IH (addLeaf hash dfl t a).1
    simpa only [addAll, addLeaf_minHeight] using this

theorem addAll_root_config (tp tp2 : List Nat) (c c2 : CacheSt α) (mh : Nat) (ls : List α) :
    treeRootOf hash dfl pad (addAll hash dfl (buildTree tp c mh) ls)
      = treeRootOf hash dfl pad (addAll hash dfl (buildTree tp2 c2 mh) ls) := by
  have hv := addAll_values hash dfl ls (buildTree tp c mh) (buildTree tp2 c2 mh)
    (by simp [buildTree])
  have hm1 : (addAll hash dfl (buildTree tp c mh) ls).minHeight = mh :=
    addAll_minHeight hash dfl ls (buildTree tp c mh)
  have hm2 : (addAll hash dfl (buildTree tp2 c2 mh) ls).minHeight = mh :=
    addAll_minHeight hash dfl ls (buildTree tp2 c2 mh)
  rw [treeRootOf, treeRootOf, rootAndProof, rootAndProof, hm1, hm2]
  exact fin_root_values hash dfl pad
    ((addAll hash dfl (buildTree tp c mh) ls).layers.length + (mh - 0)) mh 0
    _ _ _ _ _ _ (Nat.le_refl _) hv rfl

/-- C4: the root is independent of the proving and caching configuration —
`NewTree()`, `NewProvingTree(I)` and `NewCachingTree(writer)` (over any policy
and layer factory, starting from an empty store) yield equal roots after the
same leaves are added in the same order. -/
theorem C4_root_mode_independence (ls : List α) (I : List Nat)
    (p : Nat → Bool) (f : Nat → Rdr α) :
    treeRootOf hash dfl pad (addAll hash dfl (newProvingTree I) ls)
      = treeRootOf hash dfl pad (addAll hash dfl newTree ls)
    ∧ treeRootOf hash dfl pad (addAll hash dfl (newCachingTree ⟨[], p, f⟩) ls)
      = treeRootOf hash dfl pad (addAll hash dfl newTree ls) := by
  constructor
  · exact addAll_root_config hash dfl pad I [] disabledCache disabledCache 0 ls
  · exact addAll_root_config hash dfl pad [] [] ⟨[], p, f⟩ disabledCache 0 ls


end ValueProjection


section CacheIrrelevance
variable {α : Type} (hash : α → α → α) (dfl pad : α)

theorem CacheSt.appendAt_policy (c : CacheSt α) (h : Nat) (v : α) :
    ((c.appendAt h v).1).policy = c.policy := by
  cases hg : c.getAt h <;> simp [CacheSt.appendAt, hg, CacheSt.setAt]

theorem CacheSt.appendAt_isSome (c : CacheSt α) (h : Nat) (v : α) (j : Nat) :
    ((c.appendAt h v).1.getAt j).isSome = (c.getAt j).isSome := by
  cases hg : c.getAt h with
  | none => simp [CacheSt.appendAt, hg]
  | some rw =>
    simp only [CacheSt.appendAt, hg]
    rw [CacheSt.getAt_setAt]
    by_cases hj : j = h
    · subst hj
      rw [if_pos rfl, hg]
      rfl
    · rw [if_neg hj]

theorem CacheSt.glw_snd (c : CacheSt α) (h : Nat) :
    (c.getLayerWriter h).2 = ((c.getAt h).isSome || c.policy h) := by
  cases hg : c.getAt h with
  | some rw => simp [CacheSt.getLayerWriter, hg]
  | none =>
    cases hp : c.policy h <;> simp [CacheSt.getLayerWriter, hg, hp]

theorem CacheSt.glw_policy (c : CacheSt α) (h : Nat) :
    (c.getLayerWriter h).1.policy = c.policy := by
  cases hg : c.getAt h with
  | some rw => simp [CacheSt.getLayerWriter, hg]
  | none =>
    cases hp : c.policy h <;> simp [CacheSt.getLayerWriter, hg, hp, CacheSt.setAt]

theorem CacheSt.glw_isSome (c : CacheSt α) (h : Nat) (j : Nat) :
    ((c.getLayerWriter h).1.getAt j).isSome
      = ((c.getAt j).isSome || (decide (j = h) && c.policy h)) := by
  cases hg : c.getAt h with
  | some rw =>
    by_cases hj : j = h
    · subst hj
      simp [CacheSt.getLayerWriter, hg]
    · simp [CacheSt.getLayerWriter, hg, hj]
  | none =>
    cases hp : c.policy h with
    | false => simp [CacheSt.getLayerWriter, hg, hp]
    | true =>
      by_cases hj : j = h
      · subst hj
        simp [CacheSt.getLayerWriter, hg, hp, CacheSt.getAt_setAt]
      · simp [CacheSt.getLayerWriter, hg, hp, CacheSt.getAt_setAt, hj]

theorem propagate_cache_irrel :
    ∀ (L : List (GoLayer α)) (n : PNode α) (h : Nat) (c c2 : CacheSt α)
      (le le2 : Option String),
    c2.policy = c.policy →
    (∀ j, (c2.getAt j).isSome = (c.getAt j).isSome) →
    (propagate hash dfl n h L c2 le2).1 = (propagate hash dfl n h L c le).1
    ∧ (propagate hash dfl n h L c2 le2).2.2.1 = (propagate hash dfl n h L c le).2.2.1
    ∧ (propagate hash dfl n h L c2 le2).2.1.policy = (propagate hash dfl n h L c le).2.1.policy
    ∧ ∀ j, ((propagate hash dfl n h L c2 le2).2.1.getAt j).isSome
        = ((propagate hash dfl n h L c le).2.1.getAt j).isSome := by
  intro L
  induction L with
  | nil =>
    intro n h c c2 le le2 hpol hsome
    exact ⟨rfl, rfl, hpol, hsome⟩
  | cons l rest IH =>
    intro n h c c2 le le2 hpol hsome
    rw [propagate, propagate]
    have hca2pol : (if l.hasCache then c2.appendAt h (n.value.getD dfl) else (c2, none)).1.policy
        = (if l.hasCache then c.appendAt h (n.value.getD dfl) else (c, none)).1.policy := by
      cases l.hasCache <;>
        simp [CacheSt.appendAt_policy, hpol]
    have hca2some : ∀ j,
        ((if l.hasCache then c2.appendAt h (n.value.getD dfl) else (c2, none)).1.getAt j).isSome
        = ((if l.hasCache then c.appendAt h (n.value.getD dfl) else (c, none)).1.getAt j).isSome := by
      intro j
      cases l.hasCache <;>
        simp [CacheSt.appendAt_isSome, hsome j]
    by_cases hemp : l.parking.isEmpty = true
    · rw [if_pos hemp, if_pos hemp]
      exact ⟨rfl, rfl, hca2pol, hca2some⟩
    · rw [if_neg hemp, if_neg hemp]
      cases rest with
      | nil =>
        dsimp only
        have hglwb :
            ((if l.hasCache then c2.appendAt h (n.value.getD dfl) else (c2, none)).1.getLayerWriter (h + 1)).2
            = ((if l.hasCache then c.appendAt h (n.value.getD dfl) else (c, none)).1.getLayerWriter (h + 1)).2 := by
          rw [CacheSt.glw_snd, CacheSt.glw_snd, hca2some (h + 1), hca2pol]
        have hglwpol :
            ((if l.hasCache then c2.appendAt h (n.value.getD dfl) else (c2, none)).1.getLayerWriter (h + 1)).1.policy
            = ((if l.hasCache then c.appendAt h (n.value.getD dfl) else (c, none)).1.getLayerWriter (h + 1)).1.policy := by
          rw [CacheSt.glw_policy, CacheSt.glw_policy, hca2pol]
        have hglwsome : ∀ j,
            (((if l.hasCache then c2.appendAt h (n.value.getD dfl) else (c2, none)).1.getLayerWriter (h + 1)).1.getAt j).isSome
            = (((if l.hasCache then c.appendAt h (n.value.getD dfl) else (c, none)).1.getLayerWriter (h + 1)).1.getAt j).isSome := by
          intro j
          rw [CacheSt.glw_isSome, CacheSt.glw_isSome, hca2some j, hca2pol]
        refine ⟨by rw [hglwb], rfl, ?_, ?_⟩
        · rw [hglwb]
          cases hb : ((if l.hasCache then c.appendAt h (n.value.getD dfl) else (c, none)).1.getLayerWriter (h + 1)).2
          · simpa using hglwpol
          · simp only [if_pos rfl, if_true]
            rw [CacheSt.appendAt_policy, CacheSt.appendAt_policy, hglwpol]
        · intro j
          rw [hglwb]
          cases hb : ((if l.hasCache then c.appendAt h (n.value.getD dfl) else (c, none)).1.getLayerWriter (h + 1)).2
          · simpa using hglwsome j
          · simp only [if_pos rfl, if_true]
            rw [CacheSt.appendAt_isSome, CacheSt.appendAt_isSome, hglwsome j]
      | cons r rs =>
        dsimp only
        have hrec := IH (calcParent hash dfl l.parking n) (h + 1)
          (if l.hasCache then c.appendAt h (n.value.getD dfl) else (c, none)).1
          (if l.hasCache then c2.appendAt h (n.value.getD dfl) else (c2, none)).1
          (wrapCaching (if l.hasCache then c.appendAt h (n.value.getD dfl) else (c, none)).2 le)
          (wrapCaching (if l.hasCache then c2.appendAt h (n.value.getD dfl) else (c2, none)).2 le2)
          hca2pol hca2some
        refine ⟨?_, ?_, hrec.2.2.1, hrec.2.2.2⟩
        · rw [hrec.1]
        · rw [hrec.2.1]

/-- A reader whose error plan is exhausted: its `Append` always succeeds. -/
def Rdr.planFree : Rdr α → Bool
  | .slice _ _ plan => plan.isEmpty
  | .seekErrReader _ _ => true

/-- A cache none of whose appends can fail: every stored layer and every
factory-made layer is plan-free. -/
def planFreeCache (c : CacheSt α) : Prop :=
  (∀ j r, c.getAt j = some r → r.planFree = true) ∧ (∀ j, (c.factory j).planFree = true)

theorem append_planFree {r : Rdr α} (hr : r.planFree = true) (v : α) :
    (r.append v).2 = none ∧ (r.append v).1.planFree = true := by
  cases r with
  | slice data pos plan =>
    cases plan with
    | nil => exact ⟨rfl, rfl⟩
    | cons e es => simp [Rdr.planFree] at hr
  | seekErrReader e w => exact ⟨rfl, rfl⟩

theorem setAt_planFree {c : CacheSt α} (hc : planFreeCache c) {rw : Rdr α}
    (hrw : rw.planFree = true) (h : Nat) : planFreeCache (c.setAt h rw) := by
  refine ⟨fun j r hj => ?_, hc.2⟩
  rw [CacheSt.getAt_setAt] at hj
  by_cases hjh : j = h
  · rw [if_pos hjh] at hj
    cases hj
    exact hrw
  · rw [if_neg hjh] at hj
    exact hc.1 j r hj

theorem appendAt_planFree {c : CacheSt α} (hc : planFreeCache c) (h : Nat) (v : α) :
    (c.appendAt h v).2 = none ∧ planFreeCache (c.appendAt h v).1 := by
  rw [CacheSt.appendAt]
  cases hg : c.getAt h with
  | none => exact ⟨rfl, hc⟩
  | some r =>
    have hr := hc.1 h r hg
    have ha := append_planFree hr v
    constructor
    · exact ha.1
    · exact setAt_planFree hc ha.2 h

theorem glw_planFree {c : CacheSt α} (hc : planFreeCache c) (h : Nat) :
    planFreeCache (c.getLayerWriter h).1 := by
  rw [CacheSt.getLayerWriter]
  cases hg : c.getAt h with
  | some r => exact hc
  | none =>
    cases hp : c.policy h with
    | false => exact hc
    | true =>
      simp only [if_pos rfl]
      exact setAt_planFree hc (hc.2 h) h

theorem propagate_planFree :
    ∀ (L : List (GoLayer α)) (n : PNode α) (h : Nat) (c : CacheSt α),
    planFreeCache c →
    (propagate hash dfl n h L c none).2.2.2 = none
    ∧ planFreeCache (propagate hash dfl n h L c none).2.1 := by
  intro L
  induction L with
  | nil =>
    intro n h c hc
    exact ⟨rfl, hc⟩
  | cons l rest IH =>
    intro n h c hc
    rw [propagate]
    have hca : (if l.hasCache then c.appendAt h (n.value.getD dfl) else (c, none)).2 = none
        ∧ planFreeCache (if l.hasCache then c.appendAt h (n.value.getD dfl) else (c, none)).1 := by
      cases l.hasCache
      · simpa using hc
      · simp only [if_pos rfl]
        exact appendAt_planFree hc h _
    have hwrap : wrapCaching
        (if l.hasCache then c.appendAt h (n.value.getD dfl) else (c, none)).2 none = none := by
      rw [hca.1]
      rfl
    by_cases hemp : l.parking.isEmpty = true
    · rw [if_pos hemp]
      exact ⟨hwrap, hca.2⟩
    · rw [if_neg hemp]
      cases rest with
      | nil =>
        dsimp only
        have hglw := glw_planFree hca.2 (h + 1)
        have hcb : (if ((if l.hasCache then c.appendAt h (n.value.getD dfl) else (c, none)).1.getLayerWriter (h + 1)).2
              then ((if l.hasCache then c.appendAt h (n.value.getD dfl) else (c, none)).1.getLayerWriter (h + 1)).1.appendAt
                (h + 1) ((calcParent hash dfl l.parking n).value.getD dfl)
              else (((if l.hasCache then c.appendAt h (n.value.getD dfl) else (c, none)).1.getLayerWriter (h + 1)).1, none)).2 = none
            ∧ planFreeCache (if ((if l.hasCache then c.appendAt h (n.value.getD dfl) else (c, none)).1.getLayerWriter (h + 1)).2
              then ((if l.hasCache then c.appendAt h (n.value.getD dfl) else (c, none)).1.getLayerWriter (h + 1)).1.appendAt
                (h + 1) ((calcParent hash dfl l.parking n).value.getD dfl)
              else (((if l.hasCache then c.appendAt h (n.value.getD dfl) else (c, none)).1.getLayerWriter (h + 1)).1, none)).1 := by
          cases ((if l.hasCache then c.appendAt h (n.value.getD dfl) else (c, none)).1.getLayerWriter (h + 1)).2
          · simpa using hglw
          · simp only [if_pos rfl, if_true]
            exact appendAt_planFree hglw (h + 1) _
        refine ⟨?_, hcb.2⟩
        rw [hwrap, hcb.1]
        rfl
      | cons r rs =>
        dsimp only
        have hrec := IH (calcParent hash dfl l.parking n) (h + 1)
          (if l.hasCache then c.appendAt h (n.value.getD dfl) else (c, none)).1 hca.2
        rw [hwrap]
        exact ⟨hrec.1, hrec.2⟩

theorem addAll_cache_irrel (ls : List α) :
    ∀ t t2 : GoTree α,
    t2.layers = t.layers → t2.proof = t.proof → t2.toProve = t.toProve →
    t2.curIdx = t.curIdx → t2.minHeight = t.minHeight →
    t2.cache.policy = t.cache.policy →
    (∀ j, (t2.cache.getAt j).isSome = (t.cache.getAt j).isSome) →
    (addAll hash dfl t2 ls).layers = (addAll hash dfl t ls).layers
    ∧ (addAll hash dfl t2 ls).proof = (addAll hash dfl t ls).proof
    ∧ (addAll hash dfl t2 ls).toProve = (addAll hash dfl t ls).toProve
    ∧ (addAll hash dfl t2 ls).curIdx = (addAll hash dfl t ls).curIdx
    ∧ (addAll hash dfl t2 ls).minHeight = (addAll hash dfl t ls).minHeight := by
  induction ls with
  | nil =>
    intro t t2 h1 h2 h3 h4 h5 h6 h7
    exact ⟨h1, h2, h3, h4, h5⟩
  | cons a as IH =>
    intro t t2 h1 h2 h3 h4 h5 h6 h7
    have hp := propagate_cache_irrel hash dfl t.layers
      ⟨some a, (sbsPop t.toProve t.curIdx).1⟩ 0 t.cache t2.cache none none h6 h7
    simp only [addAll, List.foldl_cons]
    refine IH (addLeaf hash dfl t a).1 (addLeaf hash dfl t2 a).1 ?_ ?_ ?_ ?_ ?_ ?_ ?_
    · simp only [addLeaf, h1, h3, h4]
      exact hp.1
    · simp only [addLeaf, h1, h2, h3, h4]
      rw [hp.2.1]
    · simp only [addLeaf, h3, h4]
    · simp only [addLeaf, h3, h4]
    · simp only [addLeaf, h5]
    · simp only [addLeaf, h1, h3, h4]
      exact hp.2.2.1
    · intro j
      simp only [addLeaf, h1, h3, h4]
      exact hp.2.2.2 j

/-- A caching setup in which the second leaf's base-layer append fails with
"a0" and the subsequent parent append (on the freshly created layer-1 writer)
fails with "a1": the error `AddLeaf` returns is the later one. -/
def c6cache : CacheSt Nat :=
  ⟨[some (.slice [] 0 [none, some "a0"])], fun _ => true, fun _ => .slice [] 0 [some "a1"]⟩

/-- C6: caching failures during `AddLeaf` are recorded but do not disturb
construction: against any cache with the same policy and the same layers
present (in particular the same cache with all planned append failures
removed), the layer states, the accumulated proof and `RootAndProof` are
unchanged; a cache that cannot fail makes `AddLeaf` return a nil error; and
in a run with two failing appends the returned error is the last one,
wrapped as "error while caching: " plus the layer writer's message. -/
theorem C6_caching_error_handling (t : GoTree α) (c2 : CacheSt α) (ls : List α)
    (hpol : c2.policy = t.cache.policy)
    (hsome : ∀ j, (c2.getAt j).isSome = (t.cache.getAt j).isSome) :
    (addAll hash dfl { t with cache := c2 } ls).layers = (addAll hash dfl t ls).layers
    ∧ (addAll hash dfl { t with cache := c2 } ls).proof = (addAll hash dfl t ls).proof
    ∧ rootAndProof hash dfl pad (addAll hash dfl { t with cache := c2 } ls)
        = rootAndProof hash dfl pad (addAll hash dfl t ls)
    ∧ (planFreeCache t.cache → ∀ v, (addLeaf hash dfl t v).2 = none)
    ∧ (addLeaf (fun a b : Nat => a + b) 0
        (addLeaf (fun a b : Nat => a + b) 0 (buildTree [] c6cache 0) 1).1 2).2
      = some "error while caching: a1" := by
  have hall := addAll_cache_irrel hash dfl ls t { t with cache := c2 }
    rfl rfl rfl rfl rfl hpol hsome
  refine ⟨hall.1, hall.2.1, ?_, ?_, ?_⟩
  · rw [rootAndProof, rootAndProof, hall.1, hall.2.1, hall.2.2.2.2]
  · intro hpf v
    simp only [addLeaf]
    exact (propagate_planFree hash dfl t.layers _ 0 t.cache hpf).1
  · rfl

/-- A concrete tree for exercising `C6_caching_error_handling`. -/
def c6t : GoTree Nat := buildTree [] disabledCache 0

theorem C6_caching_error_handling_witness :
    (c6t.cache.policy = c6t.cache.policy
      ∧ ∀ j, ((c6t.cache.getAt j).isSome = (c6t.cache.getAt j).isSome))
    ∧ ((addAll (fun a b : Nat => a + b) 0 { c6t with cache := c6t.cache } [5]).layers
          = (addAll (fun a b : Nat => a + b) 0 c6t [5]).layers
      ∧ (addAll (fun a b : Nat => a + b) 0 { c6t with cache := c6t.cache } [5]).proof
          = (addAll (fun a b : Nat => a + b) 0 c6t [5]).proof
      ∧ rootAndProof (fun a b : Nat => a + b) 0 0
            (addAll (fun a b : Nat => a + b) 0 { c6t with cache := c6t.cache } [5])
          = rootAndProof (fun a b : Nat => a + b) 0 0 (addAll (fun a b : Nat => a + b) 0 c6t [5])
      ∧ (planFreeCache c6t.cache → ∀ v, (addLeaf (fun a b : Nat => a + b) 0 c6t v).2 = none)
      ∧ (addLeaf (fun a b : Nat => a + b) 0
            (addLeaf (fun a b : Nat => a + b) 0 (buildTree [] c6cache 0) 1).1 2).2
          = some "error while caching: a1") :=
  ⟨⟨rfl, fun _ => rfl⟩,
    C6_caching_error_handling (fun a b => a + b) 0 0 c6t c6t.cache [5] rfl (fun _ => rfl)⟩


end CacheIrrelevance


section ModelCharacterization
variable {α : Type} (hash : α → α → α) (dfl pad : α)

/-- The cursor relation: after `m` pops from the initial sorted stack `I`,
the remaining stack holds the proven indices not yet passed, and the current
index is `m` as long as the stack is not exhausted. -/
def CursorOK (I : List Nat) (m : Nat) (T : List Nat) (c : Nat) : Prop :=
  T = I.filter (fun i => m ≤ i) ∧ (T ≠ [] → c = m)

theorem filter_ge_of_not_mem {I : List Nat} {m : Nat} (hm : ¬m ∈ I) :
    I.filter (fun i => m ≤ i) = I.filter (fun i => m + 1 ≤ i) := by
  apply List.filter_congr
  intro i hi
  have : i ≠ m := fun hc => hm (hc ▸ hi)
  simp only [decide_eq_decide]
  omega

theorem filter_ge_of_mem {I : List Nat} (hs : I.Pairwise (· < ·)) {m : Nat} (hm : m ∈ I) :
    I.filter (fun i => m ≤ i) = m :: I.filter (fun i => m + 1 ≤ i) := by
  induction I with
  | nil => cases hm
  | cons a as IH =>
    have has : ∀ i ∈ as, a < i := fun i hi => (List.pairwise_cons.mp hs).1 i hi
    rcases hm with hm | hm
    case head =>
      have h1 : as.filter (fun i => m ≤ i) = as.filter (fun i => m + 1 ≤ i) := by
        apply List.filter_congr
        intro i hi
        have := has i hi
        simp only [decide_eq_decide]
        omega
      simp only [List.filter_cons]
      rw [if_pos (by simp), if_neg (by simp)]
      rw [h1]
    case tail hm =>
      have ham : a < m := has m hm
      simp only [List.filter_cons]
      rw [if_neg (by simp; omega), if_neg (by simp; omega)]
      exact IH (List.pairwise_cons.mp hs).2 hm

theorem sbsPop_step {I : List Nat} (hs : I.Pairwise (· < ·)) {m : Nat} {T : List Nat} {c : Nat}
    (hc : CursorOK I m T c) :
    (sbsPop T c).1 = decide (m ∈ I)
    ∧ CursorOK I (m + 1) (sbsPop T c).2.1 (sbsPop T c).2.2 := by
  obtain ⟨hT, hcur⟩ := hc
  by_cases hm : m ∈ I
  · have hT' : T = m :: I.filter (fun i => m + 1 ≤ i) := by
      rw [hT]
      exact filter_ge_of_mem hs hm
    have hcm : c = m := hcur (by rw [hT']; simp)
    rw [hT', sbsPop]
    rw [if_pos hcm]
    refine ⟨by simp [hm], rfl, fun _ => show c + 1 = m + 1 by omega⟩
  · have hT' : T = I.filter (fun i => m + 1 ≤ i) := by
      rw [hT]
      exact filter_ge_of_not_mem hm
    cases hTc : T with
    | nil =>
      subst hTc
      rw [sbsPop]
      refine ⟨by simp [hm], hT', fun hne => absurd rfl hne⟩
    | cons x xs =>
      have hcm : c = m := hcur (by rw [hTc]; simp)
      have hxm : x ≠ m := by
        intro hxe
        apply hm
        have : x ∈ I.filter (fun i => m ≤ i) := by
          rw [← hT, hTc]
          simp
        subst hxe
        exact (List.mem_filter.mp this).1
      rw [sbsPop, if_neg (by rw [hcm]; exact fun hce => hxm hce.symm)]
      refine ⟨by simp [hm], ?_, fun _ => show c + 1 = m + 1 by omega⟩
      rw [← hTc, hT']

/-- The proven indices that fall in the window `[m, m + n)`, relative to `m`. -/
def relIdx (I : List Nat) (m n : Nat) : List Nat :=
  (I.filter (fun i => decide (m ≤ i) && decide (i < m + n))).map (fun i => i - m)

theorem relIdx_left (I : List Nat) (m x y : Nat) :
    (relIdx I m (x + y)).filter (fun j => j < x) = relIdx I m x := by
  rw [relIdx, relIdx, List.filter_map, List.filter_filter]
  simp only [Function.comp_apply]
  have h1 : ∀ i ∈ I, ((fun j => decide (j < x)) ((fun i => i - m) i)
        && (decide (m ≤ i) && decide (i < m + (x + y))))
      = (decide (m ≤ i) && decide (i < m + x)) := by
    intro i _
    rw [Bool.eq_iff_iff]
    simp only [Bool.and_eq_true, decide_eq_true_eq]
    omega
  rw [List.filter_congr h1]

theorem relIdx_right (I : List Nat) (m x y : Nat) :
    ((relIdx I m (x + y)).filter (fun j => ¬j < x)).map (fun j => j - x)
      = relIdx I (m + x) y := by
  rw [relIdx, relIdx, List.filter_map, List.map_map, List.filter_filter]
  simp only [Function.comp_apply]
  have h1 : ∀ i ∈ I, ((fun j => decide ¬j < x) ((fun i => i - m) i)
        && (decide (m ≤ i) && decide (i < m + (x + y))))
      = (decide (m + x ≤ i) && decide (i < m + x + y)) := by
    intro i _
    rw [Bool.eq_iff_iff]
    simp only [Bool.and_eq_true, decide_eq_true_eq, decide_not, Bool.not_eq_true',
      decide_eq_false_iff_not]
    omega
  rw [List.filter_congr h1]
  apply List.map_congr_left
  intro i hi
  have h2 := (List.mem_filter.mp hi).2
  simp only [Bool.and_eq_true, decide_eq_true_eq] at h2
  simp only [Function.comp_apply]
  omega

theorem relIdx_empty_iff (I : List Nat) (m n : Nat) :
    (relIdx I m n).isEmpty = true ↔ ∀ i ∈ I, ¬(m ≤ i ∧ i < m + n) := by
  rw [relIdx, List.isEmpty_iff, List.map_eq_nil_iff, List.filter_eq_nil_iff]
  constructor
  · intro h i hi hc
    have := h i hi
    simp only [Bool.and_eq_true, decide_eq_true_eq] at this
    omega
  · intro h i hi
    simp only [Bool.and_eq_true, decide_eq_true_eq, not_and]
    intro h1 h2
    exact h i hi ⟨h1, h2⟩

theorem relIdx_one {I : List Nat} (hs : I.Pairwise (· < ·)) (m : Nat) :
    relIdx I m 1 = if m ∈ I then [0] else [] := by
  induction I with
  | nil => simp [relIdx]
  | cons a as IH =>
    have has : ∀ i ∈ as, a < i := fun i hi => (List.pairwise_cons.mp hs).1 i hi
    have IH2 := IH (List.pairwise_cons.mp hs).2
    by_cases ham : a = m
    · subst ham
      have hfas : as.filter (fun i => decide (a ≤ i) && decide (i < a + 1)) = [] := by
        rw [List.filter_eq_nil_iff]
        intro i hi
        have := has i hi
        simp only [Bool.and_eq_true, decide_eq_true_eq, not_and]
        omega
      simp only [relIdx, List.filter_cons]
      rw [if_pos (by simp)]
      rw [hfas]
      simp
    · simp only [relIdx, List.filter_cons]
      rw [if_neg (by simp; omega)]
      rw [relIdx] at IH2
      rw [IH2]
      by_cases hmas : m ∈ as
      · rw [if_pos hmas, if_pos (List.mem_cons_of_mem a hmas)]
      · rw [if_neg hmas, if_neg (by
          intro hc
          rcases List.mem_cons.mp hc with h | h
          · exact ham h.symm
          · exact hmas h)]

theorem levelVals_small {ls : List α} {j : Nat} (h : ls.length < 2 ^ j) :
    levelVals hash pad j ls = [] := by
  rw [levelVals]
  rw [Nat.div_eq_of_lt h]
  rfl

theorem levelVals_exact {ls : List α} {j : Nat} (h : ls.length = 2 ^ j) :
    levelVals hash pad j ls = [padRoot hash pad j ls] := by
  rw [levelVals, h, Nat.div_self (Nat.pos_pow_of_pos j (by norm_num))]
  have h1 : List.range 1 = [0] := rfl
  rw [h1]
  simp only [List.map_cons, List.map_nil, Nat.zero_mul, List.drop_zero]
  rw [List.take_of_length_le (by rw [h])]

theorem levelVals_split {l r : List α} {K j : Nat} (hl : l.length = 2 ^ K) (hj : j ≤ K) :
    levelVals hash pad j (l ++ r) = levelVals hash pad j l ++ levelVals hash pad j r := by
  have h2j : 0 < 2 ^ j := Nat.pos_pow_of_pos j (by norm_num)
  have hdiv : (l ++ r).length / 2 ^ j = 2 ^ (K - j) + r.length / 2 ^ j := by
    rw [List.length_append, hl]
    have : (2 : Nat) ^ K = 2 ^ (K - j) * 2 ^ j := by
      rw [← Nat.pow_add]
      congr 1
      omega
    rw [this, Nat.add_comm, Nat.add_mul_div_right _ _ h2j, Nat.add_comm]
  have hKj : 2 ^ K / 2 ^ j = 2 ^ (K - j) := Nat.pow_div hj (by norm_num)
  rw [levelVals, levelVals, levelVals, hdiv, hl, hKj]
  rw [List.range_add, List.map_append, List.map_map]
  congr 1
  · apply List.map_congr_left
    intro q hq
    have hq2 : q < 2 ^ (K - j) := List.mem_range.mp hq
    have hqb : q * 2 ^ j + 2 ^ j ≤ 2 ^ K := by
      have : (q + 1) * 2 ^ j ≤ 2 ^ (K - j) * 2 ^ j := Nat.mul_le_mul_right _ (by omega)
      rw [← Nat.pow_add] at this
      have he : K - j + j = K := by omega
      rw [he, Nat.add_mul, Nat.one_mul] at this
      omega
    congr 1
    rw [List.drop_append_of_le_length (by omega)]
    rw [List.take_append_of_le_length (by
      rw [List.length_drop]
      omega)]
  · apply List.map_congr_left
    intro q hq
    simp only [Function.comp_apply]
    congr 1
    rw [Nat.add_mul]
    have hK : 2 ^ (K - j) * 2 ^ j = l.length := by
      rw [hl, ← Nat.pow_add]
      congr 1
      omega
    rw [hK, List.drop_append]

theorem padRoot_split {k : Nat} {ls : List α} (h : 2 ^ k < ls.length) :
    padRoot hash pad (k + 1) ls
      = hash (padRoot hash pad k (ls.take (2 ^ k))) (padRoot hash pad k (ls.drop (2 ^ k))) := by
  rw [padRoot, if_neg (by omega)]

/-- The parked columns the model holds after streaming `ls` (with proven
relative indices `is`) into an all-empty frame of height `k`, for
`|ls| < 2^k`: one parked block root per set bit of `|ls|`. -/
def specParks (hash : α → α → α) (pad : α) : Nat → List α → List Nat → List (PNode α)
  | 0, _, _ => []
  | k + 1, ls, is =>
    if ls.length < 2 ^ k then specParks hash pad k ls is ++ [emptyNode]
    else
      specParks hash pad k (ls.drop (2 ^ k)) ((is.filter (fun j => ¬j < 2 ^ k)).map (fun j => j - 2 ^ k))
        ++ [⟨some (padRoot hash pad k (ls.take (2 ^ k))), !(is.filter (fun j => j < 2 ^ k)).isEmpty⟩]

theorem specParks_nil (k : Nat) (is : List Nat) :
    specParks hash pad k [] is = List.replicate k emptyNode := by
  induction k generalizing is with
  | zero => rfl
  | succ k IH =>
    rw [specParks, if_pos (by simp [Nat.pos_pow_of_pos])]
    rw [IH]
    rw [List.replicate_succ' ]

theorem specParks_length (k : Nat) (ls : List α) (is : List Nat) :
    (specParks hash pad k ls is).length = k := by
  induction k generalizing ls is with
  | zero => rfl
  | succ k IH =>
    rw [specParks]
    by_cases h : ls.length < 2 ^ k
    · rw [if_pos h, List.length_append, IH]
      rfl
    · rw [if_neg h, List.length_append, IH]
      rfl

theorem proofSpec_nil_is (k : Nat) (ls : List α) :
    proofSpec hash pad k ls [] = [] := by
  cases k <;> rfl

theorem proofSpec_zero (ls : List α) (is : List Nat) :
    proofSpec hash pad 0 ls is = [] := by
  cases is <;> rfl

theorem proofSpec_split (k : Nat) (ls : List α) (hlen : 2 ^ k < ls.length) (is : List Nat) :
    proofSpec hash pad (k + 1) ls is
      = proofSpec hash pad k (ls.take (2 ^ k)) (is.filter (fun j => j < 2 ^ k))
        ++ proofSpec hash pad k (ls.drop (2 ^ k))
            ((is.filter (fun j => ¬j < 2 ^ k)).map (fun j => j - 2 ^ k))
        ++ emitChildren dfl
            (calcParent hash dfl
              ⟨some (padRoot hash pad k (ls.take (2 ^ k))), !(is.filter (fun j => j < 2 ^ k)).isEmpty⟩
              ⟨some (padRoot hash pad k (ls.drop (2 ^ k))),
                !((is.filter (fun j => ¬j < 2 ^ k)).map (fun j => j - 2 ^ k)).isEmpty⟩)
            ⟨some (padRoot hash pad k (ls.take (2 ^ k))), !(is.filter (fun j => j < 2 ^ k)).isEmpty⟩
            ⟨some (padRoot hash pad k (ls.drop (2 ^ k))),
              !((is.filter (fun j => ¬j < 2 ^ k)).map (fun j => j - 2 ^ k)).isEmpty⟩ := by
  cases is with
  | nil =>
    simp only [List.filter_nil, List.map_nil]
    rw [proofSpec_nil_is, proofSpec_nil_is, proofSpec_nil_is]
    simp [emitChildren, calcParent]
  | cons i irest =>
    rw [proofSpec]
    have hdrF : (ls.drop (2 ^ k)).isEmpty = false := by
      rw [Bool.eq_false_iff, Ne, List.isEmpty_iff, List.drop_eq_nil_iff]
      omega
    by_cases hisr : (((i :: irest).filter (fun j => ¬j < 2 ^ k)).map (fun j => j - 2 ^ k)).isEmpty = true
    · rw [if_pos hisr]
      have hisrE : ((i :: irest).filter (fun j => ¬j < 2 ^ k)).map (fun j => j - 2 ^ k) = [] :=
        List.isEmpty_iff.mp hisr
      have hf : (i :: irest).filter (fun j => ¬j < 2 ^ k) = [] :=
        List.map_eq_nil_iff.mp hisrE
      have hi : i < 2 ^ k := by
        by_contra hc
        have hmem : i ∈ (i :: irest).filter (fun j => ¬j < 2 ^ k) :=
          List.mem_filter.mpr ⟨List.mem_cons_self i irest, by simpa using hc⟩
        rw [hf] at hmem
        cases hmem
      have hislF : ((i :: irest).filter (fun j => j < 2 ^ k)).isEmpty = false := by
        rw [Bool.eq_false_iff, Ne, List.isEmpty_iff]
        intro hc
        have hmem : i ∈ (i :: irest).filter (fun j => j < 2 ^ k) :=
          List.mem_filter.mpr ⟨List.mem_cons_self i irest, by simpa using hi⟩
        rw [hc] at hmem
        cases hmem
      rw [hisrE, proofSpec_nil_is]
      simp only [hislF, hdrF, List.isEmpty_nil, Bool.not_true, Bool.not_false,
        emitChildren, calcParent, Bool.true_or, if_true, if_false, Bool.false_eq_true]
      simp
    · rw [if_neg hisr]
      have hisrF : (((i :: irest).filter (fun j => ¬j < 2 ^ k)).map (fun j => j - 2 ^ k)).isEmpty
          = false := Bool.eq_false_iff.mpr hisr
      by_cases hisl : ((i :: irest).filter (fun j => j < 2 ^ k)).isEmpty = true
      · rw [if_pos hisl]
        have hislE : (i :: irest).filter (fun j => j < 2 ^ k) = [] :=
          List.isEmpty_iff.mp hisl
        rw [hislE, proofSpec_nil_is]
        simp only [hisl, hisrF, List.isEmpty_nil, Bool.not_true, Bool.not_false,
          emitChildren, calcParent, Bool.or_true, if_true, if_false, Bool.false_eq_true]
        simp
      · rw [if_neg hisl]
        have hislF : ((i :: irest).filter (fun j => j < 2 ^ k)).isEmpty = false :=
          Bool.eq_false_iff.mpr hisl
        simp only [hislF, hisrF, Bool.not_false, emitChildren, calcParent,
          Bool.or_self, if_true]
        simp

theorem mDeliver_park (n : PNode α) (h : Nat) (prest : List (PNode α)) (lg : Nat → List α) :
    mDeliver hash dfl n h (emptyNode :: prest) lg
      = (n :: prest, updF lg h (lg h ++ [n.value.getD dfl]), []) := by
  rw [mDeliver]
  rw [if_pos (show (emptyNode : PNode α).value.isNone = true from rfl)]

theorem mDeliver_pair {p : PNode α} (hp : p.value.isNone = false) (n : PNode α)
    (h : Nat) (prest : List (PNode α)) (lg : Nat → List α) :
    mDeliver hash dfl n h (p :: prest) lg
      = (emptyNode :: (mDeliver hash dfl (calcParent hash dfl p n) (h + 1) prest
            (updF lg h (lg h ++ [n.value.getD dfl]))).1,
         (mDeliver hash dfl (calcParent hash dfl p n) (h + 1) prest
            (updF lg h (lg h ++ [n.value.getD dfl]))).2.1,
         emitChildren dfl (calcParent hash dfl p n) p n
           ++ (mDeliver hash dfl (calcParent hash dfl p n) (h + 1) prest
            (updF lg h (lg h ++ [n.value.getD dfl]))).2.2) := by
  rw [mDeliver]
  rw [if_neg (by rw [hp]; simp)]

theorem mAddAll_append (M : MState α) (l1 l2 : List α) :
    mAddAll hash dfl M (l1 ++ l2) = mAddAll hash dfl (mAddAll hash dfl M l1) l2 := by
  simp [mAddAll, List.foldl_append]

theorem relIdx_empty_split (I : List Nat) (m x y : Nat) :
    (relIdx I m (x + y)).isEmpty
      = ((relIdx I m x).isEmpty && (relIdx I (m + x) y).isEmpty) := by
  rw [Bool.eq_iff_iff, Bool.and_eq_true, relIdx_empty_iff, relIdx_empty_iff, relIdx_empty_iff]
  constructor
  · intro h
    constructor
    · intro i hi hc
      exact h i hi ⟨hc.1, by omega⟩
    · intro i hi hc
      exact h i hi ⟨by omega, by omega⟩
  · intro h i hi hc
    by_cases hx : i < m + x
    · exact h.1 i hi ⟨hc.1, hx⟩
    · exact h.2 i hi ⟨by omega, by omega⟩

theorem mBlock :
    ∀ (k : Nat) (ls : List α) (I : List Nat), I.Pairwise (· < ·) →
    ∀ (m : Nat) (T : List Nat) (c : Nat), CursorOK I m T c →
    ls.length = 2 ^ k →
    ∀ (rest : List (PNode α)) (lg : Nat → List α) (pr : List α),
    (mAddAll hash dfl ⟨List.replicate k emptyNode ++ rest, lg, T, c, pr⟩ ls).parks
        = List.replicate k emptyNode
          ++ (mDeliver hash dfl ⟨some (padRoot hash pad k ls), !(relIdx I m (2 ^ k)).isEmpty⟩ k rest
              (fun j => if j < k then lg j ++ levelVals hash pad j ls else lg j)).1
    ∧ (mAddAll hash dfl ⟨List.replicate k emptyNode ++ rest, lg, T, c, pr⟩ ls).log
        = (mDeliver hash dfl ⟨some (padRoot hash pad k ls), !(relIdx I m (2 ^ k)).isEmpty⟩ k rest
              (fun j => if j < k then lg j ++ levelVals hash pad j ls else lg j)).2.1
    ∧ (mAddAll hash dfl ⟨List.replicate k emptyNode ++ rest, lg, T, c, pr⟩ ls).proof
        = pr ++ proofSpec hash pad k ls (relIdx I m (2 ^ k))
          ++ (mDeliver hash dfl ⟨some (padRoot hash pad k ls), !(relIdx I m (2 ^ k)).isEmpty⟩ k rest
              (fun j => if j < k then lg j ++ levelVals hash pad j ls else lg j)).2.2
    ∧ CursorOK I (m + 2 ^ k)
        (mAddAll hash dfl ⟨List.replicate k emptyNode ++ rest, lg, T, c, pr⟩ ls).toProve
        (mAddAll hash dfl ⟨List.replicate k emptyNode ++ rest, lg, T, c, pr⟩ ls).curIdx := by
  intro k
  induction k with
  | zero =>
    intro ls I hs m T c hc hlen rest lg pr
    match ls, hlen with
    | [a], _ =>
      have hstep := sbsPop_step hs hc
      have hlg : (fun j => if j < 0 then lg j ++ levelVals hash pad j [a] else lg j) = lg := by
        funext j
        rw [if_neg (Nat.not_lt_zero j)]
      have hflag : (!(relIdx I m (2 ^ 0)).isEmpty) = (sbsPop T c).1 := by
        rw [hstep.1, pow_zero, relIdx_one hs]
        by_cases hm : m ∈ I
        · rw [if_pos hm]
          simp [hm]
        · rw [if_neg hm]
          simp [hm]
      have hnode : (⟨some (padRoot hash pad 0 [a]), !(relIdx I m (2 ^ 0)).isEmpty⟩ : PNode α)
          = ⟨some a, (sbsPop T c).1⟩ := by
        rw [hflag]
        rfl
      rw [hlg, hnode]
      have hAA : mAddAll hash dfl ⟨List.replicate 0 emptyNode ++ rest, lg, T, c, pr⟩ [a]
          = mAddLeaf hash dfl ⟨rest, lg, T, c, pr⟩ a := rfl
      rw [hAA]
      simp only [mAddLeaf]
      refine ⟨by trivial, by trivial, ?_, ?_⟩
      · rw [proofSpec_zero]
        simp
      · have h2 : m + 2 ^ 0 = m + 1 := by norm_num
        rw [h2]
        exact hstep.2
  | succ k IH =>
    intro ls I hs m T c hc hlen rest lg pr
    have h2k : 0 < 2 ^ k := Nat.pos_pow_of_pos k (by norm_num)
    have hpow : (2:Nat) ^ (k + 1) = 2 ^ k + 2 ^ k := by
      rw [pow_succ]
      omega
    have hlleft : (ls.take (2 ^ k)).length = 2 ^ k := by
      rw [List.length_take]
      omega
    have hlright : (ls.drop (2 ^ k)).length = 2 ^ k := by
      rw [List.length_drop]
      omega
    have hparks0 : List.replicate (k + 1) (emptyNode : PNode α) ++ rest
        = List.replicate k emptyNode ++ (emptyNode :: rest) := by
      rw [List.replicate_succ', List.append_assoc]
      rfl
    rw [hparks0]
    have hsplit : mAddAll hash dfl
          ⟨List.replicate k emptyNode ++ (emptyNode :: rest), lg, T, c, pr⟩ ls
        = mAddAll hash dfl (mAddAll hash dfl
            ⟨List.replicate k emptyNode ++ (emptyNode :: rest), lg, T, c, pr⟩ (ls.take (2 ^ k)))
            (ls.drop (2 ^ k)) := by
      conv_lhs => rw [← List.take_append_drop (2 ^ k) ls]
      rw [mAddAll_append]
    rw [hsplit]
    obtain ⟨hp1, hl1, hq1, hcur1⟩ :=
      IH (ls.take (2 ^ k)) I hs m T c hc hlleft (emptyNode :: rest) lg pr
    rw [mDeliver_park] at hp1 hl1 hq1
    dsimp only at hp1 hl1 hq1
    rw [List.append_nil] at hq1
    simp only [Option.getD_some] at hl1
    have hlgmid : updF (fun j => if j < k then lg j ++ levelVals hash pad j (ls.take (2 ^ k)) else lg j) k
          ((if k < k then lg k ++ levelVals hash pad k (ls.take (2 ^ k)) else lg k) ++
            [padRoot hash pad k (ls.take (2 ^ k))])
        = fun j => if j < k + 1 then lg j ++ levelVals hash pad j (ls.take (2 ^ k)) else lg j := by
      funext j
      rw [updF]
      by_cases hj : j = k
      · subst hj
        rw [if_pos rfl, if_neg (lt_irrefl j), if_pos (by omega)]
        rw [levelVals_exact hash pad hlleft]
      · rw [if_neg hj]
        by_cases hjk : j < k
        · rw [if_pos hjk, if_pos (by omega)]
        · rw [if_neg hjk, if_neg (by omega)]
    rw [hlgmid] at hl1
    have hMeta : mAddAll hash dfl
          ⟨List.replicate k emptyNode ++ (emptyNode :: rest), lg, T, c, pr⟩ (ls.take (2 ^ k))
        = ⟨(mAddAll hash dfl ⟨List.replicate k emptyNode ++ (emptyNode :: rest), lg, T, c, pr⟩
              (ls.take (2 ^ k))).parks,
           (mAddAll hash dfl ⟨List.replicate k emptyNode ++ (emptyNode :: rest), lg, T, c, pr⟩
              (ls.take (2 ^ k))).log,
           (mAddAll hash dfl ⟨List.replicate k emptyNode ++ (emptyNode :: rest), lg, T, c, pr⟩
              (ls.take (2 ^ k))).toProve,
           (mAddAll hash dfl ⟨List.replicate k emptyNode ++ (emptyNode :: rest), lg, T, c, pr⟩
              (ls.take (2 ^ k))).curIdx,
           (mAddAll hash dfl ⟨List.replicate k emptyNode ++ (emptyNode :: rest), lg, T, c, pr⟩
              (ls.take (2 ^ k))).proof⟩ := rfl
    rw [hMeta, hp1, hl1, hq1]
    obtain ⟨hp2, hl2, hq2, hcur2⟩ :=
      IH (ls.drop (2 ^ k)) I hs (m + 2 ^ k)
        (mAddAll hash dfl ⟨List.replicate k emptyNode ++ (emptyNode :: rest), lg, T, c, pr⟩
          (ls.take (2 ^ k))).toProve
        (mAddAll hash dfl ⟨List.replicate k emptyNode ++ (emptyNode :: rest), lg, T, c, pr⟩
          (ls.take (2 ^ k))).curIdx
        hcur1 hlright
        (⟨some (padRoot hash pad k (ls.take (2 ^ k))), !(relIdx I m (2 ^ k)).isEmpty⟩ :: rest)
        (fun j => if j < k + 1 then lg j ++ levelVals hash pad j (ls.take (2 ^ k)) else lg j)
        (pr ++ proofSpec hash pad k (ls.take (2 ^ k)) (relIdx I m (2 ^ k)))
    rw [mDeliver_pair hash dfl
      (show (⟨some (padRoot hash pad k (ls.take (2 ^ k))),
        !(relIdx I m (2 ^ k)).isEmpty⟩ : PNode α).value.isNone = false from rfl)] at hp2 hl2 hq2
    dsimp only at hp2 hl2 hq2
    have hLG2 : updF
          (fun j =>
            if j < k then
              (if j < k + 1 then lg j ++ levelVals hash pad j (ls.take (2 ^ k)) else lg j) ++
                levelVals hash pad j (ls.drop (2 ^ k))
            else if j < k + 1 then lg j ++ levelVals hash pad j (ls.take (2 ^ k)) else lg j)
          k
          ((if k < k then
              (if k < k + 1 then lg k ++ levelVals hash pad k (ls.take (2 ^ k)) else lg k) ++
                levelVals hash pad k (ls.drop (2 ^ k))
            else if k < k + 1 then lg k ++ levelVals hash pad k (ls.take (2 ^ k)) else lg k) ++
            [(some (padRoot hash pad k (ls.drop (2 ^ k)))).getD dfl])
        = fun j => if j < k + 1 then lg j ++ levelVals hash pad j ls else lg j := by
      funext j
      rw [updF]
      by_cases hj : j = k
      · subst hj
        rw [if_pos rfl, if_neg (lt_irrefl j), if_pos (by omega), if_pos (by omega)]
        rw [Option.getD_some]
        conv_rhs => rw [← List.take_append_drop (2 ^ j) ls]
        rw [levelVals_split hash pad hlleft (le_refl j)]
        rw [levelVals_exact hash pad hlleft, levelVals_exact hash pad hlright]
        rw [List.append_assoc]
      · rw [if_neg hj]
        by_cases hjk : j < k
        · rw [if_pos hjk, if_pos (by omega), if_pos (by omega)]
          conv_rhs => rw [← List.take_append_drop (2 ^ k) ls]
          rw [levelVals_split hash pad hlleft (by omega)]
          rw [List.append_assoc]
        · rw [if_neg hjk, if_neg (by omega), if_neg (by omega)]
    have hparent : calcParent hash dfl
          (⟨some (padRoot hash pad k (ls.take (2 ^ k))), !(relIdx I m (2 ^ k)).isEmpty⟩ : PNode α)
          (⟨some (padRoot hash pad k (ls.drop (2 ^ k))), !(relIdx I (m + 2 ^ k) (2 ^ k)).isEmpty⟩ : PNode α)
        = (⟨some (padRoot hash pad (k + 1) ls), !(relIdx I m (2 ^ (k + 1))).isEmpty⟩ : PNode α) := by
      rw [calcParent]
      dsimp only
      congr 1
      · rw [Option.getD_some, Option.getD_some]
        rw [padRoot_split hash pad (show 2 ^ k < ls.length by omega)]
      · rw [hpow, relIdx_empty_split, Bool.not_and]
    rw [hparent, hLG2] at hp2 hl2 hq2
    refine ⟨?_, ?_, ?_, ?_⟩
    · rw [hp2]
      rw [List.replicate_succ', List.append_assoc]
      rfl
    · rw [hl2]
    · rw [hq2]
      rw [hpow]
      rw [proofSpec_split hash dfl pad k ls (by omega)]
      rw [relIdx_left I m (2 ^ k) (2 ^ k), relIdx_right I m (2 ^ k) (2 ^ k)]
      rw [hpow] at hparent
      rw [hparent]
      simp only [List.append_assoc]
    · rw [hpow, ← Nat.add_assoc]
      exact hcur2

theorem levelVals_one {ls : List α} {j : Nat} (h1 : 2 ^ j ≤ ls.length)
    (h2 : ls.length < 2 ^ (j + 1)) :
    levelVals hash pad j ls = [padRoot hash pad j (ls.take (2 ^ j))] := by
  have hd : ls.length / 2 ^ j = 1 := by
    have h2j : 0 < 2 ^ j := Nat.pos_pow_of_pos j (by norm_num)
    apply Nat.div_eq_of_lt_le
    · omega
    · rw [pow_succ] at h2
      omega
  rw [levelVals, hd]
  have hr1 : List.range 1 = [0] := rfl
  rw [hr1]
  simp only [List.map_cons, List.map_nil, Nat.zero_mul, List.drop_zero]

theorem partialEmit_exact {ls : List α} {k : Nat} (h : ls.length = 2 ^ k) (is : List Nat) :
    partialEmit hash pad k ls is = proofSpec hash pad k ls is := by
  cases k with
  | zero => rw [partialEmit, proofSpec_zero]
  | succ k => rw [partialEmit, if_pos h]

theorem relIdx_filter_all (I : List Nat) (m n : Nat) :
    (relIdx I m n).filter (fun j => j < n) = relIdx I m n := by
  have := relIdx_left I m n 0
  rw [Nat.add_zero] at this
  exact this

theorem mConstruct :
    ∀ (k : Nat) (ls : List α) (I : List Nat), I.Pairwise (· < ·) →
    ∀ (m : Nat) (T : List Nat) (c : Nat), CursorOK I m T c →
    0 < ls.length → ls.length < 2 ^ k →
    ∀ (rest : List (PNode α)) (lg : Nat → List α) (pr : List α),
    (mAddAll hash dfl ⟨List.replicate k emptyNode ++ rest, lg, T, c, pr⟩ ls).parks
        = specParks hash pad k ls (relIdx I m ls.length) ++ rest
    ∧ (mAddAll hash dfl ⟨List.replicate k emptyNode ++ rest, lg, T, c, pr⟩ ls).log
        = (fun j => if j < k then lg j ++ levelVals hash pad j ls else lg j)
    ∧ (mAddAll hash dfl ⟨List.replicate k emptyNode ++ rest, lg, T, c, pr⟩ ls).proof
        = pr ++ partialEmit hash pad k ls (relIdx I m ls.length)
    ∧ CursorOK I (m + ls.length)
        (mAddAll hash dfl ⟨List.replicate k emptyNode ++ rest, lg, T, c, pr⟩ ls).toProve
        (mAddAll hash dfl ⟨List.replicate k emptyNode ++ rest, lg, T, c, pr⟩ ls).curIdx := by
  intro k
  induction k with
  | zero =>
    intro ls I hs m T c hc hpos hlt rest lg pr
    rw [pow_zero] at hlt
    omega
  | succ k IH =>
    intro ls I hs m T c hc hpos hlt rest lg pr
    have h2k : 0 < 2 ^ k := Nat.pos_pow_of_pos k (by norm_num)
    have hpow : (2:Nat) ^ (k + 1) = 2 ^ k + 2 ^ k := by
      rw [pow_succ]
      omega
    have hparks0 : List.replicate (k + 1) (emptyNode : PNode α) ++ rest
        = List.replicate k emptyNode ++ (emptyNode :: rest) := by
      rw [List.replicate_succ', List.append_assoc]
      rfl
    rcases Nat.lt_trichotomy ls.length (2 ^ k) with hsm | heq | hbig
    · -- strictly below half: recurse in the lower frame
      rw [hparks0]
      obtain ⟨hp1, hl1, hq1, hcur1⟩ :=
        IH ls I hs m T c hc hpos hsm (emptyNode :: rest) lg pr
      refine ⟨?_, ?_, ?_, ?_⟩
      · rw [hp1, specParks, if_pos hsm, List.append_assoc]
        rfl
      · rw [hl1]
        funext j
        by_cases hj : j < k
        · rw [if_pos hj, if_pos (by omega)]
        · rw [if_neg hj]
          by_cases hj1 : j < k + 1
          · rw [if_pos hj1]
            have hjk : j = k := by omega
            subst hjk
            rw [levelVals_small hash pad hsm, List.append_nil]
          · rw [if_neg hj1]
      · rw [hq1, partialEmit, if_neg (by omega), if_pos (by omega)]
      · exact hcur1
    · -- exactly half: one full block parked at height k
      rw [hparks0]
      obtain ⟨hp1, hl1, hq1, hcur1⟩ :=
        mBlock hash dfl pad k ls I hs m T c hc heq (emptyNode :: rest) lg pr
      rw [mDeliver_park] at hp1 hl1 hq1
      dsimp only at hp1 hl1 hq1
      rw [List.append_nil] at hq1
      simp only [Option.getD_some] at hl1
      refine ⟨?_, ?_, ?_, ?_⟩
      · rw [hp1, heq, specParks, if_neg (by omega)]
        have hdrop : ls.drop (2 ^ k) = [] := by
          rw [List.drop_eq_nil_iff]
          omega
        have htake : ls.take (2 ^ k) = ls := List.take_of_length_le (by omega)
        rw [hdrop, htake, specParks_nil, relIdx_filter_all]
        rw [List.append_assoc]
        rfl
      · rw [hl1]
        funext j
        rw [updF]
        by_cases hj : j = k
        · subst hj
          rw [if_pos rfl, if_neg (lt_irrefl j), if_pos (by omega)]
          rw [levelVals_exact hash pad heq]
        · rw [if_neg hj]
          by_cases hjk : j < k
          · rw [if_pos hjk, if_pos (by omega)]
          · rw [if_neg hjk, if_neg (by omega)]
      · rw [hq1, heq, partialEmit, if_neg (show ¬ls.length = 2 ^ (k + 1) by omega),
          if_pos (show ls.length ≤ 2 ^ k by omega)]
        rw [partialEmit_exact hash pad heq]
      · rw [← heq] at hcur1
        exact hcur1
    · -- above half: full block on the left half, recurse on the remainder
      have hlleft : (ls.take (2 ^ k)).length = 2 ^ k := by
        rw [List.length_take]
        omega
      have hlright : (ls.drop (2 ^ k)).length = ls.length - 2 ^ k := by
        rw [List.length_drop]
      rw [hparks0]
      have hsplit : mAddAll hash dfl
            ⟨List.replicate k emptyNode ++ (emptyNode :: rest), lg, T, c, pr⟩ ls
          = mAddAll hash dfl (mAddAll hash dfl
              ⟨List.replicate k emptyNode ++ (emptyNode :: rest), lg, T, c, pr⟩ (ls.take (2 ^ k)))
              (ls.drop (2 ^ k)) := by
        conv_lhs => rw [← List.take_append_drop (2 ^ k) ls]
        rw [mAddAll_append]
      rw [hsplit]
      obtain ⟨hp1, hl1, hq1, hcur1⟩ :=
        mBlock hash dfl pad k (ls.take (2 ^ k)) I hs m T c hc hlleft (emptyNode :: rest) lg pr
      rw [mDeliver_park] at hp1 hl1 hq1
      dsimp only at hp1 hl1 hq1
      rw [List.append_nil] at hq1
      simp only [Option.getD_some] at hl1
      have hlgmid : updF (fun j => if j < k then lg j ++ levelVals hash pad j (ls.take (2 ^ k)) else lg j) k
            ((if k < k then lg k ++ levelVals hash pad k (ls.take (2 ^ k)) else lg k) ++
              [padRoot hash pad k (ls.take (2 ^ k))])
          = fun j => if j < k + 1 then lg j ++ levelVals hash pad j (ls.take (2 ^ k)) else lg j := by
        funext j
        rw [updF]
        by_cases hj : j = k
        · subst hj
          rw [if_pos rfl, if_neg (lt_irrefl j), if_pos (by omega)]
          rw [levelVals_exact hash pad hlleft]
        · rw [if_neg hj]
          by_cases hjk : j < k
          · rw [if_pos hjk, if_pos (by omega)]
          · rw [if_neg hjk, if_neg (by omega)]
      rw [hlgmid] at hl1
      have hMeta : mAddAll hash dfl
            ⟨List.replicate k emptyNode ++ (emptyNode :: rest), lg, T, c, pr⟩ (ls.take (2 ^ k))
          = ⟨(mAddAll hash dfl ⟨List.replicate k emptyNode ++ (emptyNode :: rest), lg, T, c, pr⟩
                (ls.take (2 ^ k))).parks,
             (mAddAll hash dfl ⟨List.replicate k emptyNode ++ (emptyNode :: rest), lg, T, c, pr⟩
                (ls.take (2 ^ k))).log,
             (mAddAll hash dfl ⟨List.replicate k emptyNode ++ (emptyNode :: rest), lg, T, c, pr⟩
                (ls.take (2 ^ k))).toProve,
             (mAddAll hash dfl ⟨List.replicate k emptyNode ++ (emptyNode :: rest), lg, T, c, pr⟩
                (ls.take (2 ^ k))).curIdx,
             (mAddAll hash dfl ⟨List.replicate k emptyNode ++ (emptyNode :: rest), lg, T, c, pr⟩
                (ls.take (2 ^ k))).proof⟩ := rfl
      rw [hMeta, hp1, hl1, hq1]
      obtain ⟨hp2, hl2, hq2, hcur2⟩ :=
        IH (ls.drop (2 ^ k)) I hs (m + 2 ^ k)
          (mAddAll hash dfl ⟨List.replicate k emptyNode ++ (emptyNode :: rest), lg, T, c, pr⟩
            (ls.take (2 ^ k))).toProve
          (mAddAll hash dfl ⟨List.replicate k emptyNode ++ (emptyNode :: rest), lg, T, c, pr⟩
            (ls.take (2 ^ k))).curIdx
          hcur1 (by omega) (by omega)
          (⟨some (padRoot hash pad k (ls.take (2 ^ k))), !(relIdx I m (2 ^ k)).isEmpty⟩ :: rest)
          (fun j => if j < k + 1 then lg j ++ levelVals hash pad j (ls.take (2 ^ k)) else lg j)
          (pr ++ proofSpec hash pad k (ls.take (2 ^ k)) (relIdx I m (2 ^ k)))
      rw [hlright] at hp2 hq2 hcur2
      have hlen2 : ls.length = 2 ^ k + (ls.length - 2 ^ k) := by omega
      have hrel := congrArg (relIdx I m) hlen2
      refine ⟨?_, ?_, ?_, ?_⟩
      · rw [hp2]
        rw [specParks, if_neg (by omega)]
        rw [hrel, relIdx_right I m (2 ^ k) (ls.length - 2 ^ k),
          relIdx_left I m (2 ^ k) (ls.length - 2 ^ k)]
        rw [List.append_assoc]
        rfl
      · rw [hl2]
        funext j
        by_cases hj : j < k
        · rw [if_pos hj]
          rw [if_pos (by omega), if_pos (by omega)]
          conv_rhs => rw [← List.take_append_drop (2 ^ k) ls]
          rw [levelVals_split hash pad hlleft (by omega)]
          rw [List.append_assoc]
        · rw [if_neg hj]
          by_cases hj1 : j < k + 1
          · have hjk : j = k := by omega
            subst hjk
            rw [if_pos hj1, if_pos hj1]
            rw [levelVals_exact hash pad hlleft]
            rw [levelVals_one hash pad (by omega) (by omega)]
          · rw [if_neg hj1, if_neg hj1]
      · rw [hq2]
        rw [partialEmit, if_neg (show ¬ls.length = 2 ^ (k + 1) by omega),
          if_neg (show ¬ls.length ≤ 2 ^ k by omega)]
        rw [hrel, relIdx_right I m (2 ^ k) (ls.length - 2 ^ k),
          relIdx_left I m (2 ^ k) (ls.length - 2 ^ k)]
        simp only [List.append_assoc]
      · have harith : m + 2 ^ k + (ls.length - 2 ^ k) = m + ls.length := by omega
        rw [harith] at hcur2
        exact hcur2


end ModelCharacterization


section FinalizeSpine
variable {α : Type} (hash : α → α → α) (dfl pad : α)

theorem mDeliver_pad :
    ∀ (ps : List (PNode α)) (j : Nat) (n : PNode α) (h : Nat) (lg : Nat → List α),
    mDeliver hash dfl n h (ps ++ List.replicate j emptyNode) lg
      = ((mDeliver hash dfl n h ps lg).1
          ++ List.replicate (ps.length + j - (mDeliver hash dfl n h ps lg).1.length) emptyNode,
         (mDeliver hash dfl n h ps lg).2.1,
         (mDeliver hash dfl n h ps lg).2.2) := by
  intro ps
  induction ps with
  | nil =>
    intro j n h lg
    cases j with
    | zero =>
      simp only [List.replicate_zero, List.append_nil, List.length_nil]
      rw [mDeliver]
      simp
    | succ jj =>
      simp only [List.nil_append, List.replicate_succ]
      rw [mDeliver_park, mDeliver]
      simp only [List.length_nil, List.length_cons]
      have : 0 + (jj + 1) - 1 = jj := by omega
      rw [this]
      rfl
  | cons p ps IH =>
    intro j n h lg
    rw [List.cons_append, mDeliver, mDeliver]
    by_cases hp : p.value.isNone = true
    · rw [if_pos hp, if_pos hp]
      simp only [List.length_cons]
      have harith : ps.length + 1 + j - (ps.length + 1) = j := by omega
      rw [harith]
      rw [List.cons_append]
    · rw [if_neg hp, if_neg hp]
      dsimp only
      rw [IH j (calcParent hash dfl p n) (h + 1) (updF lg h (lg h ++ [n.value.getD dfl]))]
      simp only [List.length_cons]
      have harith : ps.length + 1 + j -
          ((mDeliver hash dfl (calcParent hash dfl p n) (h + 1) ps
            (updF lg h (lg h ++ [n.value.getD dfl]))).1.length + 1)
          = ps.length + j -
          (mDeliver hash dfl (calcParent hash dfl p n) (h + 1) ps
            (updF lg h (lg h ++ [n.value.getD dfl]))).1.length := by
        omega
      rw [harith]
      rw [List.cons_append]

theorem mDeliver_len_ge :
    ∀ (ps : List (PNode α)) (n : PNode α) (h : Nat) (lg : Nat → List α),
    ps.length ≤ (mDeliver hash dfl n h ps lg).1.length := by
  intro ps
  induction ps with
  | nil =>
    intro n h lg
    simp [mDeliver]
  | cons p ps IH =>
    intro n h lg
    rw [mDeliver]
    by_cases hp : p.value.isNone = true
    · rw [if_pos hp]
      simp
    · rw [if_neg hp]
      dsimp only
      simp only [List.length_cons, Nat.add_le_add_iff_right]
      exact IH _ _ _

theorem mAddLeaf_pad (L : Nat) (M : MState α) (v : α) :
    mAddLeaf hash dfl
        ⟨M.parks ++ List.replicate (L - M.parks.length) emptyNode,
         M.log, M.toProve, M.curIdx, M.proof⟩ v
      = ⟨(mAddLeaf hash dfl M v).parks
          ++ List.replicate (L - (mAddLeaf hash dfl M v).parks.length) emptyNode,
         (mAddLeaf hash dfl M v).log, (mAddLeaf hash dfl M v).toProve,
         (mAddLeaf hash dfl M v).curIdx, (mAddLeaf hash dfl M v).proof⟩ := by
  simp only [mAddLeaf]
  rw [mDeliver_pad]
  have hge := mDeliver_len_ge hash dfl M.parks
    ⟨some v, (sbsPop M.toProve M.curIdx).1⟩ 0 M.log
  have harith : M.parks.length + (L - M.parks.length) -
      (mDeliver hash dfl ⟨some v, (sbsPop M.toProve M.curIdx).1⟩ 0 M.parks M.log).1.length
      = L - (mDeliver hash dfl ⟨some v, (sbsPop M.toProve M.curIdx).1⟩ 0 M.parks M.log).1.length := by
    omega
  rw [harith]

theorem mAddAll_pad (ls : List α) :
    ∀ (L : Nat) (M : MState α),
    mAddAll hash dfl
        ⟨M.parks ++ List.replicate (L - M.parks.length) emptyNode,
         M.log, M.toProve, M.curIdx, M.proof⟩ ls
      = ⟨(mAddAll hash dfl M ls).parks
          ++ List.replicate (L - (mAddAll hash dfl M ls).parks.length) emptyNode,
         (mAddAll hash dfl M ls).log, (mAddAll hash dfl M ls).toProve,
         (mAddAll hash dfl M ls).curIdx, (mAddAll hash dfl M ls).proof⟩ := by
  induction ls with
  | nil =>
    intro L M
    rfl
  | cons a as IH =>
    intro L M
    have h1 : mAddAll hash dfl
        ⟨M.parks ++ List.replicate (L - M.parks.length) emptyNode,
         M.log, M.toProve, M.curIdx, M.proof⟩ (a :: as)
      = mAddAll hash dfl (mAddLeaf hash dfl
          ⟨M.parks ++ List.replicate (L - M.parks.length) emptyNode,
           M.log, M.toProve, M.curIdx, M.proof⟩ a) as := rfl
    rw [h1, mAddLeaf_pad]
    rw [IH L (mAddLeaf hash dfl M a)]
    have h2 : mAddAll hash dfl M (a :: as) = mAddAll hash dfl (mAddLeaf hash dfl M a) as := rfl
    rw [h2]

/-- The ephemeral-node walk of finalization over a parked-column list (the
height argument of the loop does not influence the combination). -/
def ephWalk (hash : α → α → α) (dfl pad : α) : List (PNode α) → PNode α → PNode α × List α
  | [], eph => (eph, [])
  | p :: rest, eph =>
    let r := calcEphemeralParent hash dfl pad p eph
    let w := ephWalk hash dfl pad rest r.1
    (w.1, emitChildren dfl r.1 r.2.1 r.2.2 ++ w.2)

theorem mFinalize_nil_done (minHeight height : Nat) (eph : PNode α) (pr : List α)
    (hmh : minHeight ≤ height) :
    mFinalize hash dfl pad minHeight height [] eph pr = (eph.value, pr) := by
  rw [mFinalize, if_pos hmh]

theorem mFinalize_nil_step (minHeight height : Nat) (eph : PNode α) (pr : List α)
    (hmh : ¬minHeight ≤ height) :
    mFinalize hash dfl pad minHeight height [] eph pr
      = mFinalize hash dfl pad minHeight (height + 1) []
          (calcEphemeralParent hash dfl pad emptyNode eph).1
          (pr ++ emitChildren dfl (calcEphemeralParent hash dfl pad emptyNode eph).1
            (calcEphemeralParent hash dfl pad emptyNode eph).2.1
            (calcEphemeralParent hash dfl pad emptyNode eph).2.2) := by
  rw [mFinalize, if_neg hmh]

theorem mFinalize_cons_done (minHeight height : Nat) (p : PNode α)
    (rest : List (PNode α)) (eph : PNode α) (pr : List α)
    (hc : minHeight ≤ height ∧ rest.isEmpty = true ∧ eph.isEmpty = true) :
    mFinalize hash dfl pad minHeight height (p :: rest) eph pr = (p.value, pr) := by
  rw [mFinalize, if_pos hc]

theorem mFinalize_cons_step (minHeight height : Nat) (p : PNode α)
    (rest : List (PNode α)) (eph : PNode α) (pr : List α)
    (hc : ¬(minHeight ≤ height ∧ rest.isEmpty = true ∧ eph.isEmpty = true)) :
    mFinalize hash dfl pad minHeight height (p :: rest) eph pr
      = mFinalize hash dfl pad minHeight (height + 1) rest
          (calcEphemeralParent hash dfl pad p eph).1
          (pr ++ emitChildren dfl (calcEphemeralParent hash dfl pad p eph).1
            (calcEphemeralParent hash dfl pad p eph).2.1
            (calcEphemeralParent hash dfl pad p eph).2.2) := by
  rw [mFinalize, if_neg hc]

theorem finalize_step_all :
    ∀ (A : List (PNode α)) (x : PNode α) (minH h : Nat) (eph : PNode α) (pr : List α),
    mFinalize hash dfl pad minH h (A ++ [x]) eph pr
      = mFinalize hash dfl pad minH (h + A.length) [x] (ephWalk hash dfl pad A eph).1
          (pr ++ (ephWalk hash dfl pad A eph).2) := by
  intro A
  induction A with
  | nil =>
    intro x minH h eph pr
    rw [ephWalk]
    simp
  | cons p A IH =>
    intro x minH h eph pr
    rw [List.cons_append]
    rw [mFinalize_cons_step hash dfl pad minH h p (A ++ [x]) eph pr
      (by
        intro hc
        have := hc.2.1
        simp at this)]
    rw [IH x minH (h + 1) _ _]
    rw [ephWalk]
    simp only [List.length_cons]
    have harith : h + 1 + A.length = h + (A.length + 1) := by omega
    rw [harith]
    rw [List.append_assoc]

theorem calcEph_norm (p eph : PNode α) :
    calcEphemeralParent hash dfl pad (normP p) eph = calcEphemeralParent hash dfl pad p eph := by
  by_cases hp : p.value.isSome = true
  · rw [normP_of_isSome hp]
  · have hnp : normP p = emptyNode := by
      rw [normP, if_neg hp]
    have hpe : p.isEmpty = true := by
      rw [PNode.isEmpty]
      cases hv : p.value
      · rfl
      · rw [hv] at hp
        simp at hp
    have hne : (emptyNode : PNode α).isEmpty = true := rfl
    rw [hnp, calcEphemeralParent, calcEphemeralParent]
    rw [if_neg (show ¬(¬(emptyNode : PNode α).isEmpty = true ∧ ¬eph.isEmpty = true) by simp [hne]),
      if_neg (show ¬(¬(emptyNode : PNode α).isEmpty = true ∧ eph.isEmpty = true) by simp [hne])]
    rw [if_neg (show ¬(¬p.isEmpty = true ∧ ¬eph.isEmpty = true) by simp [hpe]),
      if_neg (show ¬(¬p.isEmpty = true ∧ eph.isEmpty = true) by simp [hpe])]
    by_cases he : eph.isEmpty = true
    · rw [if_neg (show ¬((emptyNode : PNode α).isEmpty = true ∧ ¬eph.isEmpty = true) by simp [he]),
        if_neg (show ¬(p.isEmpty = true ∧ ¬eph.isEmpty = true) by simp [he])]
    · rw [if_pos (show (emptyNode : PNode α).isEmpty = true ∧ ¬eph.isEmpty = true from
          ⟨hne, by simp [he]⟩),
        if_pos (show p.isEmpty = true ∧ ¬eph.isEmpty = true from ⟨hpe, by simp [he]⟩)]

theorem normP_value (p : PNode α) : (normP p).value = p.value := by
  rw [normP]
  by_cases hp : p.value.isSome = true
  · rw [if_pos hp]
  · rw [if_neg hp]
    cases hv : p.value
    · rfl
    · rw [hv] at hp
      simp at hp

theorem normP_isEmpty (p : PNode α) : (normP p).isEmpty = p.isEmpty := by
  rw [PNode.isEmpty, PNode.isEmpty, normP_value]

theorem finalize_norm :
    ∀ (fuel minH h : Nat) (L : List (GoLayer α)) (eph : PNode α) (pr : List α),
    L.length + (minH - h) ≤ fuel →
    finalizeLoop hash dfl pad minH h L eph pr
      = mFinalize hash dfl pad minH h (L.map (fun l => normP l.parking)) eph pr := by
  intro fuel
  induction fuel with
  | zero =>
    intro minH h L eph pr hf
    cases L with
    | cons l ls => simp at hf
    | nil =>
      rw [List.map_nil, finalizeLoop_nil_done hash dfl pad minH h eph pr (by omega),
        mFinalize_nil_done hash dfl pad minH h eph pr (by omega)]
  | succ fuel IH =>
    intro minH h L eph pr hf
    cases L with
    | nil =>
      rw [List.map_nil]
      by_cases hmh : minH ≤ h
      · rw [finalizeLoop_nil_done hash dfl pad minH h eph pr hmh,
          mFinalize_nil_done hash dfl pad minH h eph pr hmh]
      · rw [finalizeLoop_nil_step hash dfl pad minH h eph pr hmh,
          mFinalize_nil_step hash dfl pad minH h eph pr hmh]
        have := IH minH (h + 1) []
          (calcEphemeralParent hash dfl pad emptyNode eph).1
          (pr ++ emitChildren dfl (calcEphemeralParent hash dfl pad emptyNode eph).1
            (calcEphemeralParent hash dfl pad emptyNode eph).2.1
            (calcEphemeralParent hash dfl pad emptyNode eph).2.2)
          (by simp at hf ⊢; omega)
        rw [List.map_nil] at this
        exact this
    | cons l ls =>
      rw [List.map_cons]
      by_cases hc : minH ≤ h ∧ ls.isEmpty = true ∧ eph.isEmpty = true
      · rw [finalizeLoop_cons_done hash dfl pad minH h l ls eph pr hc,
          mFinalize_cons_done hash dfl pad minH h (normP l.parking)
            (ls.map (fun l => normP l.parking)) eph pr
            (by
              refine ⟨hc.1, ?_, hc.2.2⟩
              have := hc.2.1
              rw [List.isEmpty_iff] at this ⊢
              rw [this]
              rfl)]
        rw [normP_value]
      · rw [finalizeLoop_cons_step hash dfl pad minH h l ls eph pr hc,
          mFinalize_cons_step hash dfl pad minH h (normP l.parking)
            (ls.map (fun l => normP l.parking)) eph pr
            (by
              intro hcon
              refine hc ⟨hcon.1, ?_, hcon.2.2⟩
              have := hcon.2.1
              rw [List.isEmpty_iff] at this ⊢
              cases ls with
              | nil => rfl
              | cons a as => simp at this)]
        rw [calcEph_norm]
        exact IH minH (h + 1) ls
          (calcEphemeralParent hash dfl pad l.parking eph).1
          (pr ++ emitChildren dfl (calcEphemeralParent hash dfl pad l.parking eph).1
            (calcEphemeralParent hash dfl pad l.parking eph).2.1
            (calcEphemeralParent hash dfl pad l.parking eph).2.2)
          (by simp at hf ⊢; omega)

theorem ephWalk_append (A B : List (PNode α)) (eph : PNode α) :
    ephWalk hash dfl pad (A ++ B) eph
      = ((ephWalk hash dfl pad B (ephWalk hash dfl pad A eph).1).1,
         (ephWalk hash dfl pad A eph).2
           ++ (ephWalk hash dfl pad B (ephWalk hash dfl pad A eph).1).2) := by
  induction A generalizing eph with
  | nil =>
    rw [List.nil_append, ephWalk]
    simp
  | cons p A IH =>
    rw [List.cons_append, ephWalk, ephWalk]
    dsimp only
    rw [IH]
    rw [List.append_assoc]

theorem finalEmit_nil : ∀ k : Nat, finalEmit hash pad k [] [] = [] := by
  intro k
  induction k with
  | zero => rfl
  | succ k IH =>
    rw [finalEmit]
    rw [if_neg (by
      intro hc
      have : 0 < 2 ^ (k + 1) := Nat.pos_pow_of_pos _ (by norm_num)
      simp at hc
      omega)]
    rw [if_pos (by simp)]
    rw [IH]
    rfl

theorem finalEmit_exact {ls : List α} {k : Nat} (h : ls.length = 2 ^ k) (is : List Nat) :
    finalEmit hash pad k ls is = [] := by
  cases k with
  | zero => rfl
  | succ k => rw [finalEmit, if_pos h]

theorem filter_lt_all {is : List Nat} {n B : Nat} (hb : ∀ j ∈ is, j < n) (hnB : n ≤ B) :
    is.filter (fun j => j < B) = is := by
  apply List.filter_eq_self.mpr
  intro j hj
  have := hb j hj
  simp only [decide_eq_true_eq]
  omega

theorem filter_ge_nil {is : List Nat} {n B : Nat} (hb : ∀ j ∈ is, j < n) (hnB : n ≤ B) :
    is.filter (fun j => ¬j < B) = [] := by
  apply List.filter_eq_nil_iff.mpr
  intro j hj
  have := hb j hj
  simp
  omega

theorem isEmpty_filter_split (is : List Nat) (B : Nat) :
    is.isEmpty = ((is.filter (fun j => j < B)).isEmpty
      && ((is.filter (fun j => ¬j < B)).map (fun j => j - B)).isEmpty) := by
  cases is with
  | nil => rfl
  | cons i irest =>
    simp only [List.isEmpty_cons, Bool.false_eq]
    by_cases hi : i < B
    · rw [Bool.eq_false_iff]
      intro hc
      have h1 : (List.filter (fun j => decide (j < B)) (i :: irest)).isEmpty = true := by
        rw [Bool.and_eq_true] at hc
        exact hc.1
      rw [List.isEmpty_iff, List.filter_eq_nil_iff] at h1
      exact absurd (by simpa using hi) (h1 i (List.mem_cons_self i irest))
    · rw [Bool.eq_false_iff]
      intro hc
      have h1 : ((List.filter (fun j => ¬j < B) (i :: irest)).map (fun j => j - B)).isEmpty
          = true := by
        rw [Bool.and_eq_true] at hc
        exact hc.2
      rw [List.isEmpty_iff, List.map_eq_nil_iff, List.filter_eq_nil_iff] at h1
      exact absurd (by simpa using hi) (h1 i (List.mem_cons_self i irest))

theorem ephWalk_specParks :
    ∀ (k : Nat) (ls : List α) (is : List Nat),
    ls.length < 2 ^ k →
    (∀ j ∈ is, j < ls.length) →
    ephWalk hash dfl pad (specParks hash pad k ls is) emptyNode
      = (if ls.length = 0 then emptyNode
          else ⟨some (padRoot hash pad k ls), !is.isEmpty⟩,
         finalEmit hash pad k ls is) := by
  intro k
  induction k with
  | zero =>
    intro ls is hlt hb
    rw [pow_zero] at hlt
    have hls : ls.length = 0 := by omega
    have his : is = [] := by
      cases is with
      | nil => rfl
      | cons i irest =>
        have := hb i (List.mem_cons_self i irest)
        omega
    rw [his, hls]
    have hlsnil : ls = [] := List.length_eq_zero.mp hls
    rw [hlsnil]
    rw [specParks, ephWalk, finalEmit]
    rw [if_pos rfl]
  | succ k IH =>
    intro ls is hlt hb
    have h2k : 0 < 2 ^ k := Nat.pos_pow_of_pos k (by norm_num)
    rw [specParks]
    by_cases hsm : ls.length < 2 ^ k
    · rw [if_pos hsm]
      rw [ephWalk_append]
      rw [IH ls is hsm hb]
      by_cases hls : ls.length = 0
      · have his : is = [] := by
          cases is with
          | nil => rfl
          | cons i irest =>
            have := hb i (List.mem_cons_self i irest)
            omega
        have hlsnil : ls = [] := List.length_eq_zero.mp hls
        rw [if_pos hls, his, hlsnil]
        rw [ephWalk, ephWalk]
        dsimp only
        have hce : calcEphemeralParent hash dfl pad emptyNode emptyNode
            = ((emptyNode : PNode α), emptyNode, emptyNode) := by
          rw [calcEphemeralParent]
          rw [if_neg (by simp [emptyNode, PNode.isEmpty]), if_neg (by simp [emptyNode, PNode.isEmpty]),
            if_neg (by simp [emptyNode, PNode.isEmpty])]
        rw [hce]
        dsimp only
        have hem : emitChildren dfl (emptyNode : PNode α) emptyNode emptyNode = [] := rfl
        rw [hem]
        rw [finalEmit, if_neg (show ¬(List.length ([] : List α) = 2 ^ (k + 1)) by
            intro hc
            have h0 : 0 < 2 ^ (k + 1) := Nat.pos_pow_of_pos _ (by norm_num)
            simp at hc
            omega),
          if_pos (show List.length ([] : List α) ≤ 2 ^ k by simp)]
        rw [finalEmit_nil]
        simp
      · rw [if_neg hls]
        rw [ephWalk, ephWalk]
        dsimp only
        have hveq : calcEphemeralParent hash dfl pad emptyNode
              (⟨some (padRoot hash pad k ls), !is.isEmpty⟩ : PNode α)
            = (⟨some (hash (padRoot hash pad k ls) pad), !is.isEmpty⟩,
               (⟨some (padRoot hash pad k ls), !is.isEmpty⟩ : PNode α), paddingNode pad) := by
          rw [calcEphemeralParent]
          rw [if_neg (by simp [emptyNode, PNode.isEmpty]),
            if_neg (by simp [emptyNode, PNode.isEmpty]),
            if_pos (by simp [emptyNode, PNode.isEmpty])]
          rw [calcParent]
          simp [paddingNode]
        rw [hveq]
        dsimp only
        rw [if_neg hls]
        have hpr : padRoot hash pad (k + 1) ls = hash (padRoot hash pad k ls) pad := by
          rw [padRoot, if_pos (by omega)]
        rw [hpr]
        have hfe : finalEmit hash pad (k + 1) ls is
            = finalEmit hash pad k ls is ++ if is.isEmpty = true then [] else [pad] := by
          rw [finalEmit, if_neg (by omega), if_pos (by omega)]
        rw [hfe]
        congr 1
        rw [emitChildren]
        by_cases hie : is.isEmpty = true
        · rw [if_neg (by simp [hie]), if_pos hie]
          simp
        · rw [if_pos (by simp [hie]), if_neg hie]
          rw [if_pos (by simp [hie])]
          simp [paddingNode]
    · rw [if_neg hsm]
      have hbr : ∀ j ∈ (is.filter (fun j => ¬j < 2 ^ k)).map (fun j => j - 2 ^ k),
          j < (ls.drop (2 ^ k)).length := by
        intro j hj
        rw [List.mem_map] at hj
        obtain ⟨i, hi, hij⟩ := hj
        rw [List.mem_filter] at hi
        have hb1 := hb i hi.1
        have hb2 := hi.2
        simp at hb2
        rw [List.length_drop]
        omega
      have hdl : (ls.drop (2 ^ k)).length = ls.length - 2 ^ k := List.length_drop _ _
      rw [ephWalk_append]
      rw [IH (ls.drop (2 ^ k)) _ (by rw [hdl]; rw [pow_succ] at hlt; omega) hbr]
      have hlpos : ls.length ≠ 0 := by omega
      rcases Nat.lt_or_ge (2 ^ k) ls.length with hgt | hge2
      · -- the tail segment is nonempty
        have hdne : (ls.drop (2 ^ k)).length ≠ 0 := by
          rw [hdl]
          omega
        rw [if_neg hdne]
        rw [ephWalk, ephWalk]
        dsimp only
        have hslot : ¬(⟨some (padRoot hash pad k (ls.take (2 ^ k))),
            !(is.filter (fun j => j < 2 ^ k)).isEmpty⟩ : PNode α).isEmpty = true := by
          simp [PNode.isEmpty]
        have hvd : ¬(⟨some (padRoot hash pad k (ls.drop (2 ^ k))),
            !((is.filter (fun j => ¬j < 2 ^ k)).map (fun j => j - 2 ^ k)).isEmpty⟩ : PNode α).isEmpty
            = true := by
          simp [PNode.isEmpty]
        have hce : calcEphemeralParent hash dfl pad
              (⟨some (padRoot hash pad k (ls.take (2 ^ k))),
                !(is.filter (fun j => j < 2 ^ k)).isEmpty⟩ : PNode α)
              (⟨some (padRoot hash pad k (ls.drop (2 ^ k))),
                !((is.filter (fun j => ¬j < 2 ^ k)).map (fun j => j - 2 ^ k)).isEmpty⟩ : PNode α)
            = (⟨some (hash (padRoot hash pad k (ls.take (2 ^ k)))
                  (padRoot hash pad k (ls.drop (2 ^ k)))),
                !(is.filter (fun j => j < 2 ^ k)).isEmpty
                  || !((is.filter (fun j => ¬j < 2 ^ k)).map (fun j => j - 2 ^ k)).isEmpty⟩,
               (⟨some (padRoot hash pad k (ls.take (2 ^ k))),
                !(is.filter (fun j => j < 2 ^ k)).isEmpty⟩ : PNode α),
               (⟨some (padRoot hash pad k (ls.drop (2 ^ k))),
                !((is.filter (fun j => ¬j < 2 ^ k)).map (fun j => j - 2 ^ k)).isEmpty⟩ : PNode α)) := by
          rw [calcEphemeralParent, if_pos ⟨hslot, hvd⟩, calcParent]
          rfl
        rw [hce]
        dsimp only
        have hflag : (!(is.filter (fun j => j < 2 ^ k)).isEmpty
              || !((is.filter (fun j => ¬j < 2 ^ k)).map (fun j => j - 2 ^ k)).isEmpty)
            = !is.isEmpty := by
          rw [isEmpty_filter_split is (2 ^ k), Bool.not_and]
        have hpr : hash (padRoot hash pad k (ls.take (2 ^ k))) (padRoot hash pad k (ls.drop (2 ^ k)))
            = padRoot hash pad (k + 1) ls := (padRoot_split hash pad hgt).symm
        rw [hflag, hpr, if_neg hlpos]
        have hfe : finalEmit hash pad (k + 1) ls is
            = finalEmit hash pad k (ls.drop (2 ^ k))
                ((is.filter (fun j => ¬j < 2 ^ k)).map (fun j => j - 2 ^ k))
              ++ if is.isEmpty = true then []
                 else (if (is.filter (fun j => j < 2 ^ k)).isEmpty = true
                        then [padRoot hash pad k (ls.take (2 ^ k))] else [])
                   ++ (if ((is.filter (fun j => ¬j < 2 ^ k)).map (fun j => j - 2 ^ k)).isEmpty = true
                        then [padRoot hash pad k (ls.drop (2 ^ k))] else []) := by
          rw [finalEmit, if_neg (by omega), if_neg (by omega)]
        rw [hfe]
        congr 1
        rw [emitChildren]
        by_cases hie : is.isEmpty = true
        · rw [if_neg (by simp [hie]), if_pos hie]
          simp
        · rw [if_pos (by simp [hie]), if_neg hie]
          simp only [List.append_nil]
          rcases Bool.eq_false_or_eq_true ((is.filter (fun j => j < 2 ^ k)).isEmpty)
            with hisl | hisl <;>
          rcases Bool.eq_false_or_eq_true
              (((is.filter (fun j => ¬j < 2 ^ k)).map (fun j => j - 2 ^ k)).isEmpty)
            with hisr2 | hisr2 <;>
          simp only [hisl, hisr2, Bool.not_true, Bool.not_false, if_true, if_false,
            Bool.false_eq_true, Bool.true_eq_false] <;>
          simp
      · -- the segment fills the left half exactly
        have heq : ls.length = 2 ^ k := by omega
        have hdz : (ls.drop (2 ^ k)).length = 0 := by
          rw [hdl]
          omega
        rw [if_pos hdz]
        have hisr : (is.filter (fun j => ¬j < 2 ^ k)).map (fun j => j - 2 ^ k) = [] := by
          rw [filter_ge_nil hb (by omega)]
          rfl
        have hisl : is.filter (fun j => j < 2 ^ k) = is := filter_lt_all hb (by omega)
        have hdrop : ls.drop (2 ^ k) = [] := by
          rw [← List.length_eq_zero]
          exact hdz
        rw [ephWalk, ephWalk]
        dsimp only
        have hslot : ¬(⟨some (padRoot hash pad k (ls.take (2 ^ k))),
            !(is.filter (fun j => j < 2 ^ k)).isEmpty⟩ : PNode α).isEmpty = true := by
          simp [PNode.isEmpty]
        have hee : (emptyNode : PNode α).isEmpty = true := rfl
        have hce : calcEphemeralParent hash dfl pad
              (⟨some (padRoot hash pad k (ls.take (2 ^ k))),
                !(is.filter (fun j => j < 2 ^ k)).isEmpty⟩ : PNode α) emptyNode
            = (⟨some (hash (padRoot hash pad k (ls.take (2 ^ k))) pad),
                !(is.filter (fun j => j < 2 ^ k)).isEmpty⟩,
               (⟨some (padRoot hash pad k (ls.take (2 ^ k))),
                !(is.filter (fun j => j < 2 ^ k)).isEmpty⟩ : PNode α),
               paddingNode pad) := by
          rw [calcEphemeralParent]
          rw [if_neg (by simp [hee]), if_pos ⟨hslot, hee⟩, calcParent]
          simp [paddingNode]
        rw [hce]
        dsimp only
        have htake : ls.take (2 ^ k) = ls := List.take_of_length_le (by omega)
        have hpr : hash (padRoot hash pad k (ls.take (2 ^ k))) pad
            = padRoot hash pad (k + 1) ls := by
          rw [htake, padRoot, if_pos (by omega)]
        rw [hpr, hisl, if_neg hlpos]
        have hfe : finalEmit hash pad (k + 1) ls is
            = finalEmit hash pad k ls is ++ if is.isEmpty = true then [] else [pad] := by
          rw [finalEmit, if_neg (show ¬ls.length = 2 ^ (k + 1) by rw [pow_succ] at hlt ⊢; omega),
            if_pos (by omega)]
        rw [hfe, finalEmit_exact hash pad heq, hdrop, hisr, finalEmit_nil]
        simp only [List.nil_append]
        congr 1
        rw [emitChildren]
        by_cases hie : is.isEmpty = true
        · rw [if_neg (by simp [hie]), if_pos hie]
          simp
        · rw [if_pos (by simp [hie]), if_neg hie]
          rw [if_pos (by simp [hie]), if_neg (show ¬(paddingNode pad : PNode α).onPath = true by
            simp [paddingNode])]
          rfl


end FinalizeSpine


section PadClimbSpine

variable {α : Type} (hash : α → α → α) (dfl pad : α)

/-- Repeatedly hash with the padding value on the right. -/
def padClimb (hash : α → α → α) (pad : α) : Nat → α → α
  | 0, v => v
  | d + 1, v => padClimb hash pad d (hash v pad)

theorem finalize_nil_climb :
    ∀ (d minH h : Nat), minH - h = d → ∀ (v : α) (fl : Bool) (pr : List α),
    mFinalize hash dfl pad minH h [] ⟨some v, fl⟩ pr
      = (some (padClimb hash pad d v),
         pr ++ (if fl then List.replicate d pad else [])) := by
  intro d
  induction d with
  | zero =>
    intro minH h hd v fl pr
    rw [mFinalize_nil_done hash dfl pad minH h _ pr (by omega)]
    rw [padClimb]
    cases fl <;> simp
  | succ d IH =>
    intro minH h hd v fl pr
    rw [mFinalize_nil_step hash dfl pad minH h _ pr (by omega)]
    have hce : calcEphemeralParent hash dfl pad emptyNode (⟨some v, fl⟩ : PNode α)
        = (⟨some (hash v pad), fl⟩, (⟨some v, fl⟩ : PNode α), paddingNode pad) := by
      rw [calcEphemeralParent]
      rw [if_neg (by simp [emptyNode, PNode.isEmpty]),
        if_neg (by simp [emptyNode, PNode.isEmpty]),
        if_pos (by simp [emptyNode, PNode.isEmpty])]
      rw [calcParent]
      simp [paddingNode]
    rw [hce]
    dsimp only
    rw [IH minH (h + 1) (by omega) (hash v pad) fl _]
    rw [padClimb]
    congr 1
    rw [emitChildren]
    cases fl
    · simp
    · rw [if_pos rfl, if_pos rfl, if_neg (show ¬(paddingNode pad : PNode α).onPath = true by
        simp [paddingNode])]
      simp [paddingNode, List.replicate_succ]

theorem padRoot_raise {ls : List α} {k : Nat} (h : ls.length ≤ 2 ^ k) :
    padRoot hash pad (k + 1) ls = hash (padRoot hash pad k ls) pad := by
  rw [padRoot, if_pos h]

theorem padRoot_climb {ls : List α} {k : Nat} (h : ls.length ≤ 2 ^ k) :
    ∀ d : Nat, padRoot hash pad (k + d) ls = padClimb hash pad d (padRoot hash pad k ls) := by
  intro d
  induction d generalizing k with
  | zero =>
    rw [padClimb]
    rfl
  | succ d IH =>
    rw [padClimb]
    have h1 : ls.length ≤ 2 ^ (k + 1) := by
      have : (2:Nat) ^ k ≤ 2 ^ (k + 1) := Nat.pow_le_pow_right (by norm_num) (by omega)
      omega
    have h2 := IH h1
    have h3 : k + (d + 1) = k + 1 + d := by omega
    rw [h3, h2, padRoot_raise hash pad h]

theorem partialEmit_raise {ls : List α} {k : Nat} (h : ls.length ≤ 2 ^ k)
    (hne : 0 < ls.length) (is : List Nat) :
    partialEmit hash pad (k + 1) ls is = partialEmit hash pad k ls is := by
  rw [partialEmit, if_neg (by
      intro hc
      have : (2:Nat) ^ k < 2 ^ (k + 1) := Nat.pow_lt_pow_right (by norm_num) (by omega)
      omega),
    if_pos h]

theorem finalEmit_raise {ls : List α} {k : Nat} (h : ls.length ≤ 2 ^ k)
    (hne : 0 < ls.length) (is : List Nat) :
    finalEmit hash pad (k + 1) ls is
      = finalEmit hash pad k ls is ++ if is.isEmpty = true then [] else [pad] := by
  rw [finalEmit, if_neg (by
      intro hc
      have : (2:Nat) ^ k < 2 ^ (k + 1) := Nat.pow_lt_pow_right (by norm_num) (by omega)
      omega),
    if_pos h]

theorem partialEmit_climb {ls : List α} {k : Nat} (h : ls.length ≤ 2 ^ k)
    (hne : 0 < ls.length) (is : List Nat) :
    ∀ d : Nat, partialEmit hash pad (k + d) ls is = partialEmit hash pad k ls is := by
  intro d
  induction d with
  | zero => rfl
  | succ d IH =>
    have h1 : ls.length ≤ 2 ^ (k + d) := by
      have : (2:Nat) ^ k ≤ 2 ^ (k + d) := Nat.pow_le_pow_right (by norm_num) (by omega)
      omega
    have h2 : k + (d + 1) = (k + d) + 1 := by omega
    rw [h2, partialEmit_raise hash pad h1 hne is, IH]

theorem finalEmit_climb {ls : List α} {k : Nat} (h : ls.length ≤ 2 ^ k)
    (hne : 0 < ls.length) (is : List Nat) :
    ∀ d : Nat, finalEmit hash pad (k + d) ls is
      = finalEmit hash pad k ls is ++ if is.isEmpty = true then [] else List.replicate d pad := by
  intro d
  induction d with
  | zero =>
    cases his : is.isEmpty <;> simp
  | succ d IH =>
    have h1 : ls.length ≤ 2 ^ (k + d) := by
      have : (2:Nat) ^ k ≤ 2 ^ (k + d) := Nat.pow_le_pow_right (by norm_num) (by omega)
      omega
    have h2 : k + (d + 1) = (k + d) + 1 := by omega
    rw [h2, finalEmit_raise hash pad h1 hne is, IH]
    cases his : is.isEmpty
    · simp only [Bool.false_eq_true, if_false, List.append_assoc]
      rw [List.replicate_succ']
    · simp

theorem relIdx_bound (I : List Nat) (m n : Nat) :
    ∀ j ∈ relIdx I m n, j < n := by
  intro j hj
  rw [relIdx, List.mem_map] at hj
  obtain ⟨i, hi, hij⟩ := hj
  rw [List.mem_filter] at hi
  have := hi.2
  simp only [Bool.and_eq_true, decide_eq_true_eq] at this
  omega

theorem partialEmit_nil_is : ∀ (k : Nat) (ls : List α),
    partialEmit hash pad k ls [] = [] := by
  intro k
  induction k with
  | zero => intro ls; rfl
  | succ k IH =>
    intro ls
    rw [partialEmit]
    by_cases h1 : ls.length = 2 ^ (k + 1)
    · rw [if_pos h1, proofSpec_nil_is]
    · rw [if_neg h1]
      by_cases h2 : ls.length ≤ 2 ^ k
      · rw [if_pos h2, IH]
      · rw [if_neg h2]
        simp only [List.filter_nil, List.map_nil]
        rw [proofSpec_nil_is, IH]
        rfl

theorem finalEmit_nil_is : ∀ (k : Nat) (ls : List α),
    finalEmit hash pad k ls [] = [] := by
  intro k
  induction k with
  | zero => intro ls; rfl
  | succ k IH =>
    intro ls
    rw [finalEmit]
    by_cases h1 : ls.length = 2 ^ (k + 1)
    · rw [if_pos h1]
    · rw [if_neg h1]
      by_cases h2 : ls.length ≤ 2 ^ k
      · rw [if_pos h2, IH]
        simp
      · rw [if_neg h2]
        simp only [List.filter_nil, List.map_nil]
        rw [IH]
        simp

theorem ps_pe_fe :
    ∀ (k : Nat) (ls : List α) (is : List Nat),
    ls.length ≤ 2 ^ k →
    (∀ j ∈ is, j < ls.length) →
    proofSpec hash pad k ls is
      = partialEmit hash pad k ls is ++ finalEmit hash pad k ls is := by
  intro k
  induction k with
  | zero =>
    intro ls is _ _
    rw [proofSpec_zero]
    rfl
  | succ k IH =>
    intro ls is hle hb
    by_cases hnil : is = []
    · subst hnil
      rw [proofSpec_nil_is, partialEmit_nil_is, finalEmit_nil_is]
      rfl
    by_cases h1 : ls.length = 2 ^ (k + 1)
    · rw [partialEmit, if_pos h1, finalEmit, if_pos h1, List.append_nil]
    · rw [partialEmit, if_neg h1, finalEmit, if_neg h1]
      by_cases h2 : ls.length ≤ 2 ^ k
      · rw [if_pos h2, if_pos h2]
        have hisl : is.filter (fun j => j < 2 ^ k) = is := filter_lt_all hb h2
        have hisr : is.filter (fun j => ¬j < 2 ^ k) = [] := filter_ge_nil hb h2
        match his : is, hnil with
        | i :: irest, _ =>
          rw [proofSpec]
          rw [his] at hisl hisr hb
          rw [if_pos (by rw [hisr]; rfl)]
          have hright : (ls.drop (2 ^ k)).isEmpty = true := by
            rw [List.isEmpty_iff, List.drop_eq_nil_iff]
            omega
          rw [if_pos hright, hisl]
          rw [List.take_of_length_le h2]
          rw [IH ls (i :: irest) h2 hb]
          rw [List.append_assoc]
          congr 1
      · rw [if_neg h2, if_neg h2]
        have hbr : ∀ j ∈ (is.filter (fun j => ¬j < 2 ^ k)).map (fun j => j - 2 ^ k),
            j < (ls.drop (2 ^ k)).length := by
          intro j hj
          rw [List.mem_map] at hj
          obtain ⟨i, hi, hij⟩ := hj
          rw [List.mem_filter] at hi
          have hb1 := hb i hi.1
          have hb2 := hi.2
          simp at hb2
          rw [List.length_drop]
          omega
        have hbl : ∀ j ∈ is.filter (fun j => j < 2 ^ k), j < (ls.take (2 ^ k)).length := by
          intro j hj
          rw [List.mem_filter] at hj
          have := hj.2
          simp at this
          rw [List.length_take]
          omega
        have hdr : (ls.drop (2 ^ k)).length ≤ 2 ^ k := by
          rw [List.length_drop]
          rw [pow_succ] at hle
          omega
        have htk : (ls.take (2 ^ k)).length = 2 ^ k := by
          rw [List.length_take]
          omega
        have hIHr := IH (ls.drop (2 ^ k))
          ((is.filter (fun j => ¬j < 2 ^ k)).map (fun j => j - 2 ^ k)) hdr hbr
        have hdrne : ¬(ls.drop (2 ^ k)).isEmpty = true := by
          rw [List.isEmpty_iff]
          intro hc
          rw [List.drop_eq_nil_iff] at hc
          omega
        match his : is, hnil with
        | i :: irest, _ =>
          rw [proofSpec]
          rw [his] at hIHr hb
          dsimp only
          by_cases hisr : ((i :: irest).filter (fun j => ¬j < 2 ^ k)).map (fun j => j - 2 ^ k) = []
          · rw [if_pos (by rw [hisr]; rfl)]
            rw [hisr] at hIHr ⊢
            rw [partialEmit_nil_is, finalEmit_nil_is]
            have hislne : ¬((i :: irest).filter (fun j => j < 2 ^ k)).isEmpty = true := by
              rw [List.isEmpty_iff]
              intro hc
              have hmf : (i :: irest).filter (fun j => ¬j < 2 ^ k) = [] :=
                List.map_eq_nil_iff.mp hisr
              have hi : i < 2 ^ k := by
                by_contra hcc
                have hmem : i ∈ (i :: irest).filter (fun j => ¬j < 2 ^ k) :=
                  List.mem_filter.mpr ⟨List.mem_cons_self i irest, by simpa using hcc⟩
                rw [hmf] at hmem
                cases hmem
              have hmem : i ∈ (i :: irest).filter (fun j => j < 2 ^ k) :=
                List.mem_filter.mpr ⟨List.mem_cons_self i irest, by simpa using hi⟩
              rw [hc] at hmem
              cases hmem
            rw [if_neg hdrne, if_neg (show ¬(i :: irest).isEmpty = true by simp),
              if_neg hislne, if_pos (show (([] : List Nat)).isEmpty = true from rfl)]
            simp
          · rw [if_neg (show ¬(((i :: irest).filter (fun j => ¬j < 2 ^ k)).map
                (fun j => j - 2 ^ k)).isEmpty = true by
              rw [List.isEmpty_iff]
              exact hisr)]
            have hisrne : ¬(((i :: irest).filter (fun j => ¬j < 2 ^ k)).map
                (fun j => j - 2 ^ k)).isEmpty = true := by
              rw [List.isEmpty_iff]
              exact hisr
            by_cases hisl : (i :: irest).filter (fun j => j < 2 ^ k) = []
            · rw [if_pos (by rw [hisl]; rfl)]
              rw [hisl, proofSpec_nil_is]
              rw [hIHr]
              rw [if_neg (show ¬(i :: irest).isEmpty = true by simp),
                if_pos (show (([] : List Nat)).isEmpty = true from rfl), if_neg hisrne]
              simp
            · rw [if_neg (show ¬((i :: irest).filter (fun j => j < 2 ^ k)).isEmpty = true by
                rw [List.isEmpty_iff]
                exact hisl)]
              rw [hIHr]
              rw [if_neg (show ¬(i :: irest).isEmpty = true by simp),
                if_neg (show ¬((i :: irest).filter (fun j => j < 2 ^ k)).isEmpty = true by
                  rw [List.isEmpty_iff]
                  exact hisl),
                if_neg hisrne]
              simp


end PadClimbSpine


section ModelMaster

variable {α : Type} (hash : α → α → α) (dfl pad : α)

theorem padClimb_succ (d : Nat) (v : α) :
    padClimb hash pad (d + 1) v = padClimb hash pad d (hash v pad) := rfl

theorem calcEph_both (a b : α) (fa fb : Bool) :
    calcEphemeralParent hash dfl pad ⟨some a, fa⟩ ⟨some b, fb⟩
      = (⟨some (hash a b), fa || fb⟩, (⟨some a, fa⟩ : PNode α), (⟨some b, fb⟩ : PNode α)) := by
  rw [calcEphemeralParent, if_pos (by simp [PNode.isEmpty])]
  simp [calcParent]

theorem mFinal (B : Nat) (ls : List α) (is : List Nat) (minH : Nat) (pr : List α)
    (hB1 : 2 ^ B ≤ ls.length) (hB2 : ls.length < 2 ^ (B + 1))
    (hb : ∀ j ∈ is, j < ls.length) :
    mFinalize hash dfl pad minH 0 (specParks hash pad (B + 1) ls is) emptyNode pr
      = (some (padRoot hash pad (max minH (if ls.length = 2 ^ B then B else B + 1)) ls),
         pr ++ finalEmit hash pad (max minH (if ls.length = 2 ^ B then B else B + 1)) ls is) := by
  have h2k : 0 < 2 ^ B := Nat.pos_pow_of_pos B (by norm_num)
  have hpow : (2:Nat) ^ (B + 1) = 2 ^ B + 2 ^ B := by
    rw [pow_succ]
    omega
  have hdlt : (ls.drop (2 ^ B)).length < 2 ^ B := by
    rw [List.length_drop]
    omega
  have hdb : ∀ j ∈ (is.filter (fun j => ¬j < 2 ^ B)).map (fun j => j - 2 ^ B),
      j < (ls.drop (2 ^ B)).length := by
    intro j hj
    rw [List.mem_map] at hj
    obtain ⟨i, hi, hij⟩ := hj
    rw [List.mem_filter] at hi
    have h1 := hb i hi.1
    have h2 := hi.2
    simp at h2
    rw [List.length_drop]
    omega
  rw [specParks, if_neg (by omega)]
  rw [finalize_step_all]
  rw [ephWalk_specParks hash dfl pad B _ _ hdlt hdb]
  rw [specParks_length]
  rw [Nat.zero_add]
  dsimp only
  by_cases heq : ls.length = 2 ^ B
  · have hdz : (ls.drop (2 ^ B)).length = 0 := by
      rw [List.length_drop]
      omega
    rw [if_pos hdz]
    have hisr : (is.filter (fun j => ¬j < 2 ^ B)).map (fun j => j - 2 ^ B) = [] := by
      rw [filter_ge_nil hb (le_of_eq heq)]
      rfl
    rw [hisr, finalEmit_nil_is]
    have hisl : is.filter (fun j => j < 2 ^ B) = is := filter_lt_all hb (le_of_eq heq)
    rw [hisl]
    have htake : ls.take (2 ^ B) = ls := List.take_of_length_le (le_of_eq heq)
    rw [htake, List.append_nil]
    rw [if_pos heq]
    have hfe : finalEmit hash pad (max minH B) ls is
        = if is.isEmpty = true then [] else List.replicate (minH - B) pad := by
      have h1 : max minH B = B + (minH - B) := by omega
      rw [h1, finalEmit_climb hash pad (le_of_eq heq) (by omega) is (minH - B)]
      rw [finalEmit_exact hash pad heq]
      simp
    rw [hfe]
    by_cases hm : minH ≤ B
    · rw [mFinalize_cons_done hash dfl pad minH B
        ⟨some (padRoot hash pad B ls), !is.isEmpty⟩ [] emptyNode pr ⟨hm, rfl, rfl⟩]
      have hd0 : minH - B = 0 := by omega
      rw [hd0, Nat.max_eq_right hm]
      cases his : is.isEmpty <;> simp
    · rw [mFinalize_cons_step hash dfl pad minH B _ _ _ _ (fun hc => hm hc.1)]
      have hce : calcEphemeralParent hash dfl pad
          (⟨some (padRoot hash pad B ls), !is.isEmpty⟩ : PNode α) emptyNode
          = (⟨some (hash (padRoot hash pad B ls) pad), !is.isEmpty⟩,
             (⟨some (padRoot hash pad B ls), !is.isEmpty⟩ : PNode α), paddingNode pad) := by
        rw [calcEphemeralParent]
        rw [if_neg (by simp [emptyNode, PNode.isEmpty]),
          if_pos (by simp [emptyNode, PNode.isEmpty])]
        rw [calcParent]
        simp [paddingNode]
      rw [hce]
      dsimp only
      rw [finalize_nil_climb hash dfl pad (minH - (B + 1)) minH (B + 1) rfl _ _ _]
      congr 1
      · rw [← padClimb_succ]
        have harr : minH - (B + 1) + 1 = minH - B := by omega
        rw [harr]
        rw [← padRoot_climb hash pad (le_of_eq heq) (minH - B)]
        have h1 : B + (minH - B) = max minH B := by omega
        rw [h1]
      · rw [emitChildren]
        cases his : is.isEmpty
        · have harr : minH - B = minH - (B + 1) + 1 := by omega
          rw [harr, List.replicate_succ]
          simp [paddingNode]
        · simp
  · have hdz : ¬(ls.drop (2 ^ B)).length = 0 := by
      rw [List.length_drop]
      omega
    rw [if_neg hdz]
    rw [if_neg heq]
    rw [mFinalize_cons_step hash dfl pad minH B
      ⟨some (padRoot hash pad B (ls.take (2 ^ B))),
        !(is.filter (fun j => decide (j < 2 ^ B))).isEmpty⟩
      []
      ⟨some (padRoot hash pad B (ls.drop (2 ^ B))),
        !((is.filter (fun j => decide ¬j < 2 ^ B)).map (fun j => j - 2 ^ B)).isEmpty⟩
      _
      (by
        intro hc
        have := hc.2.2
        simp [PNode.isEmpty] at this)]
    rw [calcEph_both]
    dsimp only
    have hflag : (!(is.filter (fun j => j < 2 ^ B)).isEmpty
        || !((is.filter (fun j => ¬j < 2 ^ B)).map (fun j => j - 2 ^ B)).isEmpty)
        = !is.isEmpty := by
      rw [isEmpty_filter_split is (2 ^ B), Bool.not_and]
    rw [hflag]
    have hpr1 : padRoot hash pad (B + 1) ls
        = hash (padRoot hash pad B (ls.take (2 ^ B))) (padRoot hash pad B (ls.drop (2 ^ B))) := by
      rw [padRoot, if_neg (by omega)]
    rw [← hpr1]
    rw [finalize_nil_climb hash dfl pad (minH - (B + 1)) minH (B + 1) rfl _ _ _]
    congr 1
    · rw [← padRoot_climb hash pad (le_of_lt hB2) (minH - (B + 1))]
      have h1 : B + 1 + (minH - (B + 1)) = max minH (B + 1) := by omega
      rw [h1]
    · have h1 : max minH (B + 1) = B + 1 + (minH - (B + 1)) := by omega
      rw [h1, finalEmit_climb hash pad (le_of_lt hB2) (by omega) is (minH - (B + 1))]
      rw [finalEmit]
      rw [if_neg (show ¬ls.length = 2 ^ (B + 1) by omega),
        if_neg (show ¬ls.length ≤ 2 ^ B by omega)]
      dsimp only
      rw [emitChildren]
      dsimp only
      by_cases his : is.isEmpty = true
      · have hise : is = [] := List.isEmpty_iff.mp his
        subst hise
        simp [finalEmit_nil_is]
      · have hisb : is.isEmpty = false := Bool.eq_false_iff.mpr his
        rw [hisb]
        rcases Bool.eq_false_or_eq_true ((is.filter (fun j => j < 2 ^ B)).isEmpty)
          with hisl | hisl <;>
          rcases Bool.eq_false_or_eq_true
            (((is.filter (fun j => ¬j < 2 ^ B)).map (fun j => j - 2 ^ B)).isEmpty)
            with hisr | hisr
        · rw [hisl, hisr]
          simp
        · rw [hisl, hisr]
          simp
        · rw [hisl, hisr]
          simp
        · rw [hisl, hisr]
          simp

theorem mMaster (ls : List α) (I : List Nat) (hs : I.Pairwise (· < ·))
    (hpos : 0 < ls.length) :
    (mAddAll hash dfl ⟨[emptyNode], fun _ => [], I, 0, []⟩ ls).parks
        = specParks hash pad (Nat.log2 ls.length + 1) ls (relIdx I 0 ls.length)
    ∧ (mAddAll hash dfl ⟨[emptyNode], fun _ => [], I, 0, []⟩ ls).log
        = (fun j => if j < Nat.log2 ls.length + 1 then levelVals hash pad j ls else [])
    ∧ (mAddAll hash dfl ⟨[emptyNode], fun _ => [], I, 0, []⟩ ls).proof
        = partialEmit hash pad (Nat.log2 ls.length + 1) ls (relIdx I 0 ls.length)
    ∧ CursorOK I ls.length
        (mAddAll hash dfl ⟨[emptyNode], fun _ => [], I, 0, []⟩ ls).toProve
        (mAddAll hash dfl ⟨[emptyNode], fun _ => [], I, 0, []⟩ ls).curIdx := by
  have hn1 : ls.length ≠ 0 := by omega
  have hB1 : 2 ^ Nat.log2 ls.length ≤ ls.length := Nat.log2_self_le hn1
  have hB2 : ls.length < 2 ^ (Nat.log2 ls.length + 1) := Nat.lt_log2_self
  have h2k : 0 < 2 ^ Nat.log2 ls.length := Nat.pos_pow_of_pos _ (by norm_num)
  have hcur : CursorOK I 0 I 0 := by
    constructor
    · symm
      apply List.filter_eq_self.mpr
      intro a _
      simp
    · intro _
      rfl
  obtain ⟨hp, hl, hq, hcur2⟩ := mConstruct hash dfl pad (Nat.log2 ls.length + 1) ls I hs 0 I 0
    hcur hpos hB2 [] (fun _ => []) []
  have hpad := mAddAll_pad hash dfl ls (Nat.log2 ls.length + 1)
    ⟨[emptyNode], fun _ => [], I, 0, []⟩
  have hstate : (⟨[emptyNode]
        ++ List.replicate (Nat.log2 ls.length + 1
            - ([emptyNode] : List (PNode α)).length) emptyNode,
        fun _ => [], I, 0, []⟩ : MState α)
      = ⟨List.replicate (Nat.log2 ls.length + 1) emptyNode ++ [], fun _ => [], I, 0, []⟩ := by
    rw [List.append_nil]
    have h1 : Nat.log2 ls.length + 1 - ([emptyNode] : List (PNode α)).length
        = Nat.log2 ls.length := rfl
    rw [h1, List.replicate_succ]
    rfl
  dsimp only at hpad
  rw [hstate] at hpad
  rw [hpad] at hp hl hq hcur2
  dsimp only at hp hl hq hcur2
  rw [List.nil_append] at hq
  simp only [List.nil_append] at hl
  rw [Nat.zero_add] at hcur2
  have hocc : (specParks hash pad (Nat.log2 ls.length + 1) ls (relIdx I 0 ls.length)).getLast?
      = some ⟨some (padRoot hash pad (Nat.log2 ls.length)
            (ls.take (2 ^ Nat.log2 ls.length))),
          !((relIdx I 0 ls.length).filter
            (fun j => j < 2 ^ Nat.log2 ls.length)).isEmpty⟩ := by
    rw [specParks, if_neg (by omega), List.getLast?_concat]
  rw [List.append_nil] at hp
  have hR : (mAddAll hash dfl ⟨[emptyNode], fun _ => [], I, 0, []⟩ ls).parks
      = specParks hash pad (Nat.log2 ls.length + 1) ls (relIdx I 0 ls.length) := by
    rcases Nat.eq_zero_or_pos (Nat.log2 ls.length + 1
        - (mAddAll hash dfl ⟨[emptyNode], fun _ => [], I, 0, []⟩ ls).parks.length)
      with hd | hd
    · rw [hd] at hp
      simpa using hp
    · exfalso
      have hd2 : Nat.log2 ls.length + 1
            - (mAddAll hash dfl ⟨[emptyNode], fun _ => [], I, 0, []⟩ ls).parks.length
          = (Nat.log2 ls.length + 1
            - (mAddAll hash dfl ⟨[emptyNode], fun _ => [], I, 0, []⟩ ls).parks.length - 1)
            + 1 := by omega
      rw [hd2, List.replicate_succ', ← List.append_assoc] at hp
      have hlast := congrArg List.getLast? hp
      rw [List.getLast?_concat, hocc] at hlast
      simp [emptyNode] at hlast
  exact ⟨hR, hl, hq, hcur2⟩

theorem mMasterFinal (ls : List α) (I : List Nat) (minH : Nat) (hs : I.Pairwise (· < ·))
    (hpos : 0 < ls.length) :
    mFinalize hash dfl pad minH 0
        (mAddAll hash dfl ⟨[emptyNode], fun _ => [], I, 0, []⟩ ls).parks emptyNode
        (mAddAll hash dfl ⟨[emptyNode], fun _ => [], I, 0, []⟩ ls).proof
      = (some (padRoot hash pad
            (max minH (if ls.length = 2 ^ Nat.log2 ls.length
              then Nat.log2 ls.length else Nat.log2 ls.length + 1)) ls),
         proofSpec hash pad
            (max minH (if ls.length = 2 ^ Nat.log2 ls.length
              then Nat.log2 ls.length else Nat.log2 ls.length + 1)) ls
            (relIdx I 0 ls.length)) := by
  obtain ⟨hR, _, hq, _⟩ := mMaster hash dfl pad ls I hs hpos
  rw [hR, hq]
  have hb := relIdx_bound I 0 ls.length
  have hB1 : 2 ^ Nat.log2 ls.length ≤ ls.length := Nat.log2_self_le (by omega)
  have hB2 : ls.length < 2 ^ (Nat.log2 ls.length + 1) := Nat.lt_log2_self
  rw [mFinal hash dfl pad (Nat.log2 ls.length) ls _ minH _ hB1 hB2 hb]
  congr 1
  by_cases heq : ls.length = 2 ^ Nat.log2 ls.length
  · rw [if_pos heq]
    have hmax : Nat.log2 ls.length
        ≤ max minH (Nat.log2 ls.length) := Nat.le_max_right _ _
    have hlen : ls.length ≤ 2 ^ max minH (Nat.log2 ls.length) := by
      calc ls.length ≤ 2 ^ Nat.log2 ls.length := le_of_eq heq
        _ ≤ 2 ^ max minH (Nat.log2 ls.length) := Nat.pow_le_pow_right (by norm_num) hmax
    rw [ps_pe_fe hash pad (max minH (Nat.log2 ls.length)) ls (relIdx I 0 ls.length) hlen hb]
    have hpe1 : partialEmit hash pad (Nat.log2 ls.length + 1) ls (relIdx I 0 ls.length)
        = partialEmit hash pad (Nat.log2 ls.length) ls (relIdx I 0 ls.length) :=
      partialEmit_raise hash pad (le_of_eq heq) hpos (relIdx I 0 ls.length)
    have hm1 : max minH (Nat.log2 ls.length)
        = Nat.log2 ls.length + (max minH (Nat.log2 ls.length) - Nat.log2 ls.length) := by
      omega
    have hpe2 : partialEmit hash pad (max minH (Nat.log2 ls.length)) ls (relIdx I 0 ls.length)
        = partialEmit hash pad (Nat.log2 ls.length) ls (relIdx I 0 ls.length) := by
      rw [hm1]
      exact partialEmit_climb hash pad (le_of_eq heq) hpos (relIdx I 0 ls.length) _
    rw [hpe1, hpe2]
  · rw [if_neg heq]
    have hmax : Nat.log2 ls.length + 1
        ≤ max minH (Nat.log2 ls.length + 1) := Nat.le_max_right _ _
    have hlen : ls.length ≤ 2 ^ max minH (Nat.log2 ls.length + 1) := by
      calc ls.length ≤ 2 ^ (Nat.log2 ls.length + 1) := le_of_lt hB2
        _ ≤ 2 ^ max minH (Nat.log2 ls.length + 1) := Nat.pow_le_pow_right (by norm_num) hmax
    rw [ps_pe_fe hash pad (max minH (Nat.log2 ls.length + 1)) ls (relIdx I 0 ls.length) hlen hb]
    have hm1 : max minH (Nat.log2 ls.length + 1)
        = (Nat.log2 ls.length + 1)
          + (max minH (Nat.log2 ls.length + 1) - (Nat.log2 ls.length + 1)) := by
      omega
    have hpe2 : partialEmit hash pad (max minH (Nat.log2 ls.length + 1)) ls
          (relIdx I 0 ls.length)
        = partialEmit hash pad (Nat.log2 ls.length + 1) ls (relIdx I 0 ls.length) := by
      rw [hm1]
      exact partialEmit_climb hash pad (le_of_lt hB2) hpos (relIdx I 0 ls.length) _
    rw [hpe2]

theorem goMaster (p : Nat → Bool) (f : Nat → Rdr α) (I : List Nat) (minH : Nat)
    (ls : List α) (hs : I.Pairwise (· < ·)) (hpos : 0 < ls.length) :
    rootAndProof hash dfl pad (addAll hash dfl (buildTree I ⟨[], p, f⟩ minH) ls)
      = (some (padRoot hash pad (max minH (if ls.length = 2 ^ Nat.log2 ls.length
            then Nat.log2 ls.length else Nat.log2 ls.length + 1)) ls),
         proofSpec hash pad (max minH (if ls.length = 2 ^ Nat.log2 ls.length
            then Nat.log2 ls.length else Nat.log2 ls.length + 1)) ls
         (relIdx I 0 ls.length)) := by
  obtain ⟨hsim, hne⟩ := buildTree_sim (α := α) p f I minH
  obtain ⟨hsim2, hne2⟩ := addAll_sim hash dfl hsim hne ls
  obtain ⟨hparks, hproof, _⟩ := hsim2
  rw [rootAndProof]
  rw [finalize_norm hash dfl pad
    ((addAll hash dfl (buildTree I ⟨[], p, f⟩ minH) ls).layers.length
      + ((addAll hash dfl (buildTree I ⟨[], p, f⟩ minH) ls).minHeight - 0))
    _ 0 _ _ _ (le_refl _)]
  rw [← hparks, ← hproof]
  rw [addAll_minHeight]
  exact mMasterFinal hash dfl pad ls I minH hs hpos
end ModelMaster


section Validator

variable {α : Type} (hash : α → α → α) (dfl pad : α)

theorem two_mul_xor_one (F : Nat) : 2 * F ^^^ 1 = 2 * F + 1 := by
  have h1 : (2 * F ^^^ 1) % 2 = 1 := by
    rw [Nat.xor_mod_two_eq]
    omega
  have h2 : (2 * F ^^^ 1) / 2 = F := by
    rw [Nat.xor_div_two]
    simp [Nat.mul_div_cancel_left]
  omega

theorem two_mul_add_one_xor_one (F : Nat) : (2 * F + 1) ^^^ 1 = 2 * F := by
  have h1 : ((2 * F + 1) ^^^ 1) % 2 = 0 := by
    rw [Nat.xor_mod_two_eq]
    omega
  have h2 : ((2 * F + 1) ^^^ 1) / 2 = F := by
    rw [Nat.xor_div_two]
    simp
    omega
  omega

theorem getD_take {l : List α} {n j : Nat} (d : α) (h : j < n) :
    (l.take n).getD j d = l.getD j d := by
  rw [List.getD_eq_getElem?_getD, List.getD_eq_getElem?_getD, List.getElem?_take]
  rw [if_pos h]

theorem getD_drop (l : List α) (n j : Nat) (d : α) :
    (l.drop n).getD j d = l.getD (n + j) d := by
  rw [List.getD_eq_getElem?_getD, List.getD_eq_getElem?_getD, List.getElem?_drop]

theorem padRoot_zero_getD {seg : List α} (h : 0 < seg.length) :
    padRoot hash pad 0 seg = seg.getD 0 dfl := by
  cases seg with
  | nil => simp at h
  | cons a rest => rfl

theorem sortedSplit (B : Nat) :
    ∀ js : List Nat, js.Pairwise (· < ·) →
    js = js.filter (fun j => j < B) ++ js.filter (fun j => ¬j < B) := by
  intro js
  induction js with
  | nil => intro _; rfl
  | cons j rest IH =>
    intro hs
    have hrest := (List.pairwise_cons.mp hs).2
    have hgt := (List.pairwise_cons.mp hs).1
    by_cases hj : j < B
    · rw [List.filter_cons_of_pos (by simpa using hj),
        List.filter_cons_of_neg (by simpa using hj)]
      rw [List.cons_append, ← IH hrest]
    · rw [List.filter_cons_of_neg (by simpa using hj),
        List.filter_cons_of_pos (by simpa using hj)]
      have h1 : rest.filter (fun j => j < B) = [] := by
        apply List.filter_eq_nil_iff.mpr
        intro a ha
        have := hgt a ha
        simp only [decide_eq_true_eq]
        omega
      have h2 : rest.filter (fun j => ¬j < B) = rest := by
        apply List.filter_eq_self.mpr
        intro a ha
        have := hgt a ha
        simp only [decide_eq_true_eq]
        omega
      rw [h1, h2, List.nil_append]

theorem anc_of_div {s k nidx : Nat} (h : (nidx / 2 ^ k = s) = False) :
    (Pos.isAncestorOf ⟨s, k⟩ ⟨nidx, 0⟩) = false := by
  rw [Pos.isAncestorOf]
  simp only [Nat.not_lt_zero, if_false, Nat.sub_zero, Nat.shiftRight_eq_div_pow]
  simp only [decide_eq_false_iff_not]
  intro hc
  rw [hc] at h
  simp at h

theorem anc_div_true {s k nidx : Nat} (h : nidx / 2 ^ k = s) :
    (Pos.isAncestorOf ⟨s, k⟩ ⟨nidx, 0⟩) = true := by
  rw [Pos.isAncestorOf]
  simp only [Nat.not_lt_zero, if_false, Nat.sub_zero, Nat.shiftRight_eq_div_pow]
  simp [h]

theorem lenSplit (B : Nat) : ∀ l : List Nat,
    (l.filter (fun j => j < B)).length + (l.filter (fun j => ¬j < B)).length = l.length := by
  intro l
  induction l with
  | nil => rfl
  | cons a rest IH =>
    by_cases ha : a < B
    · rw [List.filter_cons_of_pos (by simpa using ha),
        List.filter_cons_of_neg (by simpa using ha)]
      simp only [List.length_cons]
      omega
    · rw [List.filter_cons_of_neg (by simpa using ha),
        List.filter_cons_of_pos (by simpa using ha)]
      simp only [List.length_cons]
      omega

theorem psLen_lb :
    ∀ (k : Nat) (seg : List α) (js : List Nat), js ≠ [] →
    k < 2 * js.length + (proofSpec hash pad k seg js).length := by
  intro k
  induction k with
  | zero =>
    intro seg js hne
    cases js with
    | nil => exact absurd rfl hne
    | cons j jr =>
      simp only [List.length_cons]
      omega
  | succ k IH =>
    intro seg js hne
    cases js with
    | nil => exact absurd rfl hne
    | cons j jr =>
      rw [proofSpec]
      by_cases hisr : ((j :: jr).filter (fun i => ¬i < 2 ^ k)).map (fun i => i - 2 ^ k) = []
      · rw [if_pos (by rw [hisr]; rfl)]
        have hall : ∀ i ∈ j :: jr, i < 2 ^ k := by
          intro i hi
          by_contra hc
          have hmem : i - 2 ^ k
              ∈ ((j :: jr).filter (fun i => ¬i < 2 ^ k)).map (fun i => i - 2 ^ k) := by
            rw [List.mem_map]
            exact ⟨i, List.mem_filter.mpr ⟨hi, by simpa using hc⟩, rfl⟩
          rw [hisr] at hmem
          cases hmem
        rw [filter_lt_all hall (le_refl (2 ^ k))]
        have h1 := IH (seg.take (2 ^ k)) (j :: jr) hne
        simp only [List.length_append, List.length_cons, List.length_nil]
        simp only [List.length_cons] at h1
        omega
      · rw [if_neg (show ¬(((j :: jr).filter (fun i => ¬i < 2 ^ k)).map
            (fun i => i - 2 ^ k)).isEmpty = true by
          rw [List.isEmpty_iff]
          exact hisr)]
        by_cases hisl : (j :: jr).filter (fun i => i < 2 ^ k) = []
        · rw [if_pos (by rw [hisl]; rfl)]
          have h1 := IH (seg.drop (2 ^ k))
            (((j :: jr).filter (fun i => ¬i < 2 ^ k)).map (fun i => i - 2 ^ k)) hisr
          have h2 : (((j :: jr).filter (fun i => ¬i < 2 ^ k)).map
              (fun i => i - 2 ^ k)).length ≤ (j :: jr).length := by
            rw [List.length_map]
            exact List.length_filter_le _ _
          simp only [List.length_append, List.length_cons, List.length_nil] at h1 h2 ⊢
          omega
        · rw [if_neg (show ¬((j :: jr).filter (fun i => i < 2 ^ k)).isEmpty = true by
            rw [List.isEmpty_iff]
            exact hisl)]
          have h1 := IH (seg.take (2 ^ k)) ((j :: jr).filter (fun i => i < 2 ^ k)) hisl
          have h2 := lenSplit (2 ^ k) (j :: jr)
          have h3 : 1 ≤ ((j :: jr).filter (fun i => ¬i < 2 ^ k)).length := by
            cases hE : (j :: jr).filter (fun i => ¬i < 2 ^ k) with
            | nil =>
              rw [hE] at hisr
              exact absurd rfl hisr
            | cons a l => simp
          simp only [List.length_append] at h1 ⊢
          omega

theorem climbW :
    ∀ (k fuel : Nat) (stop : Option Nat) (F : Nat) (seg : List α)
      (j0 : Nat) (jrest : List Nat) (restL : List (Nat × α)) (restP : List α),
    (j0 :: jrest).Pairwise (· < ·) →
    (∀ j ∈ j0 :: jrest, j < seg.length) →
    seg.length ≤ 2 ^ k →
    (∀ h, h < k → stop ≠ some h) →
    (∀ q ∈ restL, (F + 1) * 2 ^ k ≤ q.1) →
    2 * (j0 :: jrest).length + (proofSpec hash pad k seg (j0 :: jrest)).length ≤ fuel →
    climb hash fuel stop ⟨F * 2 ^ k + j0, 0⟩ (seg.getD j0 dfl)
        (jrest.map (fun j => (F * 2 ^ k + j, seg.getD j dfl)) ++ restL)
        (proofSpec hash pad k seg (j0 :: jrest) ++ restP)
      = climb hash (fuel - k) stop ⟨F, k⟩ (padRoot hash pad k seg) restL restP := by
  intro k
  induction k with
  | zero =>
    intro fuel stop F seg j0 jrest restL restP hs hb hlen hstop hres hfuel
    have hj0 : j0 = 0 := by
      have := hb j0 (List.mem_cons_self j0 jrest)
      rw [pow_zero] at hlen
      omega
    have hjr : jrest = [] := by
      cases hjr : jrest with
      | nil => rfl
      | cons a arest =>
        have h1 := hb a (by rw [hjr]; exact List.mem_cons_of_mem _ (List.mem_cons_self a arest))
        have h2 := (List.pairwise_cons.mp hs).1 a (by rw [hjr]; exact List.mem_cons_self a arest)
        rw [pow_zero] at hlen
        omega
    subst hj0
    subst hjr
    rw [proofSpec]
    simp only [pow_zero, Nat.mul_one, Nat.add_zero, Nat.sub_zero, List.map_nil,
      List.nil_append]
    rw [padRoot_zero_getD hash dfl pad (by
      have := hb 0 (List.mem_cons_self 0 [])
      omega)]
  | succ k IH =>
    intro fuel stop F seg j0 jrest restL restP hs hb hlen hstop hres hfuel
    have h2k : 0 < 2 ^ k := Nat.pos_pow_of_pos k (by norm_num)
    have hpow : (2:Nat) ^ (k + 1) = 2 ^ k + 2 ^ k := by
      rw [pow_succ]
      omega
    have hlb := psLen_lb hash pad (k + 1) seg (j0 :: jrest) (by simp)
    have hfk : fuel - k = fuel - (k + 1) + 1 := by omega
    have hj0len := hb j0 (List.mem_cons_self j0 jrest)
    rw [proofSpec]
    by_cases hisr : ((j0 :: jrest).filter (fun j => ¬j < 2 ^ k)).map (fun j => j - 2 ^ k) = []
    · rw [if_pos (by rw [hisr]; rfl)]
      have hall : ∀ j ∈ j0 :: jrest, j < 2 ^ k := by
        intro j hj
        by_contra hc
        have hmem : j - 2 ^ k
            ∈ ((j0 :: jrest).filter (fun j => ¬j < 2 ^ k)).map (fun j => j - 2 ^ k) := by
          rw [List.mem_map]
          exact ⟨j, List.mem_filter.mpr ⟨hj, by simpa using hc⟩, rfl⟩
        rw [hisr] at hmem
        cases hmem
      rw [filter_lt_all hall (le_refl (2 ^ k))]
      have hidx : F * 2 ^ (k + 1) + j0 = 2 * F * 2 ^ k + j0 := by
        rw [pow_succ]
        ring
      have hval : seg.getD j0 dfl = (seg.take (2 ^ k)).getD j0 dfl :=
        (getD_take dfl (hall j0 (List.mem_cons_self j0 jrest))).symm
      have hpairs : jrest.map (fun j => (F * 2 ^ (k + 1) + j, seg.getD j dfl))
          = jrest.map (fun j => (2 * F * 2 ^ k + j, (seg.take (2 ^ k)).getD j dfl)) := by
        apply List.map_congr_left
        intro j hj
        have hjk := hall j (List.mem_cons_of_mem _ hj)
        have h1 : F * 2 ^ (k + 1) + j = 2 * F * 2 ^ k + j := by
          rw [pow_succ]
          ring
        rw [h1, getD_take dfl hjk]
      rw [hidx, hval, hpairs, List.append_assoc]
      have hb2 : ∀ j ∈ j0 :: jrest, j < (seg.take (2 ^ k)).length := by
        intro j hj
        rw [List.length_take]
        have h1 := hb j hj
        have h2 := hall j hj
        omega
      have hlen2 : (seg.take (2 ^ k)).length ≤ 2 ^ k := by
        rw [List.length_take]
        omega
      have hstop2 : ∀ h, h < k → stop ≠ some h := fun h hh => hstop h (by omega)
      have hres2 : ∀ q ∈ restL, (2 * F + 1) * 2 ^ k ≤ q.1 := by
        intro q hq
        have h0 := hres q hq
        have h1 : (F + 1) * 2 ^ (k + 1) = (2 * F + 2) * 2 ^ k := by
          rw [pow_succ]
          ring
        rw [h1] at h0
        have h2 : (2 * F + 1) * 2 ^ k ≤ (2 * F + 2) * 2 ^ k :=
          Nat.mul_le_mul_right _ (by omega)
        omega
      have hfuel2 : 2 * (j0 :: jrest).length
          + (proofSpec hash pad k (seg.take (2 ^ k)) (j0 :: jrest)).length ≤ fuel := by
        rw [proofSpec, if_pos (by rw [hisr]; rfl),
          filter_lt_all hall (le_refl (2 ^ k))] at hfuel
        simp only [List.length_append, List.length_cons, List.length_nil] at hfuel
        simp only [List.length_cons]
        omega
      rw [IH fuel stop (2 * F) (seg.take (2 ^ k)) j0 jrest restL _
        hs hb2 hlen2 hstop2 hres2 hfuel2]
      rw [List.singleton_append]
      have hval2 : hash (padRoot hash pad k (seg.take (2 ^ k)))
          (if (seg.drop (2 ^ k)).isEmpty = true then pad
            else padRoot hash pad k (seg.drop (2 ^ k)))
          = padRoot hash pad (k + 1) seg := by
        by_cases hsl : seg.length ≤ 2 ^ k
        · rw [if_pos (by rw [List.isEmpty_iff, List.drop_eq_nil_iff]; omega)]
          rw [List.take_of_length_le hsl, padRoot_raise hash pad hsl]
        · rw [if_neg (by rw [List.isEmpty_iff, List.drop_eq_nil_iff]; omega)]
          rw [padRoot, if_neg hsl]
      have hparEq : (Pos.parent ⟨2 * F, k⟩) = (⟨F, k + 1⟩ : Pos) := by
        rw [Pos.parent]
        simp [Nat.shiftRight_one]
      have hrsb : (Pos.isRightSibling ⟨2 * F, k⟩) = false := by
        rw [Pos.isRightSibling]
        simp
      rcases restL with _ | ⟨⟨qi, qv⟩, restL2⟩
      · rw [hfk, climb_succ]
        dsimp only
        rw [if_neg (hstop k (Nat.lt_succ_self k))]
        rw [hrsb]
        simp only [Bool.false_eq_true, if_false]
        rw [hparEq, hval2]
      · have hqi := hres (qi, qv) (List.mem_cons_self _ _)
        have hdiv : 2 * F + 2 ≤ qi / 2 ^ k := by
          rw [Nat.le_div_iff_mul_le h2k]
          have h1 : (F + 1) * 2 ^ (k + 1) = (2 * F + 2) * 2 ^ k := by
            rw [pow_succ]
            ring
          omega
        have hanc : Pos.isAncestorOf (Pos.sibling ⟨2 * F, k⟩) ⟨qi, 0⟩ = false := by
          have hsib : Pos.sibling ⟨2 * F, k⟩ = ⟨2 * F + 1, k⟩ := by
            rw [Pos.sibling]
            rw [two_mul_xor_one]
          rw [hsib]
          apply anc_of_div
          apply eq_false
          omega
        rw [hfk, climb_succ]
        dsimp only
        rw [if_neg (hstop k (Nat.lt_succ_self k))]
        rw [hanc]
        simp only [Bool.false_eq_true, if_false]
        rw [hrsb]
        simp only [Bool.false_eq_true, if_false]
        rw [hparEq, hval2]
    · rw [if_neg (show ¬(((j0 :: jrest).filter (fun j => ¬j < 2 ^ k)).map
          (fun j => j - 2 ^ k)).isEmpty = true by
        rw [List.isEmpty_iff]
        exact hisr)]
      by_cases hisl : (j0 :: jrest).filter (fun j => j < 2 ^ k) = []
      · rw [if_pos (by rw [hisl]; rfl)]
        have hall : ∀ j ∈ j0 :: jrest, ¬j < 2 ^ k := by
          intro j hj hc
          have hmem : j ∈ (j0 :: jrest).filter (fun j => j < 2 ^ k) :=
            List.mem_filter.mpr ⟨hj, by simpa using hc⟩
          rw [hisl] at hmem
          cases hmem
        have hfil : (j0 :: jrest).filter (fun j => ¬j < 2 ^ k) = j0 :: jrest := by
          apply List.filter_eq_self.mpr
          intro a ha
          simpa using hall a ha
        rw [hfil, List.map_cons]
        have hj0ge : 2 ^ k ≤ j0 := by
          have := hall j0 (List.mem_cons_self j0 jrest)
          omega
        obtain ⟨j0r, hj0r⟩ : ∃ j0r, j0 = 2 ^ k + j0r := ⟨j0 - 2 ^ k, by omega⟩
        subst hj0r
        rw [Nat.add_sub_cancel_left]
        have hidx : F * 2 ^ (k + 1) + (2 ^ k + j0r) = (2 * F + 1) * 2 ^ k + j0r := by
          rw [pow_succ]
          ring
        have hpairs : jrest.map (fun j => (F * 2 ^ (k + 1) + j, seg.getD j dfl))
            = (jrest.map (fun j => j - 2 ^ k)).map
                (fun j => ((2 * F + 1) * 2 ^ k + j, (seg.drop (2 ^ k)).getD j dfl)) := by
          rw [List.map_map]
          apply List.map_congr_left
          intro j hj
          have hge : 2 ^ k ≤ j := by
            have := hall j (List.mem_cons_of_mem _ hj)
            omega
          obtain ⟨jr, hjr⟩ : ∃ jr, j = 2 ^ k + jr := ⟨j - 2 ^ k, by omega⟩
          subst hjr
          simp only [Function.comp_apply]
          rw [Nat.add_sub_cancel_left]
          have h1 : F * 2 ^ (k + 1) + (2 ^ k + jr) = (2 * F + 1) * 2 ^ k + jr := by
            rw [pow_succ]
            ring
          rw [h1, getD_drop]
        rw [hidx, hpairs, List.append_assoc]
        rw [show seg.getD (2 ^ k + j0r) dfl = (seg.drop (2 ^ k)).getD j0r dfl from
          (getD_drop seg (2 ^ k) j0r dfl).symm]
        have hs2 : (j0r :: jrest.map (fun j => j - 2 ^ k)).Pairwise (· < ·) := by
          have hsm : (((2 ^ k + j0r) :: jrest).map (fun j => j - 2 ^ k)).Pairwise (· < ·) := by
            apply List.pairwise_map.mpr
            apply List.Pairwise.imp_of_mem _ hs
            intro a b ha hb hab
            have hga := hall a ha
            have hgb := hall b hb
            omega
          rw [List.map_cons, Nat.add_sub_cancel_left] at hsm
          exact hsm
        have hb2 : ∀ j ∈ j0r :: jrest.map (fun j => j - 2 ^ k),
            j < (seg.drop (2 ^ k)).length := by
          intro j hj
          rw [List.length_drop]
          rcases List.mem_cons.mp hj with hj | hj
          · omega
          · rw [List.mem_map] at hj
            obtain ⟨a, ha, haj⟩ := hj
            have h1 := hb a (List.mem_cons_of_mem _ ha)
            have h2 := hall a (List.mem_cons_of_mem _ ha)
            omega
        have hlen2 : (seg.drop (2 ^ k)).length ≤ 2 ^ k := by
          rw [List.length_drop]
          omega
        have hstop2 : ∀ h, h < k → stop ≠ some h := fun h hh => hstop h (by omega)
        have hres2 : ∀ q ∈ restL, (2 * F + 1 + 1) * 2 ^ k ≤ q.1 := by
          intro q hq
          have h0 := hres q hq
          have h1 : (F + 1) * 2 ^ (k + 1) = (2 * F + 1 + 1) * 2 ^ k := by
            rw [pow_succ]
            ring
          omega
        have hfuel2 : 2 * (j0r :: jrest.map (fun j => j - 2 ^ k)).length
            + (proofSpec hash pad k (seg.drop (2 ^ k))
                (j0r :: jrest.map (fun j => j - 2 ^ k))).length ≤ fuel := by
          rw [proofSpec,
            if_neg (show ¬((((2 ^ k + j0r) :: jrest).filter (fun j => ¬j < 2 ^ k)).map
                (fun j => j - 2 ^ k)).isEmpty = true by
              rw [List.isEmpty_iff]
              exact hisr),
            if_pos (by rw [hisl]; rfl), hfil, List.map_cons,
            Nat.add_sub_cancel_left] at hfuel
          simp only [List.length_append, List.length_cons, List.length_nil,
            List.length_map] at hfuel
          simp only [List.length_cons, List.length_map]
          omega
        rw [IH fuel stop (2 * F + 1) (seg.drop (2 ^ k)) j0r (jrest.map (fun j => j - 2 ^ k))
          restL _ hs2 hb2 hlen2 hstop2 hres2 hfuel2]
        rw [List.singleton_append]
        have hval2 : hash (padRoot hash pad k (seg.take (2 ^ k)))
            (padRoot hash pad k (seg.drop (2 ^ k))) = padRoot hash pad (k + 1) seg := by
          rw [padRoot, if_neg (by omega)]
        have hparEq : (Pos.parent ⟨2 * F + 1, k⟩) = (⟨F, k + 1⟩ : Pos) := by
          have h1 : (2 * F + 1) >>> 1 = F := by
            rw [Nat.shiftRight_one]
            omega
          rw [Pos.parent, h1]
        have hrsb : (Pos.isRightSibling ⟨2 * F + 1, k⟩) = true := by
          rw [Pos.isRightSibling]
          simp only [decide_eq_true_eq]
          omega
        rcases restL with _ | ⟨⟨qi, qv⟩, restL2⟩
        · rw [hfk, climb_succ]
          dsimp only
          rw [if_neg (hstop k (Nat.lt_succ_self k))]
          rw [hrsb]
          rw [if_pos rfl]
          rw [hparEq, hval2]
        · have hqi := hres (qi, qv) (List.mem_cons_self _ _)
          have hdiv : 2 * F + 2 ≤ qi / 2 ^ k := by
            rw [Nat.le_div_iff_mul_le h2k]
            have h1 : (F + 1) * 2 ^ (k + 1) = (2 * F + 2) * 2 ^ k := by
              rw [pow_succ]
              ring
            omega
          have hanc : Pos.isAncestorOf (Pos.sibling ⟨2 * F + 1, k⟩) ⟨qi, 0⟩ = false := by
            have hsib : Pos.sibling ⟨2 * F + 1, k⟩ = ⟨2 * F, k⟩ := by
              rw [Pos.sibling]
              rw [two_mul_add_one_xor_one]
            rw [hsib]
            apply anc_of_div
            apply eq_false
            omega
          rw [hfk, climb_succ]
          dsimp only
          rw [if_neg (hstop k (Nat.lt_succ_self k))]
          rw [hanc]
          simp only [Bool.false_eq_true, if_false]
          rw [hrsb]
          rw [if_pos rfl]
          rw [hparEq, hval2]
      · rw [if_neg (show ¬((j0 :: jrest).filter (fun j => j < 2 ^ k)).isEmpty = true by
          rw [List.isEmpty_iff]
          exact hisl)]
        have hj0lt : j0 < 2 ^ k := by
          by_contra hc
          apply hisl
          apply List.filter_eq_nil_iff.mpr
          intro a ha
          simp only [decide_eq_true_eq]
          rcases List.mem_cons.mp ha with h | h
          · omega
          · have := (List.pairwise_cons.mp hs).1 a h
            omega
        have hsplit : jrest = jrest.filter (fun j => j < 2 ^ k)
            ++ jrest.filter (fun j => ¬j < 2 ^ k) :=
          sortedSplit (2 ^ k) jrest (List.pairwise_cons.mp hs).2
        have hislc : (j0 :: jrest).filter (fun j => j < 2 ^ k)
            = j0 :: jrest.filter (fun j => j < 2 ^ k) :=
          List.filter_cons_of_pos (by simpa using hj0lt)
        have hisrc : (j0 :: jrest).filter (fun j => ¬j < 2 ^ k)
            = jrest.filter (fun j => ¬j < 2 ^ k) :=
          List.filter_cons_of_neg (by simpa using hj0lt)
        rw [hislc, hisrc]
        have hisrne : jrest.filter (fun j => ¬j < 2 ^ k) ≠ [] := by
          intro hc
          apply hisr
          rw [hisrc, hc]
          rfl
        obtain ⟨jr0, jrr, hjr⟩ : ∃ a l, jrest.filter (fun j => ¬j < 2 ^ k) = a :: l := by
          cases hE : jrest.filter (fun j => ¬j < 2 ^ k) with
          | nil => exact absurd hE hisrne
          | cons a l => exact ⟨a, l, rfl⟩
        have hjr0in : jr0 ∈ jrest.filter (fun j => ¬j < 2 ^ k) := by
          rw [hjr]
          exact List.mem_cons_self _ _
        have hjr0ge : 2 ^ k ≤ jr0 := by
          have := (List.mem_filter.mp hjr0in).2
          simp at this
          omega
        have hjr0mem : jr0 ∈ jrest := (List.mem_filter.mp hjr0in).1
        have hjr0len : jr0 < seg.length := hb jr0 (List.mem_cons_of_mem _ hjr0mem)
        obtain ⟨jr0r, rfl⟩ : ∃ r, jr0 = 2 ^ k + r := ⟨jr0 - 2 ^ k, by omega⟩
        have hidx : F * 2 ^ (k + 1) + j0 = 2 * F * 2 ^ k + j0 := by
          rw [pow_succ]
          ring
        have hval0 : seg.getD j0 dfl = (seg.take (2 ^ k)).getD j0 dfl :=
          (getD_take dfl hj0lt).symm
        have hpairs : jrest.map (fun j => (F * 2 ^ (k + 1) + j, seg.getD j dfl))
            = (jrest.filter (fun j => j < 2 ^ k)).map
                (fun j => (2 * F * 2 ^ k + j, (seg.take (2 ^ k)).getD j dfl))
              ++ (jrest.filter (fun j => ¬j < 2 ^ k)).map
                (fun j => (F * 2 ^ (k + 1) + j, seg.getD j dfl)) := by
          conv_lhs => rw [hsplit]
          rw [List.map_append]
          congr 1
          apply List.map_congr_left
          intro j hj
          have hjk : j < 2 ^ k := by
            have := (List.mem_filter.mp hj).2
            simpa using this
          have h1 : F * 2 ^ (k + 1) + j = 2 * F * 2 ^ k + j := by
            rw [pow_succ]
            ring
          rw [h1, getD_take dfl hjk]
        rw [hidx, hval0, hpairs, List.append_assoc, List.append_assoc]
        have hs2 : (j0 :: jrest.filter (fun j => j < 2 ^ k)).Pairwise (· < ·) := by
          rw [← hislc]
          exact hs.sublist (List.filter_sublist _)
        have hb2 : ∀ j ∈ j0 :: jrest.filter (fun j => j < 2 ^ k),
            j < (seg.take (2 ^ k)).length := by
          intro j hj
          rw [List.length_take]
          rcases List.mem_cons.mp hj with h | h
          · omega
          · have h1 := hb j (List.mem_cons_of_mem _ (List.mem_filter.mp h).1)
            have h2 := (List.mem_filter.mp h).2
            simp only [decide_eq_true_eq] at h2
            omega
        have hlen2 : (seg.take (2 ^ k)).length ≤ 2 ^ k := by
          rw [List.length_take]
          omega
        have hstop2 : ∀ h, h < k → stop ≠ some h := fun h hh => hstop h (by omega)
        have hres2 : ∀ q ∈ (jrest.filter (fun j => ¬j < 2 ^ k)).map
              (fun j => (F * 2 ^ (k + 1) + j, seg.getD j dfl)) ++ restL,
            (2 * F + 1) * 2 ^ k ≤ q.1 := by
          intro q hq
          rcases List.mem_append.mp hq with h | h
          · rw [List.mem_map] at h
            obtain ⟨a, ha, haq⟩ := h
            have h1 := (List.mem_filter.mp ha).2
            simp only [decide_eq_true_eq] at h1
            subst haq
            dsimp only
            have h2 : F * 2 ^ (k + 1) = 2 * F * 2 ^ k := by
              rw [pow_succ]
              ring
            have h3 : (2 * F + 1) * 2 ^ k = 2 * F * 2 ^ k + 2 ^ k := by ring
            omega
          · have h0 := hres q h
            have h1 : (F + 1) * 2 ^ (k + 1) = (2 * F + 1) * 2 ^ k + 2 ^ k := by
              rw [pow_succ]
              ring
            omega
        have hfuelC : 2 * (j0 :: jrest).length
            + ((proofSpec hash pad k (seg.take (2 ^ k))
                  (j0 :: jrest.filter (fun j => j < 2 ^ k))).length
              + (proofSpec hash pad k (seg.drop (2 ^ k))
                  (jr0r :: jrr.map (fun j => j - 2 ^ k))).length) ≤ fuel := by
          rw [proofSpec,
            if_neg (show ¬(((j0 :: jrest).filter (fun j => ¬j < 2 ^ k)).map
                (fun j => j - 2 ^ k)).isEmpty = true by
              rw [List.isEmpty_iff]
              exact hisr),
            if_neg (show ¬((j0 :: jrest).filter (fun j => j < 2 ^ k)).isEmpty = true by
              rw [List.isEmpty_iff]
              exact hisl),
            hislc, hisrc, hjr, List.map_cons, Nat.add_sub_cancel_left] at hfuel
          simp only [List.length_append] at hfuel
          exact hfuel
        have hlbl := psLen_lb hash pad k (seg.take (2 ^ k))
          (j0 :: jrest.filter (fun j => j < 2 ^ k)) (by simp)
        have hlbr := psLen_lb hash pad k (seg.drop (2 ^ k))
          (jr0r :: jrr.map (fun j => j - 2 ^ k)) (by simp)
        have hlenjr : jrest.length = (jrest.filter (fun j => j < 2 ^ k)).length
            + (jrest.filter (fun j => ¬j < 2 ^ k)).length := (lenSplit (2 ^ k) jrest).symm
        have hlenjrr : (jrest.filter (fun j => ¬j < 2 ^ k)).length = jrr.length + 1 := by
          rw [hjr]
          simp
        have hfuel2 : 2 * (j0 :: jrest.filter (fun j => j < 2 ^ k)).length
            + (proofSpec hash pad k (seg.take (2 ^ k))
                (j0 :: jrest.filter (fun j => j < 2 ^ k))).length ≤ fuel := by
          simp only [List.length_cons] at hfuelC ⊢
          omega
        rw [IH fuel stop (2 * F) (seg.take (2 ^ k)) j0 (jrest.filter (fun j => j < 2 ^ k))
          _ _ hs2 hb2 hlen2 hstop2 hres2 hfuel2]
        rw [hjr, List.map_cons, List.map_cons, List.cons_append]
        rw [Nat.add_sub_cancel_left]
        rw [hfk, climb_succ]
        dsimp only
        rw [if_neg (hstop k (Nat.lt_succ_self k))]
        have hdiv : (F * 2 ^ (k + 1) + (2 ^ k + jr0r)) / 2 ^ k = 2 * F + 1 := by
          have h1 : F * 2 ^ (k + 1) + (2 ^ k + jr0r) = jr0r + 2 ^ k * (2 * F + 1) := by
            rw [pow_succ]
            ring
          rw [h1, Nat.add_mul_div_left _ _ h2k]
          have h2 : jr0r / 2 ^ k = 0 := Nat.div_eq_of_lt (by omega)
          omega
        have hanc : Pos.isAncestorOf (Pos.sibling ⟨2 * F, k⟩)
            ⟨F * 2 ^ (k + 1) + (2 ^ k + jr0r), 0⟩ = true := by
          have hsib : Pos.sibling ⟨2 * F, k⟩ = ⟨2 * F + 1, k⟩ := by
            rw [Pos.sibling]
            rw [two_mul_xor_one]
          rw [hsib]
          exact anc_div_true hdiv
        rw [hanc, if_pos rfl]
        have hidx3 : F * 2 ^ (k + 1) + (2 ^ k + jr0r) = (2 * F + 1) * 2 ^ k + jr0r := by
          rw [pow_succ]
          ring
        have hval3 : seg.getD (2 ^ k + jr0r) dfl = (seg.drop (2 ^ k)).getD jr0r dfl :=
          (getD_drop seg (2 ^ k) jr0r dfl).symm
        have hjrrsub : ∀ j ∈ jrr, j ∈ jrest.filter (fun j => ¬j < 2 ^ k) := by
          intro j hj
          rw [hjr]
          exact List.mem_cons_of_mem _ hj
        have hpairs3 : jrr.map (fun j => (F * 2 ^ (k + 1) + j, seg.getD j dfl))
            = (jrr.map (fun j => j - 2 ^ k)).map
                (fun j => ((2 * F + 1) * 2 ^ k + j, (seg.drop (2 ^ k)).getD j dfl)) := by
          rw [List.map_map]
          apply List.map_congr_left
          intro j hj
          have hge : 2 ^ k ≤ j := by
            have := (List.mem_filter.mp (hjrrsub j hj)).2
            simp at this
            omega
          obtain ⟨jr, rfl⟩ : ∃ r, j = 2 ^ k + r := ⟨j - 2 ^ k, by omega⟩
          simp only [Function.comp_apply]
          rw [Nat.add_sub_cancel_left]
          have h1 : F * 2 ^ (k + 1) + (2 ^ k + jr) = (2 * F + 1) * 2 ^ k + jr := by
            rw [pow_succ]
            ring
          rw [h1, getD_drop]
        rw [hidx3, hval3, hpairs3]
        have hs3 : (jr0r :: jrr.map (fun j => j - 2 ^ k)).Pairwise (· < ·) := by
          have hsf : ((2 ^ k + jr0r) :: jrr).Pairwise (· < ·) := by
            rw [← hjr]
            exact ((List.pairwise_cons.mp hs).2).sublist (List.filter_sublist _)
          have hsm : (((2 ^ k + jr0r) :: jrr).map (fun j => j - 2 ^ k)).Pairwise (· < ·) := by
            apply List.pairwise_map.mpr
            apply List.Pairwise.imp_of_mem _ hsf
            intro a b ha hb2 hab
            have hga : 2 ^ k ≤ a := by
              rcases List.mem_cons.mp ha with h | h
              · omega
              · have := (List.mem_filter.mp (hjrrsub a h)).2
                simp at this
                omega
            omega
          rw [List.map_cons, Nat.add_sub_cancel_left] at hsm
          exact hsm
        have hb3 : ∀ j ∈ jr0r :: jrr.map (fun j => j - 2 ^ k),
            j < (seg.drop (2 ^ k)).length := by
          intro j hj
          rw [List.length_drop]
          rcases List.mem_cons.mp hj with h | h
          · omega
          · rw [List.mem_map] at h
            obtain ⟨a, ha, haj⟩ := h
            have h1 := hb a (List.mem_cons_of_mem _ (List.mem_filter.mp (hjrrsub a ha)).1)
            have h2 := (List.mem_filter.mp (hjrrsub a ha)).2
            simp only [decide_eq_true_eq] at h2
            omega
        have hlen3 : (seg.drop (2 ^ k)).length ≤ 2 ^ k := by
          rw [List.length_drop]
          omega
        have hstop3 : ∀ h, h < k → (some k : Option Nat) ≠ some h := by
          intro h hh hc
          have := Option.some.inj hc
          omega
        have hres3 : ∀ q ∈ restL, (2 * F + 1 + 1) * 2 ^ k ≤ q.1 := by
          intro q hq
          have h0 := hres q hq
          have h1 : (F + 1) * 2 ^ (k + 1) = (2 * F + 1 + 1) * 2 ^ k := by
            rw [pow_succ]
            ring
          omega
        have hfuel3 : 2 * (jr0r :: jrr.map (fun j => j - 2 ^ k)).length
            + (proofSpec hash pad k (seg.drop (2 ^ k))
                (jr0r :: jrr.map (fun j => j - 2 ^ k))).length ≤ fuel - (k + 1) := by
          simp only [List.length_cons, List.length_map] at hfuelC hlbl ⊢
          omega
        rw [IH (fuel - (k + 1)) (some k) (2 * F + 1) (seg.drop (2 ^ k)) jr0r
          (jrr.map (fun j => j - 2 ^ k)) restL restP hs3 hb3 hlen3 hstop3 hres3 hfuel3]
        have hfk2 : fuel - (k + 1) - k = fuel - (k + 1) - k - 1 + 1 := by
          simp only [List.length_cons, List.length_map] at hfuel3 hlbr
          omega
        rw [hfk2, climb_succ]
        rw [if_pos (show (some k : Option Nat) = some (Pos.mk (2 * F + 1) k).height from rfl)]
        dsimp only
        have hparEq : (Pos.parent ⟨2 * F, k⟩) = (⟨F, k + 1⟩ : Pos) := by
          have h1 : (2 * F) >>> 1 = F := by
            rw [Nat.shiftRight_one]
            omega
          rw [Pos.parent, h1]
        have hrsb : (Pos.isRightSibling ⟨2 * F, k⟩) = false := by
          rw [Pos.isRightSibling]
          simp
        have hval2 : hash (padRoot hash pad k (seg.take (2 ^ k)))
            (padRoot hash pad k (seg.drop (2 ^ k))) = padRoot hash pad (k + 1) seg := by
          rw [padRoot, if_neg (by omega)]
        rw [hrsb]
        simp only [Bool.false_eq_true, if_false]
        rw [hparEq, hval2]

theorem relIdx_zero {I : List Nat} {n : Nat} (hb : ∀ i ∈ I, i < n) :
    relIdx I 0 n = I := by
  rw [relIdx]
  have h1 : I.filter (fun i => decide (0 ≤ i) && decide (i < 0 + n)) = I := by
    apply List.filter_eq_self.mpr
    intro a ha
    have := hb a ha
    simp only [Bool.and_eq_true, decide_eq_true_eq]
    omega
  rw [h1]
  have h2 : I.map (fun i => i - 0) = I.map id := List.map_congr_left (fun a _ => by simp)
  rw [h2, List.map_id]

theorem zipMapSelf (g : Nat → α) : ∀ I : List Nat,
    I.zip (I.map g) = I.map (fun i => (i, g i)) := by
  intro I
  induction I with
  | nil => rfl
  | cons a rest IH =>
    rw [List.map_cons, List.zip_cons_cons, IH, List.map_cons]

theorem sorted_isSortedLe : ∀ I : List Nat, I.Pairwise (· < ·) → isSortedLe I = true := by
  intro I
  induction I with
  | nil => intro _; rfl
  | cons a rest IH =>
    intro hs
    cases rest with
    | nil => rfl
    | cons b rest2 =>
      rw [isSortedLe]
      have hab : a < b := (List.pairwise_cons.mp hs).1 b (List.mem_cons_self _ _)
      rw [Bool.and_eq_true]
      exact ⟨by simpa using Nat.le_of_lt hab, IH (List.pairwise_cons.mp hs).2⟩

theorem climb_done (fuel : Nat) (hf : 1 ≤ fuel) (pos : Pos) (active : α) :
    climb hash fuel none pos active [] ([] : List α) = .ok (active, [], []) := by
  match fuel, hf with
  | f + 1, _ =>
    rw [climb_succ]
    rw [if_neg (by simp)]

theorem calcRootSpec (ls : List α) (I : List Nat) (H : Nat)
    (hne : I ≠ []) (hs : I.Pairwise (· < ·)) (hb : ∀ i ∈ I, i < ls.length)
    (hlen : ls.length ≤ 2 ^ H) :
    calcRoot hash
        (validatorFuel (I.map (fun i => (i, ls.getD i dfl))) (proofSpec hash pad H ls I))
        none (I.map (fun i => (i, ls.getD i dfl))) (proofSpec hash pad H ls I)
      = .ok (padRoot hash pad H ls, [], []) := by
  match I, hne with
  | j0 :: jrest, _ =>
    rw [List.map_cons, calcRoot]
    have h0 : (j0 , ls.getD j0 dfl) = ((0 : Nat) * 2 ^ H + j0, ls.getD j0 dfl) := by
      rw [Nat.zero_mul, Nat.zero_add]
    have hmap : jrest.map (fun i => (i, ls.getD i dfl))
        = jrest.map (fun j => ((0 : Nat) * 2 ^ H + j, ls.getD j dfl)) :=
      List.map_congr_left (fun a _ => by rw [Nat.zero_mul, Nat.zero_add])
    have hlb := psLen_lb hash pad H ls (j0 :: jrest) (by simp)
    rw [show (⟨j0, 0⟩ : Pos) = ⟨0 * 2 ^ H + j0, 0⟩ by rw [Nat.zero_mul, Nat.zero_add]]
    rw [hmap]
    rw [show jrest.map (fun j => ((0 : Nat) * 2 ^ H + j, ls.getD j dfl))
        = jrest.map (fun j => ((0 : Nat) * 2 ^ H + j, ls.getD j dfl)) ++ [] from
      (List.append_nil _).symm]
    rw [show proofSpec hash pad H ls (j0 :: jrest)
        = proofSpec hash pad H ls (j0 :: jrest) ++ [] from (List.append_nil _).symm]
    rw [climbW hash dfl pad H _ none 0 ls j0 jrest [] [] hs hb hlen
      (by intro h _ hc; cases hc) (by intro q hq; cases hq)
      (by
        simp only [validatorFuel, List.length_cons, List.length_map, List.length_append,
          List.length_nil]
        omega)]
    rw [climb_done hash _
      (by
        simp only [validatorFuel, List.length_cons, List.length_map, List.length_append,
          List.length_nil]
        simp only [List.length_cons] at hlb
        omega)]

/-- C1: for every nonempty leaf sequence, every nonempty sorted set of proven
leaf indices, every minimum height and every cache configuration, building the
tree with those leaves-to-prove, adding all leaves, and validating the sorted
indices, the leaves at those indices, the tree's Proof() and the tree's Root()
with the same hash returns valid = true with no error. -/
theorem C1_validate_roundtrip [DecidableEq α] (p : Nat → Bool) (f : Nat → Rdr α)
    (I : List Nat) (minH : Nat) (ls : List α)
    (hne : I ≠ []) (hs : I.Pairwise (· < ·)) (hb : ∀ i ∈ I, i < ls.length) :
    validatePartialTree hash I (I.map (fun i => ls.getD i dfl))
        (treeProofOf hash dfl pad (addAll hash dfl (buildTree I ⟨[], p, f⟩ minH) ls))
        ((treeRootOf hash dfl pad (addAll hash dfl (buildTree I ⟨[], p, f⟩ minH) ls)).getD dfl)
      = (true, none) := by
  have hpos : 0 < ls.length := by
    match I, hne with
    | i :: _, _ => exact Nat.lt_of_le_of_lt (Nat.zero_le _) (hb i (List.mem_cons_self _ _))
  have hgm := goMaster hash dfl pad p f I minH ls hs hpos
  rw [relIdx_zero hb] at hgm
  have hroot : treeRootOf hash dfl pad (addAll hash dfl (buildTree I ⟨[], p, f⟩ minH) ls)
      = some (padRoot hash pad
          (max minH (if ls.length = 2 ^ Nat.log2 ls.length
            then Nat.log2 ls.length else Nat.log2 ls.length + 1)) ls) := by
    rw [treeRootOf, hgm]
  have hproof : treeProofOf hash dfl pad (addAll hash dfl (buildTree I ⟨[], p, f⟩ minH) ls)
      = proofSpec hash pad
          (max minH (if ls.length = 2 ^ Nat.log2 ls.length
            then Nat.log2 ls.length else Nat.log2 ls.length + 1)) ls I := by
    rw [treeProofOf, hgm]
  rw [hroot, hproof, Option.getD_some]
  have hlen : ls.length ≤ 2 ^ (max minH (if ls.length = 2 ^ Nat.log2 ls.length
      then Nat.log2 ls.length else Nat.log2 ls.length + 1)) := by
    by_cases heq : ls.length = 2 ^ Nat.log2 ls.length
    · rw [if_pos heq]
      calc ls.length = 2 ^ Nat.log2 ls.length := heq
        _ ≤ 2 ^ max minH (Nat.log2 ls.length) :=
          Nat.pow_le_pow_right (by norm_num) (Nat.le_max_right _ _)
    · rw [if_neg heq]
      calc ls.length ≤ 2 ^ (Nat.log2 ls.length + 1) := le_of_lt Nat.lt_log2_self
        _ ≤ 2 ^ max minH (Nat.log2 ls.length + 1) :=
          Nat.pow_le_pow_right (by norm_num) (Nat.le_max_right _ _)
  rw [validatePartialTree]
  rw [if_neg (show ¬I.length ≠ (I.map (fun i => ls.getD i dfl)).length by
    rw [List.length_map]
    exact fun hc => hc rfl)]
  rw [if_neg (show ¬(I.map (fun i => ls.getD i dfl)).length = 0 by
    rw [List.length_map]
    intro hc
    rw [List.length_eq_zero] at hc
    exact hne hc)]
  rw [if_neg (show ¬¬isSortedLe I = true from not_not_intro (sorted_isSortedLe I hs))]
  have hnd : I.Nodup := hs.imp (fun h => Nat.ne_of_lt h)
  rw [if_neg (show ¬I.dedup.length ≠ I.length by
    rw [List.Nodup.dedup hnd]
    exact fun hc => hc rfl)]
  rw [zipMapSelf]
  dsimp only
  rw [calcRootSpec hash dfl pad ls I _ hne hs hb hlen]
  simp

theorem C1_validate_roundtrip_witness :
    (([0, 2] : List Nat) ≠ [] ∧ ([0, 2] : List Nat).Pairwise (· < ·)
      ∧ (∀ i ∈ ([0, 2] : List Nat), i < ([3, 5, 7] : List Nat).length))
    ∧ validatePartialTree (fun a b : Nat => a + 2 * b + 1) [0, 2]
        (([0, 2] : List Nat).map (fun i => ([3, 5, 7] : List Nat).getD i 0))
        (treeProofOf (fun a b : Nat => a + 2 * b + 1) 0 0
          (addAll (fun a b : Nat => a + 2 * b + 1) 0
            (buildTree [0, 2] ⟨[], fun _ => false, fun _ => Rdr.slice [] 0 []⟩ 0) [3, 5, 7]))
        ((treeRootOf (fun a b : Nat => a + 2 * b + 1) 0 0
          (addAll (fun a b : Nat => a + 2 * b + 1) 0
            (buildTree [0, 2] ⟨[], fun _ => false, fun _ => Rdr.slice [] 0 []⟩ 0) [3, 5, 7])).getD 0)
      = (true, none) :=
  ⟨⟨by decide, by decide, by decide⟩,
    C1_validate_roundtrip (fun a b : Nat => a + 2 * b + 1) 0 0 (fun _ => false)
      (fun _ => Rdr.slice [] 0 []) [0, 2] 0 [3, 5, 7] (by decide) (by decide) (by decide)⟩


end Validator


section ParkedRoundTrip

variable {α : Type} (hash : α → α → α) (dfl pad : α)

theorem setParkedLoop_values :
    ∀ (nodes : List (Option α)) (c : CacheSt α) (h : Nat) (b : Bool),
    nodes ≠ [] →
    (setParkedLoop c h nodes [{ parking := emptyNode, hasCache := b }]).1.map
      (fun l => l.parking.value) = nodes := by
  intro nodes
  induction nodes with
  | nil =>
    intro c h b hne
    exact absurd rfl hne
  | cons nd nrest IH =>
    intro c h b _
    rw [setParkedLoop.eq_def]
    cases nrest with
    | nil =>
      dsimp only
      cases nd <;> rfl
    | cons nd2 nrest2 =>
      dsimp only
      rw [if_neg (by simp)]
      dsimp only
      rw [List.map_cons]
      rw [IH _ _ _ (by simp)]
      cases nd <;> rfl

/-- C9 (amended): `SetParkedNodes(GetParkedNodes())` applied to a freshly
built tree with the same minimum height restores the value-level tree state:
for every further leaf sequence the round-trip tree and the original return
equal `GetParkedNodes()` and equal `Root()` (for any proving or caching
configuration of either tree). -/
theorem C9_parked_roundtrip_values (p p2 : Nat → Bool) (f f2 : Nat → Rdr α)
    (I I2 : List Nat) (minH : Nat) (ls0 ls1 : List α) :
    getParkedNodes (addAll hash dfl
        (setParkedNodes (buildTree I2 ⟨[], p2, f2⟩ minH)
          (getParkedNodes (addAll hash dfl (buildTree I ⟨[], p, f⟩ minH) ls0))) ls1)
      = getParkedNodes (addAll hash dfl (addAll hash dfl (buildTree I ⟨[], p, f⟩ minH) ls0) ls1)
    ∧ treeRootOf hash dfl pad (addAll hash dfl
        (setParkedNodes (buildTree I2 ⟨[], p2, f2⟩ minH)
          (getParkedNodes (addAll hash dfl (buildTree I ⟨[], p, f⟩ minH) ls0))) ls1)
      = treeRootOf hash dfl pad (addAll hash dfl
          (addAll hash dfl (buildTree I ⟨[], p, f⟩ minH) ls0) ls1) := by
  have hne : (addAll hash dfl (buildTree I ⟨[], p, f⟩ minH) ls0).layers ≠ [] :=
    (addAll_sim hash dfl (buildTree_sim p f I minH).1 (buildTree_sim p f I minH).2 ls0).2
  have hnn : getParkedNodes (addAll hash dfl (buildTree I ⟨[], p, f⟩ minH) ls0) ≠ [] := by
    rw [getParkedNodes]
    intro hc
    rw [List.map_eq_nil_iff] at hc
    exact hne hc
  have hvals : (setParkedNodes (buildTree I2 ⟨[], p2, f2⟩ minH)
        (getParkedNodes (addAll hash dfl (buildTree I ⟨[], p, f⟩ minH) ls0))).layers.map
        (fun l => l.parking.value)
      = (addAll hash dfl (buildTree I ⟨[], p, f⟩ minH) ls0).layers.map
        (fun l => l.parking.value) := by
    rw [setParkedNodes]
    dsimp only
    rw [show (buildTree I2 (⟨[], p2, f2⟩ : CacheSt α) minH).layers
        = [{ parking := emptyNode,
             hasCache := ((⟨[], p2, f2⟩ : CacheSt α).getLayerWriter 0).2 }] from rfl]
    rw [setParkedLoop_values _ _ _ _ hnn]
    rfl
  have hmap := addAll_values hash dfl ls1 _ _ hvals
  constructor
  · exact hmap
  · rw [treeRootOf, treeRootOf, rootAndProof, rootAndProof]
    have hm1 : (addAll hash dfl
        (setParkedNodes (buildTree I2 ⟨[], p2, f2⟩ minH)
          (getParkedNodes (addAll hash dfl (buildTree I ⟨[], p, f⟩ minH) ls0))) ls1).minHeight
        = minH := by
      rw [addAll_minHeight]
      rfl
    have hm2 : (addAll hash dfl
        (addAll hash dfl (buildTree I ⟨[], p, f⟩ minH) ls0) ls1).minHeight = minH := by
      rw [addAll_minHeight, addAll_minHeight]
      rfl
    rw [hm1, hm2]
    exact fin_root_values hash dfl pad
      ((addAll hash dfl
          (setParkedNodes (buildTree I2 ⟨[], p2, f2⟩ minH)
            (getParkedNodes (addAll hash dfl (buildTree I ⟨[], p, f⟩ minH) ls0))) ls1).layers.length
        + minH)
      minH 0 _ _ emptyNode emptyNode _ _ (by omega) hmap rfl

theorem finalize_two_layer_proof (l0 l1 : GoLayer α) (pr : List α)
    (h0 : l0.parking.value = none) :
    (finalizeLoop hash dfl pad 0 0 [l0, l1] emptyNode pr).2 = pr := by
  rw [finalizeLoop_cons_step hash dfl pad 0 0 l0 [l1] emptyNode pr (by
    intro hc
    have := hc.2.1
    simp at this)]
  have hE : l0.parking.isEmpty = true := by
    rw [PNode.isEmpty, h0]
    rfl
  have hce : calcEphemeralParent hash dfl pad l0.parking emptyNode
      = (emptyNode, emptyNode, emptyNode) := by
    rw [calcEphemeralParent]
    rw [if_neg (by simp [hE]), if_neg (by simp [hE]),
      if_neg (by simp [PNode.isEmpty, emptyNode])]
  rw [hce]
  dsimp only
  rw [finalizeLoop_cons_done hash dfl pad 0 1 l1 [] emptyNode _ ⟨by omega, rfl, rfl⟩]
  rw [emitChildren]
  rw [if_neg (by simp [emptyNode])]
  rw [List.append_nil]

theorem C9_roundtrip_proof_divergence :
    treeProofOf (fun a b : Nat => a + 2 * b + 1) 0 0
        (addAll (fun a b : Nat => a + 2 * b + 1) 0
          (setParkedNodes (newProvingTree [1])
            (getParkedNodes
              (addAll (fun a b : Nat => a + 2 * b + 1) 0 (newProvingTree [1]) [10])))
          [20])
      ≠ treeProofOf (fun a b : Nat => a + 2 * b + 1) 0 0
        (addAll (fun a b : Nat => a + 2 * b + 1) 0
          (addAll (fun a b : Nat => a + 2 * b + 1) 0 (newProvingTree [1]) [10]) [20]) := by
  intro hc
  have hg : getParkedNodes
        (addAll (fun a b : Nat => a + 2 * b + 1) 0 (newProvingTree [1]) [10])
      = [some 10] := rfl
  have hone : setParkedLoop (newProvingTree [1] : GoTree Nat).cache 0 [some 10]
        (newProvingTree [1] : GoTree Nat).layers
      = ([⟨⟨some 10, false⟩, false⟩], (newProvingTree [1] : GoTree Nat).cache) := by
    rw [show (newProvingTree [1] : GoTree Nat).layers = [⟨emptyNode, false⟩] from rfl]
    rw [setParkedLoop.eq_def]
    rfl
  have hsp : setParkedNodes (newProvingTree [1] : GoTree Nat) [some 10]
      = { newProvingTree [1] with layers := [⟨⟨some 10, false⟩, false⟩] } := by
    rw [setParkedNodes]
    dsimp only
    rw [hone]
  rw [hg, hsp] at hc
  have e1 : treeProofOf (fun a b : Nat => a + 2 * b + 1) 0 0
        (addAll (fun a b : Nat => a + 2 * b + 1) 0
          ({ newProvingTree [1] with
              layers := [⟨⟨some 10, false⟩, false⟩] } : GoTree Nat) [20])
      = (finalizeLoop (fun a b : Nat => a + 2 * b + 1) 0 0 0 0
          [⟨⟨none, false⟩, false⟩, ⟨⟨some 51, false⟩, false⟩] emptyNode []).2 := rfl
  have e2 : treeProofOf (fun a b : Nat => a + 2 * b + 1) 0 0
        (addAll (fun a b : Nat => a + 2 * b + 1) 0
          (addAll (fun a b : Nat => a + 2 * b + 1) 0 (newProvingTree [1]) [10]) [20])
      = (finalizeLoop (fun a b : Nat => a + 2 * b + 1) 0 0 0 0
          [⟨⟨none, false⟩, false⟩, ⟨⟨some 51, true⟩, false⟩] emptyNode [10]).2 := rfl
  rw [e1, e2] at hc
  rw [finalize_two_layer_proof _ _ _ _ _ _ rfl,
    finalize_two_layer_proof _ _ _ _ _ _ rfl] at hc
  cases hc


end ParkedRoundTrip


section CacheGeometry

variable {α : Type} (hash : α → α → α) (dfl pad : α)

theorem appendAll_empty_slice : ∀ (vs data : List α),
    appendAll (Rdr.slice data 0 []) vs = Rdr.slice (data ++ vs) 0 [] := by
  intro vs
  induction vs with
  | nil =>
    intro data
    simp [appendAll]
  | cons v rest IH =>
    intro data
    have hstep : appendAll (Rdr.slice data 0 []) (v :: rest)
        = appendAll (Rdr.slice (data ++ [v]) 0 []) rest := rfl
    rw [hstep, IH, List.append_assoc]
    rfl

theorem validateLoop_none (c : CacheSt α) (w0 : Nat)
    (hw : ∀ m r, c.getAt m = some r → Rdr.width r = w0 >>> m) :
    ∀ rem i, validateLoop c w0 i rem = none := by
  intro rem
  induction rem with
  | zero => intro i; rfl
  | succ rem IH =>
    intro i
    rw [validateLoop]
    cases hg : c.getAt i with
    | none =>
      exact IH (i + 1)
    | some r =>
      dsimp only
      rw [if_neg (not_not_intro (hw i r hg))]
      exact IH (i + 1)

/-- C3 (amended): for a tree built over an initially empty cache with any
caching policy that includes the base layer, after adding a non-empty leaf
sequence every materialized cache layer at height `h` has width
`width(0) >> h` (the floor of `width(0)/2^h`, not the ceiling), and the cache
structure validation accepts the cache. -/
theorem C3_cache_floor_widths (p : Nat → Bool) (I : List Nat) (minH : Nat)
    (ls : List α) (hs : I.Pairwise (· < ·)) (hpos : 0 < ls.length)
    (hp0 : p 0 = true) :
    (∀ j r, (addAll hash dfl
          (buildTree I ⟨[], p, fun _ => Rdr.slice [] 0 []⟩ minH) ls).cache.getAt j = some r
        → Rdr.width r = ls.length >>> j)
    ∧ validateStructure (addAll hash dfl
        (buildTree I ⟨[], p, fun _ => Rdr.slice [] 0 []⟩ minH) ls).cache = none := by
  obtain ⟨hsim2, hne2⟩ := addAll_sim hash dfl
    (buildTree_sim p (fun _ => Rdr.slice [] 0 []) I minH).1
    (buildTree_sim p (fun _ => Rdr.slice [] 0 []) I minH).2 ls
  obtain ⟨hparks, hproof, htp, hci, hhc, hlog0, hgetAt, hpol, hfac⟩ := hsim2
  obtain ⟨hmp, hml, hmq, hmc⟩ := mMaster hash dfl dfl ls I hs hpos
  have hlen_layers : (addAll hash dfl
        (buildTree I ⟨[], p, fun _ => Rdr.slice [] 0 []⟩ minH) ls).layers.length
      = Nat.log2 ls.length + 1 := by
    have h1 := congrArg List.length (hparks.symm.trans hmp)
    rw [List.length_map, specParks_length] at h1
    exact h1
  have hwidth : ∀ j r, (addAll hash dfl
        (buildTree I ⟨[], p, fun _ => Rdr.slice [] 0 []⟩ minH) ls).cache.getAt j = some r
      → Rdr.width r = ls.length >>> j := by
    intro j r hr
    rw [hgetAt j] at hr
    by_cases hcond : p j = true ∧ (j = 0 ∨ j < (addAll hash dfl
        (buildTree I ⟨[], p, fun _ => Rdr.slice [] 0 []⟩ minH) ls).layers.length)
    · rw [if_pos hcond] at hr
      injection hr with hr
      subst hr
      rw [hml]
      have hjB : j < Nat.log2 ls.length + 1 := by
        rcases hcond.2 with h | h
        · omega
        · rw [hlen_layers] at h
          exact h
      dsimp only
      rw [if_pos hjB]
      rw [appendAll_empty_slice]
      rw [Rdr.width]
      rw [List.nil_append, levelVals]
      rw [List.length_map, List.length_range, Nat.shiftRight_eq_div_pow]
    · rw [if_neg hcond] at hr
      cases hr
  refine ⟨hwidth, ?_⟩
  rw [validateStructure]
  have hg0 := hgetAt 0
  rw [if_pos ⟨hp0, Or.inl rfl⟩] at hg0
  rw [hg0]
  dsimp only
  have hbw := hwidth 0 _ hg0
  rw [Nat.shiftRight_eq_div_pow, pow_zero, Nat.div_one] at hbw
  rw [hbw]
  rw [if_neg (by omega)]
  exact validateLoop_none _ _ hwidth _ _

theorem C3_ceil_counterexample :
    (((addAll (fun a b : Nat => a + 2 * b + 1) 0
        (buildTree [] ⟨[], fun _ => true, fun _ => Rdr.slice [] 0 []⟩ 0)
        [1, 2, 3, 4, 5, 6, 7, 8, 9, 10]).cache.getAt 2).map Rdr.width = some 2)
    ∧ (2 : Nat) ≠ (10 + 2 ^ 2 - 1) / 2 ^ 2 := ⟨by decide, by decide⟩

theorem C3_cache_floor_widths_witness :
    (([] : List Nat).Pairwise (· < ·) ∧ 0 < ([1, 2, 3] : List Nat).length
      ∧ (fun _ : Nat => true) 0 = true)
    ∧ ((∀ j r, (addAll (fun a b : Nat => a + 2 * b + 1) 0
          (buildTree [] ⟨[], fun _ => true, fun _ => Rdr.slice [] 0 []⟩ 0)
          [1, 2, 3]).cache.getAt j = some r
        → Rdr.width r = ([1, 2, 3] : List Nat).length >>> j)
      ∧ validateStructure (addAll (fun a b : Nat => a + 2 * b + 1) 0
          (buildTree [] ⟨[], fun _ => true, fun _ => Rdr.slice [] 0 []⟩ 0)
          [1, 2, 3]).cache = none) :=
  ⟨⟨by decide, by decide, rfl⟩,
    C3_cache_floor_widths (fun a b : Nat => a + 2 * b + 1) 0 (fun _ => true) [] 0
      [1, 2, 3] (by decide) (by decide) rfl⟩


end CacheGeometry


section GenerateFromCache

variable {α : Type} (hash : α → α → α) (dfl pad : α)


end GenerateFromCache

end Merkle
